import Mathlib

/-!
# Buffer cache of kernel/bio.c

A shallow embedding of the hashed buffer cache (`binit`, `bget`, `bread`,
`bwrite`, `brelse`, `bpin`, `bunpin`) and the properties its specification
states about it.

Representation.
* A pointer `struct buf *` into `bcache.buf[NBUF]` is the index of the slot.
* The circular doubly-linked list hanging off the sentinel
  `bcache.hashbucket[i]` is the sequence of slot indices met when walking
  `next` from the sentinel: the first element is `hashbucket[i].next`, the
  last element is `hashbucket[i].prev`.  Walking `prev` is walking the reversed
  sequence.  Unlinking a node (`b->next->prev = b->prev; b->prev->next =
  b->next`) erases it from the sequence that holds it; inserting after the
  sentinel puts it in front.
* Every operation is executed atomically (the bucket spinlocks are not
  modelled); the sleep-lock of a slot is modelled by its holder.
* `NBUCKETS` and `NBUF` are parameters `nb` and `nbuf` of the operations and
  of the theorems, which hold for every `nb > 0`; bio.c has `NBUCKETS = 13`.
-/

namespace BufCache

/-- The constant `NBUCKETS` of bio.c. -/
def NBUCKETS : Nat := 13

/-- Modelled from the spec: buf.h is absent.  A buffer slot: validity flag,
device, block number, content lock (`none` when free, `some p` when held by
process `p`), reference count and content.  The reference count is an
integer that `++` and `--` move by one and that `bget` and `brelse` compare
with 0; its machine width is not modelled, so a count never wraps around.
The content stands for the `BSIZE` data bytes. -/
structure Buf where
  valid : Nat
  dev : Nat
  blockno : Nat
  lock : Option Nat
  refcnt : Int
  data : Nat
  deriving DecidableEq, Repr

/-- A slot of the zero-initialised global `bcache`. -/
def Buf.zero : Buf :=
  { valid := 0, dev := 0, blockno := 0, lock := none, refcnt := 0, data := 0 }

/-- One call of the disk collaborator `virtio_disk_rw`. -/
inductive DiskEvent where
  | read (dev blockno : Nat)
  | write (dev blockno data : Nat)
  deriving DecidableEq, Repr

/-- The global `bcache` (slots and bucket lists) together with the disk
behind it and the trace of the disk transfers performed so far. -/
structure Bcache where
  buf : Nat → Buf
  hashbucket : Nat → List Nat
  disk : Nat → Nat → Nat
  log : List DiskEvent

/-- Result of a kernel call: it returns, it stops in `panic`, or the calling
process sleeps in `acquiresleep` on a held lock. -/
inductive Outcome (α : Type) where
  | ok (r : α) (s : Bcache)
  | panic (msg : String) (s : Bcache)
  | blocked (s : Bcache)

/-- State carried by an outcome. -/
def Outcome.state {α : Type} : Outcome α → Bcache
  | .ok _ s => s
  | .panic _ s => s
  | .blocked s => s

/-- Pointwise update of a table indexed by naturals. -/
def upd {α : Type} (f : Nat → α) (a : Nat) (v : α) : Nat → α :=
  fun x => if x = a then v else f x

/-- Overwrite slot `b`. -/
def Bcache.setBuf (s : Bcache) (b : Nat) (x : Buf) : Bcache :=
  { s with buf := upd s.buf b x }

/-- Modelled from the spec: sleeplock.c is absent.  `holdingsleep`: the lock
is held, and held by the calling process. -/
def holdingsleep (s : Bcache) (p b : Nat) : Bool :=
  decide ((s.buf b).lock = some p)

/-- Modelled from the spec: sleeplock.c is absent.  `acquiresleep`: takes the
free lock for the caller; on a held lock the caller sleeps. -/
def acquiresleep (s : Bcache) (p b : Nat) : Outcome Nat :=
  match (s.buf b).lock with
  | none => .ok b (s.setBuf b { s.buf b with lock := some p })
  | some _ => .blocked s

/-- Modelled from the spec: sleeplock.c is absent.  `releasesleep`. -/
def releasesleep (s : Bcache) (b : Nat) : Bcache :=
  s.setBuf b { s.buf b with lock := none }

/-- Modelled from the spec: virtio_disk.c is absent.  `virtio_disk_rw(b, w)`
transfers the content of slot `b` from (`w = false`) or to (`w = true`) the
disk block `(b->dev, b->blockno)`, synchronously. -/
def virtio_disk_rw (s : Bcache) (b : Nat) (w : Bool) : Bcache :=
  let x := s.buf b
  if w then
    { s with
      disk := fun d n => if d = x.dev ∧ n = x.blockno then x.data else s.disk d n
      log := s.log ++ [DiskEvent.write x.dev x.blockno x.data] }
  else
    { s with
      buf := upd s.buf b { x with data := s.disk x.dev x.blockno }
      log := s.log ++ [DiskEvent.read x.dev x.blockno] }

/-- Insert slot `b` right after the sentinel of bucket `h`. -/
def pushHead (s : Bcache) (h b : Nat) : Bcache :=
  { s with hashbucket := upd s.hashbucket h (b :: s.hashbucket h) }

/-- Take slot `b` out of the list it is linked in. -/
def unlink (s : Bcache) (b : Nat) : Bcache :=
  { s with hashbucket := fun i => (s.hashbucket i).erase b }

/-- Memory before `binit`: zeroed slots, no list. -/
def Bcache.zero : Bcache :=
  { buf := fun _ => Buf.zero, hashbucket := fun _ => [],
    disk := fun _ _ => 0, log := [] }

/-- The cache after `binit`, on the disk `disk`: the first loop makes the
`nb` lists empty, the second puts slot `i` at the head of list `i % nb`. -/
def binitOn (disk : Nat → Nat → Nat) (nb nbuf : Nat) : Bcache :=
  (List.range nbuf).foldl (fun s i => pushHead s (i % nb) i)
    { Bcache.zero with disk := disk }

/-- The function `binit` with `nb` buckets and `nbuf` slots, the disk being
all zero. -/
def binit (nb nbuf : Nat) : Bcache :=
  binitOn (fun _ _ => 0) nb nbuf

/-- First loop of `bget`: walk `next` from the sentinel, stop at the first
slot with the wanted device and block number. -/
def scanHit (buf : Nat → Buf) (dev blockno : Nat) (l : List Nat) : Option Nat :=
  l.find? (fun b => decide ((buf b).dev = dev ∧ (buf b).blockno = blockno))

/-- Free-slot loop of `bget`: walk `prev` from the sentinel, stop at the
first slot with `refcnt == 0`. -/
def scanFree (buf : Nat → Buf) (l : List Nat) : Option Nat :=
  l.reverse.find? (fun b => decide ((buf b).refcnt = 0))

/-- Outer loop of `bget` over the other buckets, given the indices still to
visit: the bucket and the slot of the first free slot met. -/
def scanOthers (s : Bcache) (h : Nat) : List Nat → Option (Nat × Nat)
  | [] => none
  | i :: rest =>
    if i = h then scanOthers s h rest
    else
      match scanFree s.buf (s.hashbucket i) with
      | some b => some (i, b)
      | none => scanOthers s h rest

/-- The four assignments `b->dev = dev; b->blockno = blockno; b->valid = 0;
b->refcnt = 1`. -/
def stamp (s : Bcache) (b dev blockno : Nat) : Bcache :=
  s.setBuf b { s.buf b with dev := dev, blockno := blockno, valid := 0, refcnt := 1 }

/-- The function `bget`, called by process `p`. -/
def bget (nb : Nat) (s : Bcache) (p dev blockno : Nat) : Outcome Nat :=
  let h := blockno % nb
  match scanHit s.buf dev blockno (s.hashbucket h) with
  | some b =>
    acquiresleep (s.setBuf b { s.buf b with refcnt := (s.buf b).refcnt + 1 }) p b
  | none =>
    match scanFree s.buf (s.hashbucket h) with
    | some b => acquiresleep (stamp s b dev blockno) p b
    | none =>
      match scanOthers s h (List.range nb) with
      | some (_, b) =>
        acquiresleep (pushHead (stamp (unlink s b) b dev blockno) h b) p b
      | none => .panic "bget: no buffers" s

/-- The function `bread`, called by process `p`. -/
def bread (nb : Nat) (s : Bcache) (p dev blockno : Nat) : Outcome Nat :=
  match bget nb s p dev blockno with
  | .ok b s1 =>
    if (s1.buf b).valid = 0 then
      let s2 := virtio_disk_rw s1 b false
      .ok b (s2.setBuf b { s2.buf b with valid := 1 })
    else .ok b s1
  | .panic m s1 => .panic m s1
  | .blocked s1 => .blocked s1

/-- The function `bwrite`, called by process `p`. -/
def bwrite (s : Bcache) (p b : Nat) : Outcome Unit :=
  if !holdingsleep s p b then .panic "bwrite" s
  else .ok () (virtio_disk_rw s b true)

/-- The function `brelse`, called by process `p`. -/
def brelse (nb : Nat) (s : Bcache) (p b : Nat) : Outcome Unit :=
  if !holdingsleep s p b then .panic "brelse" s
  else
    let s1 := releasesleep s b
    let h := (s1.buf b).blockno % nb
    let s2 := s1.setBuf b { s1.buf b with refcnt := (s1.buf b).refcnt - 1 }
    if (s2.buf b).refcnt = 0 then .ok () (pushHead (unlink s2 b) h b)
    else .ok () s2

/-- The function `bpin`. -/
def bpin (s : Bcache) (b : Nat) : Bcache :=
  s.setBuf b { s.buf b with refcnt := (s.buf b).refcnt + 1 }

/-- The function `bunpin`. -/
def bunpin (s : Bcache) (b : Nat) : Bcache :=
  s.setBuf b { s.buf b with refcnt := (s.buf b).refcnt - 1 }

/-- The holder of the content lock of slot `b` overwrites its content. -/
def setData (s : Bcache) (b c : Nat) : Bcache :=
  s.setBuf b { s.buf b with data := c }

/-- A call made to the cache by some process, or a change of the content of
a slot by the process holding it. -/
inductive Op where
  | bread (p dev blockno : Nat)
  | bwrite (p b : Nat)
  | brelse (p b : Nat)
  | bpin (b : Nat)
  | bunpin (b : Nat)
  | modify (p b c : Nat)
  deriving DecidableEq, Repr

/-- One atomically executed call that runs to completion under the caller
discipline: `brelse`, `bpin` and `bunpin` are applied to slots with
`refcnt > 0` only, and content is changed by the lock holder only.  A call
that panics or sleeps gives no successor. -/
def step (nb : Nat) (s : Bcache) : Op → Option Bcache
  | .bread p dev blockno =>
    match bread nb s p dev blockno with
    | .ok _ s1 => some s1
    | _ => none
  | .bwrite p b =>
    match bwrite s p b with
    | .ok _ s1 => some s1
    | _ => none
  | .brelse p b =>
    if 0 < (s.buf b).refcnt then
      match brelse nb s p b with
      | .ok _ s1 => some s1
      | _ => none
    else none
  | .bpin b => if 0 < (s.buf b).refcnt then some (bpin s b) else none
  | .bunpin b => if 0 < (s.buf b).refcnt then some (bunpin s b) else none
  | .modify p b c => if holdingsleep s p b then some (setData s b c) else none

/-- States reached from `binit` (on any disk) by atomically executed calls. -/
inductive Reachable (nb nbuf : Nat) : Bcache → Prop where
  | init (disk : Nat → Nat → Nat) : Reachable nb nbuf (binitOn disk nb nbuf)
  | step {s s1 : Bcache} (op : Op) :
      Reachable nb nbuf s → step nb s op = some s1 → Reachable nb nbuf s1

/-- Whether a call returned. -/
def Outcome.isOk {α : Type} : Outcome α → Bool
  | .ok _ _ => true
  | _ => false

/-- A `bread` followed, when it returns, by the `brelse` of the slot it
returned, both by process `p`. -/
def readRelease (nb : Nat) (s : Bcache) (p dev blockno : Nat) : Outcome Unit :=
  match bread nb s p dev blockno with
  | .ok b s1 => brelse nb s1 p b
  | .panic m s1 => .panic m s1
  | .blocked s1 => .blocked s1

/-- The ways `bget` reaches `acquiresleep`: the slot it chose and the cache
at that point.  `hit`: the first loop found the block; `recycle`: the second
loop found a free slot in the target bucket; `steal`: the third loop took a
free slot of bucket `i`. -/
inductive BgetCase (nb : Nat) (s : Bcache) (dev blockno : Nat) : Nat → Bcache → Prop where
  | hit (b : Nat) :
      scanHit s.buf dev blockno (s.hashbucket (blockno % nb)) = some b →
      BgetCase nb s dev blockno b
        (s.setBuf b { s.buf b with refcnt := (s.buf b).refcnt + 1 })
  | recycle (b : Nat) :
      scanHit s.buf dev blockno (s.hashbucket (blockno % nb)) = none →
      scanFree s.buf (s.hashbucket (blockno % nb)) = some b →
      BgetCase nb s dev blockno b (stamp s b dev blockno)
  | steal (i b : Nat) :
      scanHit s.buf dev blockno (s.hashbucket (blockno % nb)) = none →
      scanFree s.buf (s.hashbucket (blockno % nb)) = none →
      scanOthers s (blockno % nb) (List.range nb) = some (i, b) →
      BgetCase nb s dev blockno b
        (pushHead (stamp (unlink s b) b dev blockno) (blockno % nb) b)

/-- Structural invariant of the cache with `nb` buckets and `nbuf` slots.
* `nodup`, `disj`, `cover`, `bound`: the bucket lists partition the slots;
* `loc`: a referenced slot is in the bucket of its block number;
* `first`: a referenced slot is the first slot of its bucket carrying its
  device and block number;
* `nonneg`, `valid01`: range of the counters and flags. -/
structure Inv (nb nbuf : Nat) (s : Bcache) : Prop where
  nodup : ∀ i, (s.hashbucket i).Nodup
  disj : ∀ i j b, b ∈ s.hashbucket i → b ∈ s.hashbucket j → i = j
  cover : ∀ b, b < nbuf → ∃ i, i < nb ∧ b ∈ s.hashbucket i
  bound : ∀ i b, b ∈ s.hashbucket i → b < nbuf ∧ i < nb
  loc : ∀ b, (s.buf b).refcnt ≠ 0 → b ∈ s.hashbucket ((s.buf b).blockno % nb)
  first : ∀ i b, b ∈ s.hashbucket i → (s.buf b).refcnt ≠ 0 →
    scanHit s.buf (s.buf b).dev (s.buf b).blockno (s.hashbucket i) = some b
  nonneg : ∀ b, 0 ≤ (s.buf b).refcnt
  valid01 : ∀ b, (s.buf b).valid ≤ 1

/-- A run of completed calls from the first state to the second after each
of which slot `b` carries device `dev` and block number `blockno`: the slot
is not restamped for another block during the run. -/
inductive Kept (nb b dev blockno : Nat) : Bcache → Bcache → Prop where
  | refl (s : Bcache) : Kept nb b dev blockno s s
  | step {s s1 s2 : Bcache} (op : Op) :
      Kept nb b dev blockno s s1 → step nb s1 op = some s2 →
      (s2.buf b).dev = dev → (s2.buf b).blockno = blockno →
      Kept nb b dev blockno s s2

/-- Release times after a call made in state `s` at time `t`: a `brelse` that
brings the count of its slot from 1 to 0 gives the slot the time `t`. -/
def relAfter (s : Bcache) (rel : Nat → Nat) (t : Nat) : Op → Nat → Nat
  | .brelse _ b => if (s.buf b).refcnt = 1 then upd rel b t else rel
  | _ => rel

/-- States reached from `binit` by atomically executed calls in which slots
become free through `brelse` only (no `bunpin` brings a count to 0), together
with the number of calls made and, for each slot, the time of its last
release to `refcnt = 0`, which is 0 for a slot never released. -/
inductive ReachableT (nb nbuf : Nat) : Bcache → Nat → (Nat → Nat) → Prop where
  | init (disk : Nat → Nat → Nat) :
      ReachableT nb nbuf (binitOn disk nb nbuf) 0 (fun _ => 0)
  | step {s s1 : Bcache} {clock : Nat} {rel : Nat → Nat} (op : Op) :
      ReachableT nb nbuf s clock rel → step nb s op = some s1 →
      (∀ b, op = Op.bunpin b → (s.buf b).refcnt ≠ 1) →
      ReachableT nb nbuf s1 (clock + 1) (relAfter s rel (clock + 1) op)

/-- Recency order of the free slots of every bucket list: of two free slots,
the one nearer the tail was never released or was released earlier. -/
def Recency (s : Bcache) (rel : Nat → Nat) : Prop :=
  ∀ i, (s.hashbucket i).Pairwise
    (fun x y => (s.buf x).refcnt = 0 → (s.buf y).refcnt = 0 → rel y = 0 ∨ rel y < rel x)

/-- Slot `b` caches block `(dev, blockno)`: it carries the pair, is valid,
and is the slot the lookup loop of `bget` finds for the pair. -/
def Cached (nb : Nat) (s : Bcache) (b dev blockno : Nat) : Prop :=
  (s.buf b).dev = dev ∧ (s.buf b).blockno = blockno ∧ (s.buf b).valid = 1 ∧
    scanHit s.buf dev blockno (s.hashbucket (blockno % nb)) = some b

/-- A sequence of atomically executed calls, each running to completion
under the caller discipline of `step`. -/
def runOps (nb : Nat) (s : Bcache) : List Op → Option Bcache
  | [] => some s
  | op :: ops =>
    match step nb s op with
    | some s1 => runOps nb s1 ops
    | none => none

/-- States reached from `binit` by atomically executed calls that run to
completion, `brelse` and `bwrite` being made by the holder of the content
lock and every `bunpin` matching an earlier `bpin` of the same slot; the
second index counts, for each slot, the pins not yet matched. -/
inductive ReachableP (nb nbuf : Nat) : Bcache → (Nat → Nat) → Prop where
  | init (disk : Nat → Nat → Nat) : ReachableP nb nbuf (binitOn disk nb nbuf) (fun _ => 0)
  | bread {s s1 : Bcache} {pins : Nat → Nat} (p dev blockno b : Nat) :
      ReachableP nb nbuf s pins → bread nb s p dev blockno = .ok b s1 →
      ReachableP nb nbuf s1 pins
  | bwrite {s s1 : Bcache} {pins : Nat → Nat} (p b : Nat) :
      ReachableP nb nbuf s pins → bwrite s p b = .ok () s1 → ReachableP nb nbuf s1 pins
  | brelse {s s1 : Bcache} {pins : Nat → Nat} (p b : Nat) :
      ReachableP nb nbuf s pins → brelse nb s p b = .ok () s1 → ReachableP nb nbuf s1 pins
  | bpin {s : Bcache} {pins : Nat → Nat} (b : Nat) :
      ReachableP nb nbuf s pins → ReachableP nb nbuf (bpin s b) (upd pins b (pins b + 1))
  | bunpin {s : Bcache} {pins : Nat → Nat} (b : Nat) :
      ReachableP nb nbuf s pins → 0 < pins b →
      ReachableP nb nbuf (bunpin s b) (upd pins b (pins b - 1))
  | modify {s : Bcache} {pins : Nat → Nat} (p b c : Nat) :
      ReachableP nb nbuf s pins → (s.buf b).lock = some p →
      ReachableP nb nbuf (setData s b c) pins

/-- A run of completed calls from the first state to the second during which
no holder changes the content of a slot carrying block `(dev, blockno)` and
no `bwrite` is made from such a slot, so that the disk block is not
written. -/
inductive Quiet (nb dev blockno : Nat) : Bcache → Bcache → Prop where
  | refl (s : Bcache) : Quiet nb dev blockno s s
  | step {s s1 s2 : Bcache} (op : Op) :
      Quiet nb dev blockno s s1 → step nb s1 op = some s2 →
      (∀ p b c, op = Op.modify p b c →
        ¬ ((s1.buf b).dev = dev ∧ (s1.buf b).blockno = blockno)) →
      (∀ p b, op = Op.bwrite p b →
        ¬ ((s1.buf b).dev = dev ∧ (s1.buf b).blockno = blockno)) →
      Quiet nb dev blockno s s2

/-- Every valid slot caches the block it carries. -/
def ValidCached (nb : Nat) (s : Bcache) : Prop :=
  ∀ x, (s.buf x).valid ≠ 0 → Cached nb s x (s.buf x).dev (s.buf x).blockno

/-- The disk block `(dev, blockno)` and every valid slot carrying it hold
the content `c`. -/
def Coherent (s : Bcache) (dev blockno c : Nat) : Prop :=
  s.disk dev blockno = c ∧
    ∀ x, (s.buf x).dev = dev → (s.buf x).blockno = blockno → (s.buf x).valid ≠ 0 →
      (s.buf x).data = c

/-- The metadata fields of a slot. -/
inductive Field where
  | dev | blockno | valid | refcnt | next | prev
  deriving DecidableEq, Repr

/-- What a thread does, as far as locking goes: it takes or gives back the
spinlock of a bucket or the sleep-lock of a slot, it reads or writes a
metadata field of a slot (`owner` is the bucket whose list holds the slot at
that moment, `none` when the slot is in no list), it reads or writes a link
of the sentinel of a bucket, or it panics. -/
inductive Ev where
  | acquire (i : Nat)
  | release (i : Nat)
  | acquiresleep (b : Nat)
  | releasesleep (b : Nat)
  | read (f : Field) (b : Nat) (owner : Option Nat)
  | write (f : Field) (b : Nat) (owner : Option Nat)
  | headRead (i : Nat)
  | headWrite (i : Nat)
  | panic
  deriving DecidableEq, Repr

/-- Events of the first loop of `bget` over the slots from `hashbucket[o].next`
on: `b->dev == dev && b->blockno == blockno`, then `b->refcnt++` on a match,
`b = b->next` otherwise. -/
def hitLoop (buf : Nat → Buf) (dev blockno o : Nat) : List Nat → List Ev
  | [] => []
  | x :: t =>
    if (buf x).dev = dev then
      if (buf x).blockno = blockno then
        [Ev.read Field.dev x (some o), Ev.read Field.blockno x (some o),
          Ev.read Field.refcnt x (some o), Ev.write Field.refcnt x (some o)]
      else
        Ev.read Field.dev x (some o) :: Ev.read Field.blockno x (some o) ::
          Ev.read Field.next x (some o) :: hitLoop buf dev blockno o t
    else
      Ev.read Field.dev x (some o) :: Ev.read Field.next x (some o) ::
        hitLoop buf dev blockno o t

/-- Events of a free-slot loop of `bget` over the slots from
`hashbucket[o].prev` on (the list is given tail first): `b->refcnt == 0`, then
`b = b->prev` when the slot is not free. -/
def freeLoop (buf : Nat → Buf) (o : Nat) : List Nat → List Ev
  | [] => []
  | x :: t =>
    if (buf x).refcnt = 0 then [Ev.read Field.refcnt x (some o)]
    else
      Ev.read Field.refcnt x (some o) :: Ev.read Field.prev x (some o) :: freeLoop buf o t

/-- Events of the four assignments that stamp slot `b`. -/
def stampEvents (b : Nat) (owner : Option Nat) : List Ev :=
  [Ev.write Field.dev b owner, Ev.write Field.blockno b owner,
    Ev.write Field.valid b owner, Ev.write Field.refcnt b owner]

/-- The slot after `b` in the list `l` (`none`: the sentinel). -/
def succOf (l : List Nat) (b : Nat) : Option Nat :=
  ((l.dropWhile (fun x => decide (x ≠ b))).drop 1).head?

/-- The slot before `b` in the list `l` (`none`: the sentinel). -/
def predOf (l : List Nat) (b : Nat) : Option Nat :=
  (l.takeWhile (fun x => decide (x ≠ b))).getLast?

/-- Write of the link `f` of a node of the list of bucket `owner`: a slot, or
the sentinel. -/
def nodeWrite (f : Field) (n : Option Nat) (owner : Option Nat) : List Ev :=
  match n, owner with
  | some y, _ => [Ev.write f y owner]
  | none, some i => [Ev.headWrite i]
  | none, none => []

/-- Events of `b->next->prev = b->prev; b->prev->next = b->next`, the slot `b`
being in the list `l` of bucket `owner`. -/
def unlinkEvents (l : List Nat) (owner : Option Nat) (b : Nat) : List Ev :=
  [Ev.read Field.next b owner, Ev.read Field.prev b owner] ++
    nodeWrite Field.prev (succOf l b) owner ++
    [Ev.read Field.prev b owner, Ev.read Field.next b owner] ++
    nodeWrite Field.next (predOf l b) owner

/-- Events of the insertion of the unlinked slot `b` after the sentinel of
bucket `h`, whose list is `l`: `b->next = hashbucket[h].next; b->prev =
&hashbucket[h]; hashbucket[h].next->prev = b; hashbucket[h].next = b`. -/
def insertEvents (l : List Nat) (h b : Nat) : List Ev :=
  [Ev.headRead h, Ev.write Field.next b none, Ev.write Field.prev b none, Ev.headRead h] ++
    nodeWrite Field.prev l.head? (some h) ++ [Ev.headWrite h]

/-- Events of the outer loop of `bget` over the other buckets, given the
indices still to visit, up to the return or the panic. -/
def othersTrace (s : Bcache) (h : Nat) : List Nat → List Ev
  | [] => [Ev.panic]
  | i :: rest =>
    if i = h then othersTrace s h rest
    else
      Ev.acquire i :: Ev.headRead i :: freeLoop s.buf i (s.hashbucket i).reverse ++
        match scanFree s.buf (s.hashbucket i) with
        | some b =>
          unlinkEvents (s.hashbucket i) (some i) b ++ Ev.release i :: stampEvents b none ++
            Ev.acquire h :: insertEvents ((s.hashbucket h).erase b) h b ++
            [Ev.release h, Ev.acquiresleep b]
        | none => Ev.release i :: othersTrace s h rest

/-- Events of one execution of `bget`, up to the call of `acquiresleep` or
the panic. -/
def bgetTrace (nb : Nat) (s : Bcache) (dev blockno : Nat) : List Ev :=
  let h := blockno % nb
  Ev.acquire h :: Ev.headRead h :: hitLoop s.buf dev blockno h (s.hashbucket h) ++
    match scanHit s.buf dev blockno (s.hashbucket h) with
    | some b => [Ev.release h, Ev.acquiresleep b]
    | none =>
      Ev.headRead h :: freeLoop s.buf h (s.hashbucket h).reverse ++
        match scanFree s.buf (s.hashbucket h) with
        | some b => stampEvents b (some h) ++ [Ev.release h, Ev.acquiresleep b]
        | none => Ev.release h :: othersTrace s h (List.range nb)

/-- Events of one execution of `bread`: those of `bget`, then, when `bget`
returns, the test of `b->valid` and, after a disk read, its assignment. -/
def breadTrace (nb : Nat) (s : Bcache) (p dev blockno : Nat) : List Ev :=
  bgetTrace nb s dev blockno ++
    match bget nb s p dev blockno with
    | .ok b s1 =>
      Ev.read Field.valid b (some (blockno % nb)) ::
        (if (s1.buf b).valid = 0 then [Ev.write Field.valid b (some (blockno % nb))] else [])
    | _ => []

/-- The bucket, among the `nb` buckets, whose list holds slot `b`. -/
def ownerOf (nb : Nat) (s : Bcache) (b : Nat) : Option Nat :=
  (List.range nb).find? (fun i => decide (b ∈ s.hashbucket i))

/-- The list slot `b` is linked in. -/
def listOf (s : Bcache) : Option Nat → List Nat
  | some o => s.hashbucket o
  | none => []

/-- Events of one execution of `brelse` by process `p`. -/
def brelseTrace (nb : Nat) (s : Bcache) (p b : Nat) : List Ev :=
  if !holdingsleep s p b then [Ev.panic]
  else
    let o := ownerOf nb s b
    let h := (s.buf b).blockno % nb
    [Ev.releasesleep b, Ev.read Field.blockno b o, Ev.acquire h, Ev.read Field.refcnt b o,
      Ev.write Field.refcnt b o, Ev.read Field.refcnt b o] ++
      (if (s.buf b).refcnt - 1 = 0 then
        unlinkEvents (listOf s o) o b ++ insertEvents ((s.hashbucket h).erase b) h b
      else []) ++ [Ev.release h]

/-- Events of one execution of `bpin` or of `bunpin`, which differ in the
value written only. -/
def bpinTrace (nb : Nat) (s : Bcache) (b : Nat) : List Ev :=
  [Ev.read Field.blockno b (ownerOf nb s b), Ev.acquire ((s.buf b).blockno % nb),
    Ev.read Field.refcnt b (ownerOf nb s b), Ev.write Field.refcnt b (ownerOf nb s b),
    Ev.release ((s.buf b).blockno % nb)]

/-- Bucket locks held after an event. -/
def heldAfter (held : List Nat) : Ev → List Nat
  | .acquire i => i :: held
  | .release i => held.erase i
  | _ => held

/-- The locking discipline of a trace run with the bucket locks `held`: at
most one bucket lock is held at any point, a content lock is acquired with no
bucket lock held, and no bucket lock is held at the end. -/
def singleLock : List Nat → List Ev → Bool
  | held, [] => held.isEmpty
  | held, e :: es =>
    decide ((heldAfter held e).length ≤ 1) &&
      (match e with
        | .acquiresleep _ => held.isEmpty
        | _ => true) &&
      singleLock (heldAfter held e) es

/-- An access is covered when the lock of the bucket owning the slot, or of
the sentinel, is held; an access to a slot in no list is covered. -/
def covered (held : List Nat) : Ev → Bool
  | .read _ _ (some i) => decide (i ∈ held)
  | .write _ _ (some i) => decide (i ∈ held)
  | .headRead i => decide (i ∈ held)
  | .headWrite i => decide (i ∈ held)
  | _ => true

/-- Every access of the trace, run with the bucket locks `held`, is covered,
the accesses exempted by `ex` apart. -/
def lockedAccess (ex : Ev → Bool) : List Nat → List Ev → Bool
  | _, [] => true
  | held, e :: es => (ex e || covered held e) && lockedAccess ex (heldAfter held e) es

/-- The accesses made outside the bucket locks: the validity flag, and reads
of the block number. -/
def outsideLock : Ev → Bool
  | .read Field.valid _ _ => true
  | .write Field.valid _ _ => true
  | .read Field.blockno _ _ => true
  | _ => false

/-- Events that take or give back no lock. -/
def Ev.quiet : Ev → Bool
  | .acquire _ => false
  | .release _ => false
  | .acquiresleep _ => false
  | _ => true

/-- Where a thread stands in `bget`, between two lock-delimited sections:
`start`: before the first `acquire`; `others i`: in the loop over the other
buckets, about to visit bucket `i`, the lock of the target bucket given back;
`carry b`: slot `b` found free and unlinked, the lock of its old bucket given
back; `sleep b`: about to call `acquiresleep` on `b`; `done b`: returned `b`;
`dead`: panicked. -/
inductive Pc where
  | start
  | others (i : Nat)
  | carry (b : Nat)
  | sleep (b : Nat)
  | done (b : Nat)
  | dead
  deriving DecidableEq, Repr

/-- A thread running `bget(dev, blockno)` for process `p`. -/
structure Thread where
  p : Nat
  dev : Nat
  blockno : Nat
  pc : Pc
  deriving DecidableEq, Repr

/-- The next section of `bget` run by thread `t`, without interruption:
* from `start`: the target bucket is locked, searched for the block, then
  for a free slot, and unlocked;
* from `others i`: bucket `i`, unless it is the target, is locked, searched
  for a free slot, which is unlinked, and unlocked;
* from `carry b`: slot `b` is stamped, the target bucket is locked, `b` is
  inserted at its head, and the bucket is unlocked;
* from `sleep b`: the content lock of `b` is taken if it is free. -/
def bgetSection (nb : Nat) (s : Bcache) (t : Thread) : Bcache × Thread :=
  let h := t.blockno % nb
  match t.pc with
  | .start =>
    match scanHit s.buf t.dev t.blockno (s.hashbucket h) with
    | some b =>
      (s.setBuf b { s.buf b with refcnt := (s.buf b).refcnt + 1 }, { t with pc := .sleep b })
    | none =>
      match scanFree s.buf (s.hashbucket h) with
      | some b => (stamp s b t.dev t.blockno, { t with pc := .sleep b })
      | none => (s, { t with pc := .others 0 })
  | .others i =>
    if nb ≤ i then (s, { t with pc := .dead })
    else if i = h then (s, { t with pc := .others (i + 1) })
    else
      match scanFree s.buf (s.hashbucket i) with
      | some b => (unlink s b, { t with pc := .carry b })
      | none => (s, { t with pc := .others (i + 1) })
  | .carry b => (pushHead (stamp s b t.dev t.blockno) h b, { t with pc := .sleep b })
  | .sleep b =>
    match (s.buf b).lock with
    | none => (s.setBuf b { s.buf b with lock := some t.p }, { t with pc := .done b })
    | some _ => (s, t)
  | .done _ => (s, t)
  | .dead => (s, t)

/-- Thread `t` run alone for `k` sections. -/
def runAlone (nb : Nat) : Nat → Bcache × Thread → Bcache × Thread
  | 0, c => c
  | k + 1, c => runAlone nb k (bgetSection nb c.1 c.2)

/-- The scheduler lets thread number `k` run its next section. -/
def schedule (nb : Nat) (c : Bcache × List Thread) (k : Nat) : Bcache × List Thread :=
  match c.2.get? k with
  | some t => ((bgetSection nb c.1 t).1, c.2.set k (bgetSection nb c.1 t).2)
  | none => c

/-- An interleaving: the threads run their sections in the order `ks`. -/
def interleave (nb : Nat) (c : Bcache × List Thread) (ks : List Nat) : Bcache × List Thread :=
  ks.foldl (schedule nb) c

/-! ## The link fields

The lists of the buckets as the code has them: circular, doubly linked
through the fields `next` and `prev` of the slots and of one sentinel per
bucket. -/

/-- A `struct buf *`: the address of the sentinel of bucket `i`
(`&bcache.hashbucket[i]`), the address of slot `b` (`&bcache.buf[b]`), or the
null pointer. -/
inductive Node where
  | head (i : Nat)
  | slot (b : Nat)
  | null
  deriving DecidableEq, Repr

/-- The fields `next` and `prev` of the sentinels and of the slots. -/
structure Links where
  next : Node → Node
  prev : Node → Node

/-- The link fields of zeroed memory. -/
def Links.zero : Links :=
  { next := fun _ => Node.null, prev := fun _ => Node.null }

/-- The assignment `a->next = v`. -/
def Links.setNext (L : Links) (a v : Node) : Links :=
  { L with next := fun x => if x = a then v else L.next x }

/-- The assignment `a->prev = v`. -/
def Links.setPrev (L : Links) (a v : Node) : Links :=
  { L with prev := fun x => if x = a then v else L.prev x }

/-- The four assignments that put slot `b` right after the sentinel of bucket
`h`: `b->next = head.next; b->prev = &head; head.next->prev = b;
head.next = b`. -/
def insertHead (L : Links) (h b : Nat) : Links :=
  let L1 := L.setNext (.slot b) (L.next (.head h))
  let L2 := L1.setPrev (.slot b) (.head h)
  let L3 := L2.setPrev (L2.next (.head h)) (.slot b)
  L3.setNext (.head h) (.slot b)

/-- The two assignments that take slot `b` out of its list:
`b->next->prev = b->prev; b->prev->next = b->next`. -/
def unlinkNode (L : Links) (b : Nat) : Links :=
  let L1 := L.setPrev (L.next (.slot b)) (L.prev (.slot b))
  L1.setNext (L1.prev (.slot b)) (L1.next (.slot b))

/-- The link fields after `binit`, from the link fields `L` before it: the
first loop makes every sentinel its own `prev` and `next`, the second inserts
slot `i` at the head of bucket `i % nb`. -/
def binitLinks (nb nbuf : Nat) (L : Links) : Links :=
  (List.range nbuf).foldl (fun L i => insertHead L (i % nb) i)
    ((List.range nb).foldl
      (fun L i => (L.setPrev (.head i) (.head i)).setNext (.head i) (.head i)) L)

/-- The slots visited by `for (b = a; b != &bcache.hashbucket[h]; b = b->f)`,
where `f` is `next` or `prev`, in at most `k` steps.  The result is `none`
when the loop is not back at the sentinel of bucket `h` after `k` steps, or
when it leaves the slots (for the null pointer or another sentinel). -/
def walk (f : Node → Node) (h : Nat) : Nat → Node → Option (List Nat)
  | 0, _ => none
  | k + 1, a =>
    if a = .head h then some []
    else
      match a with
      | .slot b => (walk f h k (f (.slot b))).map (fun l => b :: l)
      | _ => none

/-- The loop `for (b = a; b != &bcache.hashbucket[h]; b = b->f)` that leaves
at the first slot satisfying `P`: `some (some b)` when it finds slot `b`,
`some none` when it comes back to the sentinel, `none` as for `walk`. -/
def search (f : Node → Node) (h : Nat) (P : Nat → Bool) : Nat → Node → Option (Option Nat)
  | 0, _ => none
  | k + 1, a =>
    if a = .head h then some none
    else
      match a with
      | .slot b => if P b then some (some b) else search f h P k (f (.slot b))
      | _ => none

/-- Outer loop of `bget` over the other buckets, on the link fields: the
first free slot met walking `prev` from the sentinels of the buckets still
to visit. -/
def othersLinks (nbuf : Nat) (buf : Nat → Buf) (L : Links) (h : Nat) :
    List Nat → Option (Option Nat)
  | [] => some none
  | i :: rest =>
    if i = h then othersLinks nbuf buf L h rest
    else
      match search L.prev i (fun b => decide ((buf b).refcnt = 0)) (nbuf + 1)
          (L.prev (.head i)) with
      | none => none
      | some (some b) => some (some b)
      | some none => othersLinks nbuf buf L h rest

/-- What `bget` does to the link fields, the loops following the pointers for
at most `nbuf + 1` steps: nothing when the block is found or a free slot is
found in the target bucket; the free slot found in another bucket is taken
out of its list and inserted at the head of the target bucket. -/
def bgetLinks (nb nbuf : Nat) (buf : Nat → Buf) (L : Links) (dev blockno : Nat) :
    Option Links :=
  let h := blockno % nb
  match search L.next h (fun b => decide ((buf b).dev = dev ∧ (buf b).blockno = blockno))
      (nbuf + 1) (L.next (.head h)) with
  | none => none
  | some (some _) => some L
  | some none =>
    match search L.prev h (fun b => decide ((buf b).refcnt = 0)) (nbuf + 1)
        (L.prev (.head h)) with
    | none => none
    | some (some _) => some L
    | some none =>
      match othersLinks nbuf buf L h (List.range nb) with
      | none => none
      | some (some b) => some (insertHead (unlinkNode L b) h b)
      | some none => some L

/-- What `brelse` does to the link fields: when the count of slot `b` falls
to 0 the slot is taken out of its list and inserted at the head of the bucket
of its block number. -/
def brelseLinks (nb : Nat) (s : Bcache) (L : Links) (p b : Nat) : Links :=
  if !holdingsleep s p b then L
  else if (s.buf b).refcnt - 1 = 0 then
    insertHead (unlinkNode L b) ((s.buf b).blockno % nb) b
  else L

/-- The link fields after a call made in state `s` with link fields `L`. -/
def linksAfter (nb nbuf : Nat) (s : Bcache) (L : Links) : Op → Option Links
  | .bread _ dev blockno => bgetLinks nb nbuf s.buf L dev blockno
  | .brelse p b => some (brelseLinks nb s L p b)
  | _ => some L

/-- The link fields from node `a` to node `z` run through the slots `l` in
this order: each `next` is the following node and each `prev` the one
before. -/
def Chain (L : Links) : Node → List Nat → Node → Prop
  | a, [], z => L.next a = z ∧ L.prev z = a
  | a, b :: t, z => L.next a = .slot b ∧ L.prev (.slot b) = a ∧ Chain L (.slot b) t z

/-- The link fields `L` hold the lists `bk`: from the sentinel of each of the
`nb` buckets the links run through the slots of its list and back to the
sentinel. -/
def Linked (nb : Nat) (L : Links) (bk : Nat → List Nat) : Prop :=
  ∀ i, i < nb → Chain L (.head i) (bk i) (.head i)

/-- The cache and its link fields reached from `binit`, started on any disk
and any content of the link fields, by atomically executed calls. -/
inductive ReachableL (nb nbuf : Nat) : Bcache → Links → Prop where
  | init (disk : Nat → Nat → Nat) (L0 : Links) :
      ReachableL nb nbuf (binitOn disk nb nbuf) (binitLinks nb nbuf L0)
  | step {s s1 : Bcache} {L L1 : Links} (op : Op) :
      ReachableL nb nbuf s L → step nb s op = some s1 →
      linksAfter nb nbuf s L op = some L1 → ReachableL nb nbuf s1 L1

/-! ## Callers asleep in `bread`

A `bread` whose `bget` finds the content lock of its slot held does not
return at once: the caller sleeps in `acquiresleep`, other callers run, and
once the lock is free the sleeper takes it, `bget` returns and `bread` goes
on with the test of `b->valid`. -/

/-- The slot on which `bget` calls `acquiresleep`: the slot found by the
first loop, else by the second, else by the third; `none` when `bget`
panics. -/
def bgetSlot (nb : Nat) (s : Bcache) (dev blockno : Nat) : Option Nat :=
  let h := blockno % nb
  match scanHit s.buf dev blockno (s.hashbucket h) with
  | some b => some b
  | none =>
    match scanFree s.buf (s.hashbucket h) with
    | some b => some b
    | none =>
      match scanOthers s h (List.range nb) with
      | some (_, b) => some b
      | none => none

/-- The rest of `bread` for a caller `p` asleep in the `acquiresleep` of slot
`b`, run when the caller is woken in state `s`: `acquiresleep` takes the lock
if it is free (the caller sleeps on otherwise), `bget` returns `b`, and
`bread` reads the block from the disk if `b->valid` is 0, sets `b->valid` and
returns `b`. -/
def breadWake (s : Bcache) (p b : Nat) : Outcome Nat :=
  match acquiresleep s p b with
  | .ok b s1 =>
    if (s1.buf b).valid = 0 then
      let s2 := virtio_disk_rw s1 b false
      .ok b (s2.setBuf b { s2.buf b with valid := 1 })
    else .ok b s1
  | .panic m s1 => .panic m s1
  | .blocked s1 => .blocked s1

/-- A caller `p` asleep in `bread(dev, blockno)`, in the `acquiresleep` of
slot `b`. -/
structure Sleeper where
  p : Nat
  dev : Nat
  blockno : Nat
  b : Nat
  deriving DecidableEq, Repr

/-- Unmatched pins of each slot after a call. -/
def pinsAfter (pins : Nat → Nat) : Op → Nat → Nat
  | .bpin b => upd pins b (pins b + 1)
  | .bunpin b => upd pins b (pins b - 1)
  | _ => pins

/-- States reached from `binit` when callers may sleep in `bread`, together
with the unmatched pins of each slot and the callers asleep.
* `call`: a call runs to completion under the caller discipline of `step`,
  every `bunpin` matching an earlier `bpin` of the same slot;
* `sleep`: a `bread` finds the content lock of its slot `b` held, and its
  caller goes to sleep, the count of `b` already incremented;
* `wake`: a sleeper finds the lock of its slot free, takes it, and its `bread`
  runs to its end. -/
inductive ReachableS (nb nbuf : Nat) : Bcache → (Nat → Nat) → List Sleeper → Prop where
  | init (disk : Nat → Nat → Nat) :
      ReachableS nb nbuf (binitOn disk nb nbuf) (fun _ => 0) []
  | call {s s1 : Bcache} {pins : Nat → Nat} {ws : List Sleeper} (op : Op) :
      ReachableS nb nbuf s pins ws → (∀ b, op = Op.bunpin b → 0 < pins b) →
      step nb s op = some s1 → ReachableS nb nbuf s1 (pinsAfter pins op) ws
  | sleep {s s1 : Bcache} {pins : Nat → Nat} {ws : List Sleeper} (p dev blockno b : Nat) :
      ReachableS nb nbuf s pins ws → bread nb s p dev blockno = .blocked s1 →
      bgetSlot nb s dev blockno = some b →
      ReachableS nb nbuf s1 pins (⟨p, dev, blockno, b⟩ :: ws)
  | wake {s s1 : Bcache} {pins : Nat → Nat} {ws : List Sleeper} (w : Sleeper) :
      ReachableS nb nbuf s pins ws → w ∈ ws → breadWake s w.p w.b = .ok w.b s1 →
      ReachableS nb nbuf s1 pins (ws.erase w)

/-! ## Elementary facts -/

@[simp] theorem upd_same {α : Type} (f : Nat → α) (a : Nat) (v : α) : upd f a v a = v := by
  simp [upd]

@[simp] theorem upd_other {α : Type} (f : Nat → α) (a : Nat) (v : α) (x : Nat) (h : x ≠ a) :
    upd f a v x = f x := by
  simp [upd, h]

theorem upd_apply {α : Type} (f : Nat → α) (a : Nat) (v : α) (x : Nat) :
    upd f a v x = if x = a then v else f x := rfl

@[simp] theorem setBuf_buf_same (s : Bcache) (b : Nat) (x : Buf) : (s.setBuf b x).buf b = x := by
  simp [Bcache.setBuf]

@[simp] theorem setBuf_buf_other (s : Bcache) (b c : Nat) (x : Buf) (h : c ≠ b) :
    (s.setBuf b x).buf c = s.buf c := by
  simp [Bcache.setBuf, h]

@[simp] theorem setBuf_hashbucket (s : Bcache) (b : Nat) (x : Buf) :
    (s.setBuf b x).hashbucket = s.hashbucket := rfl

@[simp] theorem setBuf_log (s : Bcache) (b : Nat) (x : Buf) : (s.setBuf b x).log = s.log := rfl

@[simp] theorem setBuf_disk (s : Bcache) (b : Nat) (x : Buf) : (s.setBuf b x).disk = s.disk := rfl

@[simp] theorem unlink_buf (s : Bcache) (b : Nat) : (unlink s b).buf = s.buf := rfl

@[simp] theorem unlink_log (s : Bcache) (b : Nat) : (unlink s b).log = s.log := rfl

@[simp] theorem unlink_disk (s : Bcache) (b : Nat) : (unlink s b).disk = s.disk := rfl

@[simp] theorem unlink_hashbucket (s : Bcache) (b i : Nat) :
    (unlink s b).hashbucket i = (s.hashbucket i).erase b := rfl

@[simp] theorem pushHead_buf (s : Bcache) (h b : Nat) : (pushHead s h b).buf = s.buf := rfl

@[simp] theorem pushHead_log (s : Bcache) (h b : Nat) : (pushHead s h b).log = s.log := rfl

@[simp] theorem pushHead_disk (s : Bcache) (h b : Nat) : (pushHead s h b).disk = s.disk := rfl

@[simp] theorem pushHead_hashbucket_same (s : Bcache) (h b : Nat) :
    (pushHead s h b).hashbucket h = b :: s.hashbucket h := by
  simp [pushHead]

@[simp] theorem pushHead_hashbucket_other (s : Bcache) (h b i : Nat) (hi : i ≠ h) :
    (pushHead s h b).hashbucket i = s.hashbucket i := by
  simp [pushHead, hi]

@[simp] theorem stamp_hashbucket (s : Bcache) (b dev blockno : Nat) :
    (stamp s b dev blockno).hashbucket = s.hashbucket := rfl

@[simp] theorem stamp_log (s : Bcache) (b dev blockno : Nat) :
    (stamp s b dev blockno).log = s.log := rfl

@[simp] theorem stamp_disk (s : Bcache) (b dev blockno : Nat) :
    (stamp s b dev blockno).disk = s.disk := rfl

@[simp] theorem stamp_buf_same (s : Bcache) (b dev blockno : Nat) :
    (stamp s b dev blockno).buf b =
      { s.buf b with dev := dev, blockno := blockno, valid := 0, refcnt := 1 } := by
  simp [stamp]

@[simp] theorem stamp_buf_other (s : Bcache) (b c dev blockno : Nat) (h : c ≠ b) :
    (stamp s b dev blockno).buf c = s.buf c := by
  simp [stamp, h]

/-- Outcomes of `acquiresleep`. -/
theorem acquiresleep_cases (s : Bcache) (p b : Nat) :
    ((s.buf b).lock = none ∧
      acquiresleep s p b = .ok b (s.setBuf b { s.buf b with lock := some p })) ∨
    ((s.buf b).lock ≠ none ∧ acquiresleep s p b = .blocked s) := by
  unfold acquiresleep
  cases h : (s.buf b).lock <;> simp

/-- The function `bget` either reaches `acquiresleep` in one of the three
ways of `BgetCase`, or panics having found neither the block nor a free
slot. -/
theorem bget_cases (nb : Nat) (s : Bcache) (p dev blockno : Nat) :
    (∃ b s1, BgetCase nb s dev blockno b s1 ∧
      bget nb s p dev blockno = acquiresleep s1 p b) ∨
    (scanHit s.buf dev blockno (s.hashbucket (blockno % nb)) = none ∧
      scanFree s.buf (s.hashbucket (blockno % nb)) = none ∧
      scanOthers s (blockno % nb) (List.range nb) = none ∧
      bget nb s p dev blockno = .panic "bget: no buffers" s) := by
  cases h1 : scanHit s.buf dev blockno (s.hashbucket (blockno % nb)) with
  | some b => exact Or.inl ⟨b, _, BgetCase.hit b h1, by simp [bget, h1]⟩
  | none =>
    cases h2 : scanFree s.buf (s.hashbucket (blockno % nb)) with
    | some b => exact Or.inl ⟨b, _, BgetCase.recycle b h1 h2, by simp [bget, h1, h2]⟩
    | none =>
      cases h3 : scanOthers s (blockno % nb) (List.range nb) with
      | some ib =>
        obtain ⟨i, b⟩ := ib
        exact Or.inl ⟨b, _, BgetCase.steal i b h1 h2 h3, by simp [bget, h1, h2, h3]⟩
      | none => exact Or.inr ⟨rfl, rfl, rfl, by simp [bget, h1, h2, h3]⟩

/-- The state in which `bget` ends: untouched after the panic, else the
state of one of the three ways of `BgetCase`, with the lock of the chosen slot
taken when the call returns. -/
theorem bget_state_cases (nb : Nat) (s : Bcache) (p dev blockno : Nat) :
    (bget nb s p dev blockno = .panic "bget: no buffers" s) ∨
    (∃ b s1, BgetCase nb s dev blockno b s1 ∧
      (((s1.buf b).lock = none ∧ bget nb s p dev blockno =
          .ok b (s1.setBuf b { s1.buf b with lock := some p })) ∨
       ((s1.buf b).lock ≠ none ∧ bget nb s p dev blockno = .blocked s1))) := by
  rcases bget_cases nb s p dev blockno with ⟨b, s1, hc, he⟩ | ⟨_, _, _, he⟩
  · right
    refine ⟨b, s1, hc, ?_⟩
    rcases acquiresleep_cases s1 p b with ⟨hl, ha⟩ | ⟨hl, ha⟩
    · exact Or.inl ⟨hl, he.trans ha⟩
    · exact Or.inr ⟨hl, he.trans ha⟩
  · exact Or.inl he

/-- A slot found by the free-slot loop has `refcnt == 0` and is in the list. -/
theorem scanFree_some {buf : Nat → Buf} {l : List Nat} {b : Nat}
    (h : scanFree buf l = some b) : (buf b).refcnt = 0 ∧ b ∈ l := by
  unfold scanFree at h
  have h1 := List.find?_some h
  have h2 := List.mem_of_find?_eq_some h
  simp at h1 h2
  exact ⟨h1, h2⟩

/-- The free-slot loop fails exactly when no slot of the list is free. -/
theorem scanFree_none {buf : Nat → Buf} {l : List Nat} :
    scanFree buf l = none ↔ ∀ b ∈ l, (buf b).refcnt ≠ 0 := by
  unfold scanFree
  simp [List.find?_eq_none]

/-- A slot found by the lookup loop carries the wanted block and is in the list. -/
theorem scanHit_some {buf : Nat → Buf} {dev blockno : Nat} {l : List Nat} {b : Nat}
    (h : scanHit buf dev blockno l = some b) :
    ((buf b).dev = dev ∧ (buf b).blockno = blockno) ∧ b ∈ l := by
  unfold scanHit at h
  have h1 := List.find?_some h
  have h2 := List.mem_of_find?_eq_some h
  simp at h1
  exact ⟨h1, h2⟩

/-- The lookup loop fails exactly when no slot of the list carries the block. -/
theorem scanHit_none {buf : Nat → Buf} {dev blockno : Nat} {l : List Nat} :
    scanHit buf dev blockno l = none ↔
      ∀ b ∈ l, ¬ ((buf b).dev = dev ∧ (buf b).blockno = blockno) := by
  unfold scanHit
  simp [List.find?_eq_none]

/-- What the loop over the other buckets returns is a free slot of a bucket
among those visited, other than the target. -/
theorem scanOthers_some {s : Bcache} {h : Nat} {is : List Nat} {i b : Nat}
    (hs : scanOthers s h is = some (i, b)) :
    i ∈ is ∧ i ≠ h ∧ scanFree s.buf (s.hashbucket i) = some b := by
  induction is with
  | nil => simp [scanOthers] at hs
  | cons j rest ih =>
    unfold scanOthers at hs
    by_cases hj : j = h
    · simp [hj] at hs
      have := ih hs
      exact ⟨List.mem_cons_of_mem _ this.1, this.2⟩
    · simp [hj] at hs
      cases hf : scanFree s.buf (s.hashbucket j) with
      | some c =>
        simp [hf] at hs
        obtain ⟨rfl, rfl⟩ := hs
        exact ⟨List.mem_cons_self _ _, hj, hf⟩
      | none =>
        simp [hf] at hs
        have := ih hs
        exact ⟨List.mem_cons_of_mem _ this.1, this.2⟩

/-- The loop over the other buckets fails exactly when none of the visited
buckets other than the target holds a free slot. -/
theorem scanOthers_none {s : Bcache} {h : Nat} {is : List Nat} :
    scanOthers s h is = none ↔
      ∀ i ∈ is, i ≠ h → scanFree s.buf (s.hashbucket i) = none := by
  induction is with
  | nil => simp [scanOthers]
  | cons j rest ih =>
    unfold scanOthers
    by_cases hj : j = h
    · simp [hj, ih]
    · cases hf : scanFree s.buf (s.hashbucket j) with
      | some c => simp [hj, hf]
      | none => simp [hj, hf, ih]

/-- In each way of reaching `acquiresleep`, a slot other than the chosen one
keeps all its fields, and the chosen slot keeps its lock and content. -/
theorem BgetCase.frame {nb : Nat} {s : Bcache} {dev blockno b : Nat} {s1 : Bcache}
    (hc : BgetCase nb s dev blockno b s1) :
    (∀ c, c ≠ b → s1.buf c = s.buf c) ∧ (s1.buf b).lock = (s.buf b).lock ∧
      (s1.buf b).data = (s.buf b).data ∧ s1.log = s.log ∧ s1.disk = s.disk := by
  cases hc with
  | hit _ h => exact ⟨fun c hcb => by simp [hcb], by simp, by simp, rfl, rfl⟩
  | recycle _ h1 h2 => exact ⟨fun c hcb => by simp [hcb], by simp, by simp, rfl, rfl⟩
  | steal i _ h1 h2 h3 =>
    exact ⟨fun c hcb => by simp [hcb], by simp, by simp, rfl, rfl⟩

/-- In each way of reaching `acquiresleep`, the chosen slot either carried
the block already (and keeps device, block number and validity flag) or
was free. -/
theorem BgetCase.chosen {nb : Nat} {s : Bcache} {dev blockno b : Nat} {s1 : Bcache}
    (hc : BgetCase nb s dev blockno b s1) :
    ((s1.buf b).dev = (s.buf b).dev ∧ (s1.buf b).blockno = (s.buf b).blockno ∧
      (s1.buf b).valid = (s.buf b).valid ∧ s1.hashbucket = s.hashbucket) ∨
    (s.buf b).refcnt = 0 := by
  cases hc with
  | hit _ h => left; simp
  | recycle _ h1 h2 => right; exact (scanFree_some h2).1
  | steal i _ h1 h2 h3 => right; exact (scanFree_some (scanOthers_some h3).2.2).1

/-- In each way of reaching `acquiresleep`, a slot other than the chosen
one stays in the lists it was in. -/
theorem BgetCase.mem_iff {nb : Nat} {s : Bcache} {dev blockno b : Nat} {s1 : Bcache}
    (hc : BgetCase nb s dev blockno b s1) (c : Nat) (hcb : c ≠ b) (i : Nat) :
    c ∈ s1.hashbucket i ↔ c ∈ s.hashbucket i := by
  cases hc with
  | hit _ h => simp
  | recycle _ h1 h2 => simp
  | steal j _ h1 h2 h3 =>
    by_cases hi : i = blockno % nb
    · subst hi
      simp [hcb, List.mem_erase_of_ne hcb]
    · simp [hi, List.mem_erase_of_ne hcb]

/-- C6: `bwrite(b)` and `brelse(b)` panic exactly when the caller does not
hold the content lock of `b`; the panicking call leaves the cache as it
was (no disk write, no change of `refcnt` or of a list); with the lock held,
`bwrite` performs one disk write of the content of `b` to
`(b.dev, b.blockno)` and changes neither a slot nor a list. -/
theorem bwrite_brelse_lock_check (nb : Nat) (s : Bcache) (p b : Nat) :
    ((∃ m s1, bwrite s p b = .panic m s1) ↔ (s.buf b).lock ≠ some p) ∧
    ((∃ m s1, brelse nb s p b = .panic m s1) ↔ (s.buf b).lock ≠ some p) ∧
    ((s.buf b).lock ≠ some p →
      bwrite s p b = .panic "bwrite" s ∧ brelse nb s p b = .panic "brelse" s) ∧
    ((s.buf b).lock = some p →
      ∃ s1, bwrite s p b = .ok () s1 ∧
        s1.log = s.log ++
          [DiskEvent.write (s.buf b).dev (s.buf b).blockno (s.buf b).data] ∧
        s1.disk (s.buf b).dev (s.buf b).blockno = (s.buf b).data ∧
        (∀ d n, ¬ (d = (s.buf b).dev ∧ n = (s.buf b).blockno) → s1.disk d n = s.disk d n) ∧
        s1.buf = s.buf ∧ s1.hashbucket = s.hashbucket) := by
  by_cases hl : (s.buf b).lock = some p
  · refine ⟨?_, ?_, fun h => absurd hl h, fun _ => ?_⟩
    · simp [bwrite, holdingsleep, hl]
    · simp only [brelse, holdingsleep, hl]
      simp
      intro m s1
      split <;> simp
    · refine ⟨virtio_disk_rw s b true, by simp [bwrite, holdingsleep, hl], ?_, ?_, ?_, ?_, ?_⟩
      · simp [virtio_disk_rw]
      · simp [virtio_disk_rw]
      · intro d n hdn
        simp [virtio_disk_rw, hdn]
      · simp [virtio_disk_rw]
      · simp [virtio_disk_rw]
  · refine ⟨?_, ?_, fun _ => ?_, fun h => absurd h hl⟩
    · simp [bwrite, holdingsleep, hl]
    · simp [brelse, holdingsleep, hl]
    · simp [bwrite, brelse, holdingsleep, hl]

/-- Witness of C6 on the cache right after `binit`, where no lock is held. -/
theorem bwrite_brelse_lock_check_witness :
    bwrite (binit NBUCKETS 30) 1 0 = .panic "bwrite" (binit NBUCKETS 30) ∧
    brelse NBUCKETS (binit NBUCKETS 30) 1 0 = .panic "brelse" (binit NBUCKETS 30) :=
  (bwrite_brelse_lock_check NBUCKETS (binit NBUCKETS 30) 1 0).2.2.1 (by decide)

/-- C3: `bget` overwrites the device, block number and validity flag of
no slot that was referenced before the call, and such a slot stays in the
bucket lists it was in; a slot whose device, block number or validity flag
differs after the call had `refcnt = 0`, and there is at most one. -/
theorem bget_evicts_only_free (nb : Nat) (s : Bcache) (p dev blockno : Nat) :
    (∀ c, (s.buf c).refcnt ≠ 0 →
      ((bget nb s p dev blockno).state.buf c).dev = (s.buf c).dev ∧
      ((bget nb s p dev blockno).state.buf c).blockno = (s.buf c).blockno ∧
      ((bget nb s p dev blockno).state.buf c).valid = (s.buf c).valid ∧
      ∀ i, c ∈ (bget nb s p dev blockno).state.hashbucket i ↔ c ∈ s.hashbucket i) ∧
    (∀ c, (((bget nb s p dev blockno).state.buf c).dev ≠ (s.buf c).dev ∨
        ((bget nb s p dev blockno).state.buf c).blockno ≠ (s.buf c).blockno ∨
        ((bget nb s p dev blockno).state.buf c).valid ≠ (s.buf c).valid) →
      (s.buf c).refcnt = 0 ∧
      ∀ c1, (((bget nb s p dev blockno).state.buf c1).dev ≠ (s.buf c1).dev ∨
        ((bget nb s p dev blockno).state.buf c1).blockno ≠ (s.buf c1).blockno ∨
        ((bget nb s p dev blockno).state.buf c1).valid ≠ (s.buf c1).valid) → c1 = c) := by
  rcases bget_state_cases nb s p dev blockno with he | ⟨b, s1, hc, hh⟩
  · rw [he]
    simp [Outcome.state]
  · have hfr := hc.frame
    have hch := hc.chosen
    have hmem := hc.mem_iff
    -- the fields of the final state are those of `s1`, the lock of `b` apart
    have key : ∀ c, ((bget nb s p dev blockno).state.buf c).dev = (s1.buf c).dev ∧
        ((bget nb s p dev blockno).state.buf c).blockno = (s1.buf c).blockno ∧
        ((bget nb s p dev blockno).state.buf c).valid = (s1.buf c).valid ∧
        (bget nb s p dev blockno).state.hashbucket = s1.hashbucket := by
      intro c
      rcases hh with ⟨_, he⟩ | ⟨_, he⟩
      · rw [he]
        by_cases hcb : c = b
        · subst hcb; simp [Outcome.state]
        · simp [Outcome.state, hcb]
      · rw [he]; simp [Outcome.state]
    have same : ∀ c, c ≠ b →
        ((bget nb s p dev blockno).state.buf c).dev = (s.buf c).dev ∧
        ((bget nb s p dev blockno).state.buf c).blockno = (s.buf c).blockno ∧
        ((bget nb s p dev blockno).state.buf c).valid = (s.buf c).valid := by
      intro c hcb
      have := key c
      rw [hfr.1 c hcb] at this
      exact ⟨this.1, this.2.1, this.2.2.1⟩
    have changed : ∀ c, (((bget nb s p dev blockno).state.buf c).dev ≠ (s.buf c).dev ∨
        ((bget nb s p dev blockno).state.buf c).blockno ≠ (s.buf c).blockno ∨
        ((bget nb s p dev blockno).state.buf c).valid ≠ (s.buf c).valid) →
        c = b ∧ (s.buf b).refcnt = 0 := by
      intro c hne
      by_cases hcb : c = b
      · subst hcb
        refine ⟨rfl, ?_⟩
        rcases hch with ⟨h1, h2, h3, _⟩ | h0
        · have := key c
          rw [h1, h2, h3] at this
          rcases hne with h | h | h
          · exact absurd this.1 h
          · exact absurd this.2.1 h
          · exact absurd this.2.2.1 h
        · exact h0
      · have := same c hcb
        rcases hne with h | h | h
        · exact absurd this.1 h
        · exact absurd this.2.1 h
        · exact absurd this.2.2 h
    refine ⟨fun c hcr => ?_, fun c hne => ?_⟩
    · by_cases hcb : c = b
      · subst hcb
        rcases hch with ⟨h1, h2, h3, h4⟩ | h0
        · have := key c
          refine ⟨this.1.trans h1, this.2.1.trans h2, this.2.2.1.trans h3, fun i => ?_⟩
          rw [this.2.2.2, h4]
        · exact absurd h0 hcr
      · have := same c hcb
        refine ⟨this.1, this.2.1, this.2.2, fun i => ?_⟩
        rw [(key c).2.2.2]
        exact hmem c hcb i
    · obtain ⟨rfl, h0⟩ := changed c hne
      exact ⟨h0, fun c1 h1 => (changed c1 h1).1⟩

/-- Witness of C3: after `bread(0, 0)` slot 26 is referenced, and a `bget`
that misses in its bucket leaves it alone. -/
theorem bget_evicts_only_free_witness :
    ((bget NBUCKETS (bread NBUCKETS (binit NBUCKETS 30) 1 0 0).state 2 0 13).state.buf 26).dev
      = ((bread NBUCKETS (binit NBUCKETS 30) 1 0 0).state.buf 26).dev :=
  ((bget_evicts_only_free NBUCKETS (bread NBUCKETS (binit NBUCKETS 30) 1 0 0).state 2 0 13).1
    26 (by decide)).1

/-! ## Searching a list -/

/-- A search that finds `c` still finds `c` when the predicate is made
smaller on the list but still holds at `c`. -/
theorem find_mono {p q : Nat → Bool} {l : List Nat} {c : Nat}
    (h : l.find? p = some c) (hq : ∀ x ∈ l, q x = true → p x = true) (hc : q c = true) :
    l.find? q = some c := by
  induction l with
  | nil => simp at h
  | cons x t ih =>
    rw [List.find?_cons] at h ⊢
    cases hp : p x with
    | true =>
      rw [hp] at h
      simp at h
      subst h
      simp [hc]
    | false =>
      rw [hp] at h
      simp at h
      have hqx : q x = false := by
        cases hqx : q x with
        | false => rfl
        | true =>
          have := hq x (List.mem_cons_self _ _) hqx
          rw [hp] at this
          exact absurd this (by simp)
      rw [hqx]
      exact ih h (fun y hy => hq y (List.mem_cons_of_mem _ hy))

/-- A search that finds `c` still finds `c` after another element is erased. -/
theorem find_erase {p : Nat → Bool} {l : List Nat} {b c : Nat}
    (h : l.find? p = some c) (hcb : c ≠ b) : (l.erase b).find? p = some c := by
  induction l with
  | nil => simp at h
  | cons x t ih =>
    rw [List.find?_cons] at h
    cases hp : p x with
    | true =>
      rw [hp] at h
      simp at h
      subst h
      rw [List.erase_cons_tail (by simpa using hcb)]
      simp [List.find?_cons, hp]
    | false =>
      rw [hp] at h
      simp at h
      by_cases hxb : x = b
      · subst hxb
        simpa using h
      · rw [List.erase_cons_tail (by simpa using hxb)]
        simp [List.find?_cons, hp, ih h]

/-- A search finds `b` when `b` is the only element of the list satisfying
the predicate. -/
theorem find_unique {q : Nat → Bool} {l : List Nat} {b : Nat}
    (hb : b ∈ l) (hq : q b = true) (ho : ∀ x ∈ l, x ≠ b → q x = false) :
    l.find? q = some b := by
  induction l with
  | nil => simp at hb
  | cons x t ih =>
    rw [List.find?_cons]
    by_cases hxb : x = b
    · subst hxb
      simp [hq]
    · rw [ho x (List.mem_cons_self _ _) hxb]
      have hbt : b ∈ t := by
        rcases List.mem_cons.1 hb with h | h
        · exact absurd h.symm hxb
        · exact h
      exact ih hbt (fun y hy => ho y (List.mem_cons_of_mem _ hy))

/-- The lookup loop only reads the device and block number of the slots of
the list. -/
theorem scanHit_congr {buf1 buf2 : Nat → Buf} {dev blockno : Nat} {l : List Nat}
    (h : ∀ x ∈ l, (buf1 x).dev = (buf2 x).dev ∧ (buf1 x).blockno = (buf2 x).blockno) :
    scanHit buf1 dev blockno l = scanHit buf2 dev blockno l := by
  unfold scanHit
  induction l with
  | nil => rfl
  | cons x t ih =>
    have hx := h x (List.mem_cons_self _ _)
    rw [List.find?_cons, List.find?_cons, hx.1, hx.2,
      ih (fun y hy => h y (List.mem_cons_of_mem _ hy))]

/-- The free-slot loop only reads the reference counts of the slots of the list. -/
theorem scanFree_congr {buf1 buf2 : Nat → Buf} {l : List Nat}
    (h : ∀ x ∈ l, (buf1 x).refcnt = (buf2 x).refcnt) :
    scanFree buf1 l = scanFree buf2 l := by
  unfold scanFree
  have h2 : ∀ x ∈ l.reverse, (buf1 x).refcnt = (buf2 x).refcnt :=
    fun x hx => h x (List.mem_reverse.1 hx)
  generalize l.reverse = r at h2
  induction r with
  | nil => rfl
  | cons x t ih =>
    rw [List.find?_cons, List.find?_cons, h2 x (List.mem_cons_self _ _),
      ih (fun y hy => h2 y (List.mem_cons_of_mem _ hy))]

/-! ## The invariant -/

/-- The invariant carries over to a cache with the same lists in which no
slot changed device or block number, and each slot that became referenced
is the first of the bucket of its block number carrying its block. -/
theorem Inv.of_fields {nb nbuf : Nat} {s s1 : Bcache} (hI : Inv nb nbuf s)
    (hb : s1.hashbucket = s.hashbucket)
    (hf : ∀ c, (s1.buf c).dev = (s.buf c).dev ∧ (s1.buf c).blockno = (s.buf c).blockno ∧
      (s1.buf c).valid ≤ 1 ∧ 0 ≤ (s1.buf c).refcnt ∧
      ((s1.buf c).refcnt ≠ 0 → (s.buf c).refcnt ≠ 0 ∨
        scanHit s.buf (s.buf c).dev (s.buf c).blockno
          (s.hashbucket ((s.buf c).blockno % nb)) = some c)) :
    Inv nb nbuf s1 := by
  have hscan : ∀ d n l, scanHit s1.buf d n l = scanHit s.buf d n l :=
    fun d n l => scanHit_congr (fun x _ => ⟨(hf x).1, (hf x).2.1⟩)
  refine ⟨?_, ?_, ?_, ?_, ?_, ?_, ?_, ?_⟩
  · intro i; rw [hb]; exact hI.nodup i
  · intro i j b; rw [hb]; exact hI.disj i j b
  · intro b; rw [hb]; exact hI.cover b
  · intro i b; rw [hb]; exact hI.bound i b
  · intro c hc
    rw [hb, (hf c).2.1]
    rcases (hf c).2.2.2.2 hc with h | h
    · exact hI.loc c h
    · exact (scanHit_some h).2
  · intro i c hci hc
    rw [hb] at hci
    rw [hb, hscan, (hf c).1, (hf c).2.1]
    rcases (hf c).2.2.2.2 hc with h | h
    · exact hI.first i c hci h
    · have := hI.disj _ _ _ hci (scanHit_some h).2
      rw [this]
      exact h
  · intro c; exact (hf c).2.2.2.1
  · intro c; exact (hf c).2.2.1

/-- State of the second loop of `binit` after `k` rounds. -/
theorem binitOn_fold (disk : Nat → Nat → Nat) (nb k : Nat) :
    ((List.range k).foldl (fun s i => pushHead s (i % nb) i)
        { Bcache.zero with disk := disk }).buf = (fun _ => Buf.zero) ∧
    ((List.range k).foldl (fun s i => pushHead s (i % nb) i)
        { Bcache.zero with disk := disk }).log = [] ∧
    ((List.range k).foldl (fun s i => pushHead s (i % nb) i)
        { Bcache.zero with disk := disk }).disk = disk ∧
    (∀ j, (((List.range k).foldl (fun s i => pushHead s (i % nb) i)
        { Bcache.zero with disk := disk }).hashbucket j).Nodup) ∧
    (∀ j x, x ∈ ((List.range k).foldl (fun s i => pushHead s (i % nb) i)
        { Bcache.zero with disk := disk }).hashbucket j ↔ x < k ∧ x % nb = j) := by
  induction k with
  | zero => simp [Bcache.zero]
  | succ k ih =>
    rw [List.range_succ, List.foldl_append]
    simp only [List.foldl_cons, List.foldl_nil]
    obtain ⟨h1, h2, h3, h4, h5⟩ := ih
    refine ⟨by simp [h1], by simp [h2], by simp [h3], ?_, ?_⟩
    · intro j
      by_cases hj : j = k % nb
      · subst hj
        rw [pushHead_hashbucket_same]
        refine List.nodup_cons.2 ⟨?_, h4 _⟩
        rw [h5]
        omega
      · rw [pushHead_hashbucket_other _ _ _ _ hj]
        exact h4 j
    · intro j x
      by_cases hj : j = k % nb
      · subst hj
        rw [pushHead_hashbucket_same, List.mem_cons, h5]
        constructor
        · rintro (h | h)
          · subst h; exact ⟨Nat.lt_succ_self _, rfl⟩
          · exact ⟨Nat.lt_succ_of_lt h.1, h.2⟩
        · rintro ⟨h, h6⟩
          by_cases hx : x = k
          · exact Or.inl hx
          · exact Or.inr ⟨by omega, h6⟩
      · rw [pushHead_hashbucket_other _ _ _ _ hj, h5]
        constructor
        · rintro ⟨h, h6⟩
          exact ⟨Nat.lt_succ_of_lt h, h6⟩
        · rintro ⟨h, h6⟩
          refine ⟨?_, h6⟩
          by_cases hx : x = k
          · subst hx; exact absurd h6.symm hj
          · omega

/-- Slots, trace and lists right after `binit`: slot `x` is in the list of
bucket `j` exactly when `x < nbuf` and `x % nb = j`. -/
theorem binitOn_spec (disk : Nat → Nat → Nat) (nb nbuf : Nat) :
    (binitOn disk nb nbuf).buf = (fun _ => Buf.zero) ∧
    (binitOn disk nb nbuf).log = [] ∧
    (binitOn disk nb nbuf).disk = disk ∧
    (∀ j, ((binitOn disk nb nbuf).hashbucket j).Nodup) ∧
    (∀ j x, x ∈ (binitOn disk nb nbuf).hashbucket j ↔ x < nbuf ∧ x % nb = j) :=
  binitOn_fold disk nb nbuf

/-- The cache built by `binit` satisfies the invariant. -/
theorem Inv.binitOn (disk : Nat → Nat → Nat) {nb : Nat} (hnb : 0 < nb) (nbuf : Nat) :
    Inv nb nbuf (binitOn disk nb nbuf) := by
  obtain ⟨h1, _, _, h4, h5⟩ := binitOn_spec disk nb nbuf
  refine ⟨h4, ?_, ?_, ?_, ?_, ?_, ?_, ?_⟩
  · intro i j b hi hj
    rw [h5] at hi hj
    rw [← hi.2, ← hj.2]
  · intro b hb
    exact ⟨b % nb, Nat.mod_lt _ hnb, (h5 _ _).2 ⟨hb, rfl⟩⟩
  · intro i b hi
    rw [h5] at hi
    exact ⟨hi.1, hi.2 ▸ Nat.mod_lt _ hnb⟩
  · intro b hb
    rw [h1] at hb
    exact absurd rfl hb
  · intro i b _ hb
    rw [h1] at hb
    exact absurd rfl hb
  · intro b; rw [h1]; exact le_refl _
  · intro b; rw [h1]; exact Nat.zero_le _

/-- The invariant survives the hit path of `bget`. -/
theorem Inv.hit {nb nbuf : Nat} {s : Bcache} (hI : Inv nb nbuf s) {dev blockno b : Nat}
    (hh : scanHit s.buf dev blockno (s.hashbucket (blockno % nb)) = some b) :
    Inv nb nbuf (s.setBuf b { s.buf b with refcnt := (s.buf b).refcnt + 1 }) := by
  refine hI.of_fields rfl (fun c => ?_)
  by_cases hcb : c = b
  · subst hcb
    have hk := (scanHit_some hh).1
    refine ⟨by simp, by simp, by simpa using hI.valid01 c, ?_, fun _ => Or.inr ?_⟩
    · have := hI.nonneg c
      simp only [setBuf_buf_same]
      omega
    · rw [hk.1, hk.2]
      exact hh
  · rw [setBuf_buf_other _ _ _ _ hcb]
    exact ⟨rfl, rfl, hI.valid01 c, hI.nonneg c, fun h => Or.inl h⟩

/-- The invariant survives the recycling of a free slot of the target bucket. -/
theorem Inv.recycle {nb nbuf : Nat} {s : Bcache} (hI : Inv nb nbuf s) {dev blockno b : Nat}
    (hm : scanHit s.buf dev blockno (s.hashbucket (blockno % nb)) = none)
    (hf : scanFree s.buf (s.hashbucket (blockno % nb)) = some b) :
    Inv nb nbuf (stamp s b dev blockno) := by
  have hb := (scanFree_some hf).2
  have hm1 := scanHit_none.1 hm
  refine ⟨hI.nodup, hI.disj, hI.cover, hI.bound, ?_, ?_, ?_, ?_⟩
  · intro c hc
    by_cases hcb : c = b
    · subst hcb
      simpa using hb
    · rw [stamp_buf_other _ _ _ _ _ hcb] at hc ⊢
      exact hI.loc c hc
  · intro i c hci hc
    rw [stamp_hashbucket] at hci ⊢
    by_cases hcb : c = b
    · subst hcb
      have hi : i = blockno % nb := hI.disj _ _ _ hci hb
      subst hi
      rw [stamp_buf_same]
      refine find_unique hci (by simp) (fun x hx hxc => ?_)
      rw [stamp_buf_other _ _ _ _ _ hxc]
      simpa using hm1 x hx
    · rw [stamp_buf_other _ _ _ _ _ hcb] at hc ⊢
      have hold := hI.first i c hci hc
      refine find_mono hold (fun x hx hq => ?_) (by simp [hcb])
      by_cases hxb : x = b
      · subst hxb
        have hi : i = blockno % nb := hI.disj _ _ _ hx hb
        subst hi
        simp at hq
        exact absurd ⟨hq.1.symm, hq.2.symm⟩ (hm1 c hci)
      · rw [stamp_buf_other _ _ _ _ _ hxb] at hq
        exact hq
  · intro c
    by_cases hcb : c = b
    · subst hcb; simp
    · rw [stamp_buf_other _ _ _ _ _ hcb]; exact hI.nonneg c
  · intro c
    by_cases hcb : c = b
    · subst hcb; simp
    · rw [stamp_buf_other _ _ _ _ _ hcb]; exact hI.valid01 c

/-- Lists after slot `b` was unlinked and put at the head of bucket `h`. -/
theorem move_hashbucket (s : Bcache) (h b : Nat) (j : Nat) :
    (pushHead (unlink s b) h b).hashbucket j =
      if j = h then b :: (s.hashbucket h).erase b else (s.hashbucket j).erase b := by
  by_cases hj : j = h
  · subst hj; simp
  · simp [hj]

/-- The invariant survives the move of a linked slot `b` to the head of
bucket `h` together with a change of its fields, provided the new fields
are in range, place `b` in bucket `h` when it is referenced, and are not the
device and block number of another referenced slot of bucket `h`. -/
theorem Inv.move {nb nbuf : Nat} {s s1 : Bcache} (hI : Inv nb nbuf s) {h b : Nat}
    (hbn : b < nbuf) (hh : h < nb)
    (hl : ∀ j, s1.hashbucket j =
      if j = h then b :: (s.hashbucket h).erase b else (s.hashbucket j).erase b)
    (ho : ∀ c, c ≠ b → s1.buf c = s.buf c)
    (hr : 0 ≤ (s1.buf b).refcnt) (hv : (s1.buf b).valid ≤ 1)
    (hloc : (s1.buf b).refcnt ≠ 0 → (s1.buf b).blockno % nb = h)
    (hA : ∀ c ∈ s.hashbucket h, c ≠ b → (s.buf c).refcnt ≠ 0 →
      ¬ ((s1.buf b).dev = (s.buf c).dev ∧ (s1.buf b).blockno = (s.buf c).blockno)) :
    Inv nb nbuf s1 := by
  have hmem : ∀ j x, x ∈ s1.hashbucket j ↔ (x = b ∧ j = h) ∨ (x ≠ b ∧ x ∈ s.hashbucket j) := by
    intro j x
    rw [hl]
    by_cases hj : j = h
    · subst hj
      simp only [if_true, List.mem_cons, (hI.nodup j).mem_erase_iff]
      tauto
    · simp only [hj, if_false, (hI.nodup j).mem_erase_iff]
      tauto
  refine ⟨?_, ?_, ?_, ?_, ?_, ?_, ?_, ?_⟩
  · intro j
    rw [hl]
    by_cases hj : j = h
    · subst hj
      simp only [if_true]
      refine List.nodup_cons.2 ⟨?_, (hI.nodup j).erase b⟩
      rw [(hI.nodup j).mem_erase_iff]
      simp
    · simp only [hj, if_false]
      exact (hI.nodup j).erase b
  · intro i j x hi hj
    rw [hmem] at hi hj
    rcases hi with ⟨h1, h2⟩ | ⟨h1, h2⟩ <;> rcases hj with ⟨h3, h4⟩ | ⟨h3, h4⟩
    · rw [h2, h4]
    · exact absurd h1 h3
    · exact absurd h3 h1
    · exact hI.disj i j x h2 h4
  · intro x hx
    by_cases hxb : x = b
    · exact ⟨h, hh, (hmem h x).2 (Or.inl ⟨hxb, rfl⟩)⟩
    · obtain ⟨i, hi, hxi⟩ := hI.cover x hx
      exact ⟨i, hi, (hmem i x).2 (Or.inr ⟨hxb, hxi⟩)⟩
  · intro i x hx
    rw [hmem] at hx
    rcases hx with ⟨h1, h2⟩ | ⟨_, h2⟩
    · rw [h1, h2]; exact ⟨hbn, hh⟩
    · exact hI.bound i x h2
  · intro c hc
    by_cases hcb : c = b
    · subst hcb
      exact (hmem _ _).2 (Or.inl ⟨rfl, hloc hc⟩)
    · rw [ho c hcb] at hc ⊢
      exact (hmem _ _).2 (Or.inr ⟨hcb, hI.loc c hc⟩)
  · intro j c hcj hc
    by_cases hcb : c = b
    · subst hcb
      have hj : j = h := by
        rcases (hmem _ _).1 hcj with ⟨_, h2⟩ | ⟨h1, _⟩
        · exact h2
        · exact absurd rfl h1
      subst hj
      rw [hl]
      simp [scanHit]
    · have hcj1 : c ∈ s.hashbucket j := by
        rcases (hmem _ _).1 hcj with ⟨h1, _⟩ | ⟨_, h2⟩
        · exact absurd h1 hcb
        · exact h2
      rw [ho c hcb] at hc ⊢
      have hold := hI.first j c hcj1 hc
      have h1 : ((s.hashbucket j).erase b).find?
          (fun x => decide ((s1.buf x).dev = (s.buf c).dev ∧
            (s1.buf x).blockno = (s.buf c).blockno)) = some c := by
        refine find_mono (find_erase hold hcb) (fun x hx hq => ?_) ?_
        · have hxb : x ≠ b := ((hI.nodup j).mem_erase_iff.1 hx).1
          rw [ho x hxb] at hq
          exact hq
        · rw [ho c hcb]; simp
      rw [hl]
      by_cases hj : j = h
      · subst hj
        simp only [if_true, scanHit]
        rw [List.find?_cons]
        have hqb : decide ((s1.buf b).dev = (s.buf c).dev ∧
            (s1.buf b).blockno = (s.buf c).blockno) = false := by
          simpa using hA c hcj1 hcb hc
        rw [hqb]
        exact h1
      · simp only [hj, if_false, scanHit]
        exact h1
  · intro c
    by_cases hcb : c = b
    · subst hcb; exact hr
    · rw [ho c hcb]; exact hI.nonneg c
  · intro c
    by_cases hcb : c = b
    · subst hcb; exact hv
    · rw [ho c hcb]; exact hI.valid01 c

/-- The invariant survives the theft of a free slot from another bucket. -/
theorem Inv.steal {nb nbuf : Nat} {s : Bcache} (hI : Inv nb nbuf s) {dev blockno i b : Nat}
    (hm : scanHit s.buf dev blockno (s.hashbucket (blockno % nb)) = none)
    (ho : scanOthers s (blockno % nb) (List.range nb) = some (i, b)) :
    Inv nb nbuf (pushHead (stamp (unlink s b) b dev blockno) (blockno % nb) b) := by
  obtain ⟨hi, _, hf⟩ := scanOthers_some ho
  have hbi := (scanFree_some hf).2
  have hnb : 0 < nb := Nat.lt_of_le_of_lt (Nat.zero_le _) (hI.bound i b hbi).2
  have hm1 := scanHit_none.1 hm
  refine @Inv.move nb nbuf s _ hI (blockno % nb) b (hI.bound i b hbi).1 (Nat.mod_lt _ hnb)
    (fun j => ?_) (fun c hcb => ?_) (by simp) (by simp) (fun _ => by simp)
    (fun c hc hcb hcr => ?_)
  · by_cases hj : j = blockno % nb
    · subst hj; simp
    · simp [hj]
  · simp [hcb]
  · simp only [pushHead_buf, stamp_buf_same]
    intro hk
    exact hm1 c hc ⟨hk.1.symm, hk.2.symm⟩

/-- The invariant survives the last release of a slot by `brelse`. -/
theorem Inv.release_zero {nb nbuf : Nat} {s : Bcache} (hI : Inv nb nbuf s) {b : Nat}
    (hr : (s.buf b).refcnt ≠ 0) (x : Buf) (hx : x.dev = (s.buf b).dev)
    (hxn : x.blockno = (s.buf b).blockno) (hx0 : x.refcnt = 0) (hxv : x.valid = (s.buf b).valid) :
    Inv nb nbuf (pushHead (unlink (s.setBuf b x) b) ((s.buf b).blockno % nb) b) := by
  have hb := hI.loc b hr
  refine hI.move (hI.bound _ b hb).1 (hI.bound _ b hb).2 (fun j => ?_) (fun c hcb => ?_)
    (by simp [hx0]) (by simpa [hxv] using hI.valid01 b) (fun h => ?_) (fun c hc hcb hcr => ?_)
  · by_cases hj : j = (s.buf b).blockno % nb
    · rw [hj]; simp
    · simp [hj]
  · simp [hcb]
  · simp [hx0] at h
  · simp only [pushHead_buf, unlink_buf, setBuf_buf_same, hx, hxn]
    intro hk
    have h1 := hI.first _ b hb hr
    have h2 := hI.first _ c hc hcr
    generalize s.hashbucket ((s.buf b).blockno % nb) = L at h1 h2
    rw [hk.1, hk.2, h2] at h1
    exact hcb (Option.some.inj h1)

/-- The invariant does not depend on locks, contents, disk or trace. -/
theorem Inv.of_meta {nb nbuf : Nat} {s s1 : Bcache} (hI : Inv nb nbuf s)
    (hb : s1.hashbucket = s.hashbucket)
    (hf : ∀ c, (s1.buf c).dev = (s.buf c).dev ∧ (s1.buf c).blockno = (s.buf c).blockno ∧
      (s1.buf c).valid ≤ 1 ∧ (s1.buf c).refcnt = (s.buf c).refcnt) :
    Inv nb nbuf s1 := by
  refine hI.of_fields hb (fun c => ⟨(hf c).1, (hf c).2.1, (hf c).2.2.1, ?_, fun h => Or.inl ?_⟩)
  · rw [(hf c).2.2.2]; exact hI.nonneg c
  · rw [(hf c).2.2.2] at h; exact h

/-- Writing a slot twice is writing it once. -/
theorem setBuf_setBuf (s : Bcache) (b : Nat) (x y : Buf) :
    (s.setBuf b y).setBuf b x = s.setBuf b x := by
  unfold Bcache.setBuf
  congr 1
  funext c
  by_cases h : c = b <;> simp [upd, h]

/-- The invariant holds at the point where `bget` calls `acquiresleep`. -/
theorem Inv.bgetCase {nb nbuf : Nat} {s : Bcache} (hI : Inv nb nbuf s)
    {dev blockno b : Nat} {s1 : Bcache} (hc : BgetCase nb s dev blockno b s1) :
    Inv nb nbuf s1 := by
  cases hc with
  | hit _ h => exact hI.hit h
  | recycle _ h1 h2 => exact hI.recycle h1 h2
  | steal i _ h1 h2 h3 => exact hI.steal h1 h3

/-- The invariant survives a change of the lock of a slot. -/
theorem Inv.setLock {nb nbuf : Nat} {s : Bcache} (hI : Inv nb nbuf s) (b : Nat)
    (l : Option Nat) : Inv nb nbuf (s.setBuf b { s.buf b with lock := l }) := by
  refine hI.of_meta rfl (fun c => ?_)
  by_cases hcb : c = b
  · subst hcb; simpa using hI.valid01 c
  · rw [setBuf_buf_other _ _ _ _ hcb]; exact ⟨rfl, rfl, hI.valid01 c, rfl⟩

/-- The invariant holds in the state in which `bget` ends. -/
theorem Inv.bget {nb nbuf : Nat} {s : Bcache} (hI : Inv nb nbuf s) (p dev blockno : Nat) :
    Inv nb nbuf (bget nb s p dev blockno).state := by
  rcases bget_state_cases nb s p dev blockno with he | ⟨b, s1, hc, ⟨_, he⟩ | ⟨_, he⟩⟩
  · rw [he]; exact hI
  · rw [he]; exact (hI.bgetCase hc).setLock b (some p)
  · rw [he]; exact hI.bgetCase hc

/-- What `bread` adds to a returning `bget`: the disk read and the flag, when
the slot is not valid. -/
theorem bread_of_bget {nb : Nat} {s : Bcache} {p dev blockno b : Nat} {s1 : Bcache}
    (h : bget nb s p dev blockno = .ok b s1) :
    bread nb s p dev blockno =
      if (s1.buf b).valid = 0 then
        .ok b ((virtio_disk_rw s1 b false).setBuf b
          { (virtio_disk_rw s1 b false).buf b with valid := 1 })
      else .ok b s1 := by
  simp [bread, h]

/-- A `bread` that returns comes from a `bget` that returns the same slot. -/
theorem bget_of_bread {nb : Nat} {s : Bcache} {p dev blockno b : Nat} {s2 : Bcache}
    (h : bread nb s p dev blockno = .ok b s2) :
    ∃ s1, bget nb s p dev blockno = .ok b s1 := by
  unfold bread at h
  cases hg : bget nb s p dev blockno with
  | ok c s1 =>
    rw [hg] at h
    simp only at h
    split at h
    · simp only [Outcome.ok.injEq] at h
      exact ⟨s1, by rw [h.1]⟩
    · simp only [Outcome.ok.injEq] at h
      exact ⟨s1, by rw [h.1]⟩
  | panic m s1 => rw [hg] at h; simp at h
  | blocked s1 => rw [hg] at h; simp at h

/-- The invariant holds in the state in which `bread` ends. -/
theorem Inv.bread {nb nbuf : Nat} {s : Bcache} (hI : Inv nb nbuf s) (p dev blockno : Nat) :
    Inv nb nbuf (bread nb s p dev blockno).state := by
  have hg := hI.bget p dev blockno
  cases hb : BufCache.bget nb s p dev blockno with
  | ok b s1 =>
    rw [hb] at hg
    rw [bread_of_bget hb]
    by_cases hv : (s1.buf b).valid = 0
    · rw [if_pos hv]
      refine Inv.of_meta hg rfl (fun c => ?_)
      by_cases hcb : c = b
      · subst hcb; simp [Outcome.state, virtio_disk_rw]
      · simp only [Outcome.state, setBuf_buf_other _ _ _ _ hcb]
        simp only [virtio_disk_rw, Bool.false_eq_true, if_false, upd_other _ _ _ _ hcb]
        exact ⟨trivial, trivial, hg.valid01 c, trivial⟩
    · rw [if_neg hv]; exact hg
  | panic m s1 => simp only [BufCache.bread, hb]; rw [hb] at hg; exact hg
  | blocked s1 => simp only [BufCache.bread, hb]; rw [hb] at hg; exact hg

/-- The invariant survives `bwrite`. -/
theorem Inv.bwrite {nb nbuf : Nat} {s : Bcache} (hI : Inv nb nbuf s) (p b : Nat) :
    Inv nb nbuf (bwrite s p b).state := by
  unfold BufCache.bwrite
  split
  · exact hI
  · exact hI.of_meta rfl (fun c => ⟨rfl, rfl, hI.valid01 c, rfl⟩)

/-- What `brelse` does when the caller holds the lock. -/
theorem brelse_held {nb : Nat} {s : Bcache} {p b : Nat} (hl : (s.buf b).lock = some p) :
    brelse nb s p b =
      if (s.buf b).refcnt - 1 = 0 then
        .ok () (pushHead
          (unlink (s.setBuf b { s.buf b with lock := none, refcnt := (s.buf b).refcnt - 1 }) b)
          ((s.buf b).blockno % nb) b)
      else .ok () (s.setBuf b { s.buf b with lock := none, refcnt := (s.buf b).refcnt - 1 }) := by
  simp [brelse, holdingsleep, hl, releasesleep, setBuf_setBuf]

/-- What `brelse` does when the caller does not hold the lock. -/
theorem brelse_not_held {nb : Nat} {s : Bcache} {p b : Nat} (hl : (s.buf b).lock ≠ some p) :
    brelse nb s p b = .panic "brelse" s := by
  simp [brelse, holdingsleep, hl]

/-- The invariant survives `brelse` of a referenced slot. -/
theorem Inv.brelse {nb nbuf : Nat} {s : Bcache} (hI : Inv nb nbuf s) (p b : Nat)
    (hr : 0 < (s.buf b).refcnt) : Inv nb nbuf (brelse nb s p b).state := by
  by_cases hl : (s.buf b).lock = some p
  · rw [brelse_held hl]
    by_cases h0 : (s.buf b).refcnt - 1 = 0
    · rw [if_pos h0]
      exact hI.release_zero (ne_of_gt hr) _ rfl rfl h0 rfl
    · rw [if_neg h0]
      refine hI.of_fields rfl (fun c => ?_)
      by_cases hcb : c = b
      · subst hcb
        refine ⟨by simp [Outcome.state], by simp [Outcome.state],
          by simpa [Outcome.state] using hI.valid01 c, ?_, fun _ => Or.inl (ne_of_gt hr)⟩
        simp only [Outcome.state, setBuf_buf_same]
        omega
      · simp only [Outcome.state, setBuf_buf_other _ _ _ _ hcb]
        exact ⟨trivial, trivial, hI.valid01 c, hI.nonneg c, fun h => Or.inl h⟩
  · rw [brelse_not_held hl]; exact hI

/-- The invariant survives `bpin` of a referenced slot. -/
theorem Inv.bpin {nb nbuf : Nat} {s : Bcache} (hI : Inv nb nbuf s) (b : Nat)
    (hr : 0 < (s.buf b).refcnt) : Inv nb nbuf (bpin s b) := by
  refine hI.of_fields rfl (fun c => ?_)
  by_cases hcb : c = b
  · subst hcb
    refine ⟨by simp [BufCache.bpin], by simp [BufCache.bpin],
      by simpa [BufCache.bpin] using hI.valid01 c, ?_, fun _ => Or.inl (ne_of_gt hr)⟩
    simp only [BufCache.bpin, setBuf_buf_same]
    omega
  · simp only [BufCache.bpin, setBuf_buf_other _ _ _ _ hcb]
    exact ⟨trivial, trivial, hI.valid01 c, hI.nonneg c, fun h => Or.inl h⟩

/-- The invariant survives `bunpin` of a referenced slot. -/
theorem Inv.bunpin {nb nbuf : Nat} {s : Bcache} (hI : Inv nb nbuf s) (b : Nat)
    (hr : 0 < (s.buf b).refcnt) : Inv nb nbuf (bunpin s b) := by
  refine hI.of_fields rfl (fun c => ?_)
  by_cases hcb : c = b
  · subst hcb
    refine ⟨by simp [BufCache.bunpin], by simp [BufCache.bunpin],
      by simpa [BufCache.bunpin] using hI.valid01 c, ?_, fun _ => Or.inl (ne_of_gt hr)⟩
    simp only [BufCache.bunpin, setBuf_buf_same]
    omega
  · simp only [BufCache.bunpin, setBuf_buf_other _ _ _ _ hcb]
    exact ⟨trivial, trivial, hI.valid01 c, hI.nonneg c, fun h => Or.inl h⟩

/-- The invariant survives a change of content. -/
theorem Inv.setData {nb nbuf : Nat} {s : Bcache} (hI : Inv nb nbuf s) (b c : Nat) :
    Inv nb nbuf (setData s b c) := by
  refine hI.of_meta rfl (fun x => ?_)
  by_cases hxb : x = b
  · subst hxb; simpa [BufCache.setData] using hI.valid01 x
  · simp only [BufCache.setData, setBuf_buf_other _ _ _ _ hxb]
    exact ⟨trivial, trivial, hI.valid01 x, trivial⟩

/-- Every completed call preserves the invariant. -/
theorem Inv.step {nb nbuf : Nat} {s s1 : Bcache} (hI : Inv nb nbuf s) {op : Op}
    (h : step nb s op = some s1) : Inv nb nbuf s1 := by
  cases op with
  | bread p dev blockno =>
    have := hI.bread p dev blockno
    simp only [BufCache.step] at h
    cases hb : BufCache.bread nb s p dev blockno with
    | ok b s2 => rw [hb] at h this; simp at h; subst h; exact this
    | panic m s2 => rw [hb] at h; simp at h
    | blocked s2 => rw [hb] at h; simp at h
  | bwrite p b =>
    have := hI.bwrite p b
    simp only [BufCache.step] at h
    cases hb : BufCache.bwrite s p b with
    | ok u s2 => rw [hb] at h this; simp at h; subst h; exact this
    | panic m s2 => rw [hb] at h; simp at h
    | blocked s2 => rw [hb] at h; simp at h
  | brelse p b =>
    simp only [BufCache.step] at h
    by_cases hr : 0 < (s.buf b).refcnt
    · rw [if_pos hr] at h
      have := hI.brelse p b hr
      cases hb : BufCache.brelse nb s p b with
      | ok u s2 => rw [hb] at h this; simp at h; subst h; exact this
      | panic m s2 => rw [hb] at h; simp at h
      | blocked s2 => rw [hb] at h; simp at h
    · rw [if_neg hr] at h; simp at h
  | bpin b =>
    simp only [BufCache.step] at h
    by_cases hr : 0 < (s.buf b).refcnt
    · rw [if_pos hr] at h; simp at h; subst h; exact hI.bpin b hr
    · rw [if_neg hr] at h; simp at h
  | bunpin b =>
    simp only [BufCache.step] at h
    by_cases hr : 0 < (s.buf b).refcnt
    · rw [if_pos hr] at h; simp at h; subst h; exact hI.bunpin b hr
    · rw [if_neg hr] at h; simp at h
  | modify p b c =>
    simp only [BufCache.step] at h
    by_cases hl : holdingsleep s p b = true
    · rw [if_pos hl] at h; simp at h; subst h; exact hI.setData b c
    · rw [if_neg hl] at h; simp at h

/-- Every reachable state satisfies the invariant. -/
theorem Reachable.inv {nb nbuf : Nat} (hnb : 0 < nb) {s : Bcache}
    (hs : Reachable nb nbuf s) : Inv nb nbuf s := by
  induction hs with
  | init disk => exact Inv.binitOn disk hnb nbuf
  | step op _ h ih => exact ih.step h

/-- A returning `bget` went one of the three ways of `BgetCase`, found the
lock of the chosen slot free and took it. -/
theorem bget_ok {nb : Nat} {s : Bcache} {p dev blockno b : Nat} {s1 : Bcache}
    (h : bget nb s p dev blockno = .ok b s1) :
    ∃ s0, BgetCase nb s dev blockno b s0 ∧ (s0.buf b).lock = none ∧
      s1 = s0.setBuf b { s0.buf b with lock := some p } := by
  rcases bget_state_cases nb s p dev blockno with he | ⟨c, s0, hc, ⟨hl, he⟩ | ⟨_, he⟩⟩
  · rw [he] at h; simp at h
  · rw [he] at h
    simp only [Outcome.ok.injEq] at h
    obtain ⟨rfl, rfl⟩ := h
    exact ⟨s0, hc, hl, rfl⟩
  · rw [he] at h; simp at h

/-- At the point where `bget` calls `acquiresleep` the chosen slot carries
the wanted device and block number. -/
theorem BgetCase.key {nb : Nat} {s : Bcache} {dev blockno b : Nat} {s1 : Bcache}
    (hc : BgetCase nb s dev blockno b s1) :
    (s1.buf b).dev = dev ∧ (s1.buf b).blockno = blockno := by
  cases hc with
  | hit _ h => simpa using (scanHit_some h).1
  | recycle _ h1 h2 => simp
  | steal i _ h1 h2 h3 => simp

/-- At the point where `bget` calls `acquiresleep` the chosen slot is
referenced, the counts of a reachable state being non-negative. -/
theorem BgetCase.refcnt_pos {nb nbuf : Nat} {s : Bcache} (hI : Inv nb nbuf s)
    {dev blockno b : Nat} {s1 : Bcache} (hc : BgetCase nb s dev blockno b s1) :
    1 ≤ (s1.buf b).refcnt := by
  cases hc with
  | hit _ h =>
    have := hI.nonneg b
    simp only [setBuf_buf_same]
    omega
  | recycle _ h1 h2 => simp
  | steal i _ h1 h2 h3 => simp

/-- C5: locality.  In every state reached from `binit` by atomically executed
calls under the caller discipline, a slot with `refcnt > 0` is in the list of
the bucket `blockno % NBUCKETS` of its block number. -/
theorem locality (nb nbuf : Nat) (hnb : 0 < nb) (s : Bcache) (hs : Reachable nb nbuf s)
    (b : Nat) (hb : 0 < (s.buf b).refcnt) :
    b ∈ s.hashbucket ((s.buf b).blockno % nb) :=
  (hs.inv hnb).loc b (ne_of_gt hb)

/-- Witness of C5: after `bread(0, 0)` on the fresh cache, slot 26 is
referenced and sits in bucket 0. -/
theorem locality_witness :
    26 ∈ (bread NBUCKETS (binit NBUCKETS 30) 1 0 0).state.hashbucket
      (((bread NBUCKETS (binit NBUCKETS 30) 1 0 0).state.buf 26).blockno % NBUCKETS) :=
  locality NBUCKETS 30 (by decide) _
    (Reachable.step (Op.bread 1 0 0) (Reachable.init (fun _ _ => 0)) rfl) 26 (by decide)

/-- Two referenced slots of a state satisfying the invariant that carry the
same device and block number are the same slot. -/
theorem Inv.unique {nb nbuf : Nat} {s : Bcache} (hI : Inv nb nbuf s) {b c : Nat}
    (hb : (s.buf b).refcnt ≠ 0) (hc : (s.buf c).refcnt ≠ 0)
    (hd : (s.buf b).dev = (s.buf c).dev) (hn : (s.buf b).blockno = (s.buf c).blockno) :
    b = c := by
  have h1 := hI.first _ b (hI.loc b hb) hb
  have h2 := hI.first _ c (hI.loc c hc) hc
  rw [hd, hn, h2] at h1
  exact (Option.some.inj h1).symm

/-- C2: uniqueness under atomic execution.  In every state reached from
`binit` by atomically executed calls under the caller discipline, two slots
with `refcnt > 0` and the same device and block number are the same slot;
and after a returning `bget` the returned slot is the only referenced
slot carrying the requested device and block number. -/
theorem uniqueness (nb nbuf : Nat) (hnb : 0 < nb) (s : Bcache) (hs : Reachable nb nbuf s) :
    (∀ b c, 0 < (s.buf b).refcnt → 0 < (s.buf c).refcnt →
      (s.buf b).dev = (s.buf c).dev → (s.buf b).blockno = (s.buf c).blockno → b = c) ∧
    (∀ p dev blockno b s1, bget nb s p dev blockno = .ok b s1 →
      (0 < (s1.buf b).refcnt ∧ (s1.buf b).dev = dev ∧ (s1.buf b).blockno = blockno) ∧
      ∀ c, 0 < (s1.buf c).refcnt → (s1.buf c).dev = dev → (s1.buf c).blockno = blockno →
        c = b) := by
  have hI := hs.inv hnb
  refine ⟨fun b c hb hc hd hn => hI.unique (ne_of_gt hb) (ne_of_gt hc) hd hn, ?_⟩
  intro p dev blockno b s1 h
  have hI1 : Inv nb nbuf s1 := by
    have := hI.bget p dev blockno
    rw [h] at this
    exact this
  obtain ⟨s0, hc, _, rfl⟩ := bget_ok h
  have hk := hc.key
  have hr := hc.refcnt_pos hI
  have hb : 0 < ((s0.setBuf b { s0.buf b with lock := some p }).buf b).refcnt := by
    simp only [setBuf_buf_same]; omega
  refine ⟨⟨hb, by simpa using hk.1, by simpa using hk.2⟩, fun c hcr hcd hcn => ?_⟩
  refine hI1.unique (ne_of_gt hcr) (ne_of_gt hb) ?_ ?_
  · rw [hcd]; simp [hk.1]
  · rw [hcn]; simp [hk.2]

/-- Witness of C2: `bget(0, 0)` on the fresh cache returns slot 26, which is
then referenced and carries block `(0, 0)`. -/
theorem uniqueness_witness :
    0 < ((bget NBUCKETS (binit NBUCKETS 30) 1 0 0).state.buf 26).refcnt ∧
      ((bget NBUCKETS (binit NBUCKETS 30) 1 0 0).state.buf 26).dev = 0 ∧
      ((bget NBUCKETS (binit NBUCKETS 30) 1 0 0).state.buf 26).blockno = 0 :=
  ((uniqueness NBUCKETS 30 (by decide) _ (Reachable.init (fun _ _ => 0))).2
    1 0 0 26 (bget NBUCKETS (binit NBUCKETS 30) 1 0 0).state rfl).1

/-- The call `acquiresleep` never panics. -/
theorem acquiresleep_ne_panic (s : Bcache) (p b : Nat) (m : String) (s1 : Bcache) :
    acquiresleep s p b ≠ .panic m s1 := by
  rcases acquiresleep_cases s p b with ⟨_, h⟩ | ⟨_, h⟩ <;> rw [h] <;> simp

/-- The function `bread` panics exactly when `bget` does, in the same state. -/
theorem bread_panic_iff (nb : Nat) (s : Bcache) (p dev blockno : Nat) (m : String)
    (s1 : Bcache) :
    bread nb s p dev blockno = .panic m s1 ↔ bget nb s p dev blockno = .panic m s1 := by
  unfold bread
  cases hg : bget nb s p dev blockno with
  | ok c s0 =>
    simp only
    split <;> simp
  | panic m0 s0 => simp
  | blocked s0 => simp

/-- C4: resource exhaustion.  In a reachable state `bget`, and hence `bread`,
panics exactly when no slot of bucket `blockno % NBUCKETS` carries the device
and block number and every slot of the pool has `refcnt != 0`; the panic is
"bget: no buffers" and it leaves the whole cache as it was. -/
theorem bget_panic_iff (nb nbuf : Nat) (hnb : 0 < nb) (s : Bcache)
    (hs : Reachable nb nbuf s) (p dev blockno : Nat) :
    ((∃ m s1, bget nb s p dev blockno = .panic m s1) ↔
      ((∀ b ∈ s.hashbucket (blockno % nb),
          ¬ ((s.buf b).dev = dev ∧ (s.buf b).blockno = blockno)) ∧
        ∀ b, b < nbuf → (s.buf b).refcnt ≠ 0)) ∧
    ((∃ m s1, bread nb s p dev blockno = .panic m s1) ↔
      ((∀ b ∈ s.hashbucket (blockno % nb),
          ¬ ((s.buf b).dev = dev ∧ (s.buf b).blockno = blockno)) ∧
        ∀ b, b < nbuf → (s.buf b).refcnt ≠ 0)) ∧
    (∀ m s1, bget nb s p dev blockno = .panic m s1 → m = "bget: no buffers" ∧ s1 = s) ∧
    (∀ m s1, bread nb s p dev blockno = .panic m s1 → m = "bget: no buffers" ∧ s1 = s) := by
  have hI := hs.inv hnb
  have hh : blockno % nb < nb := Nat.mod_lt _ hnb
  have main : (∃ m s1, bget nb s p dev blockno = .panic m s1) ↔
      ((∀ b ∈ s.hashbucket (blockno % nb),
          ¬ ((s.buf b).dev = dev ∧ (s.buf b).blockno = blockno)) ∧
        ∀ b, b < nbuf → (s.buf b).refcnt ≠ 0) := by
    constructor
    · rintro ⟨m, s1, he⟩
      rcases bget_cases nb s p dev blockno with ⟨b, s0, _, ha⟩ | ⟨h1, h2, h3, _⟩
      · rw [ha] at he
        exact absurd he (acquiresleep_ne_panic _ _ _ _ _)
      · refine ⟨scanHit_none.1 h1, fun b hb => ?_⟩
        obtain ⟨i, hi, hbi⟩ := hI.cover b hb
        by_cases hih : i = blockno % nb
        · subst hih
          exact scanFree_none.1 h2 b hbi
        · exact scanFree_none.1
            (scanOthers_none.1 h3 i (List.mem_range.2 hi) hih) b hbi
    · rintro ⟨h1, h2⟩
      have e1 := scanHit_none.2 h1
      have e2 : scanFree s.buf (s.hashbucket (blockno % nb)) = none :=
        scanFree_none.2 (fun b hb => h2 b (hI.bound _ b hb).1)
      have e3 : scanOthers s (blockno % nb) (List.range nb) = none :=
        scanOthers_none.2 (fun i _ _ =>
          scanFree_none.2 (fun b hb => h2 b (hI.bound _ b hb).1))
      exact ⟨"bget: no buffers", s, by simp [bget, e1, e2, e3]⟩
  have unchanged : ∀ m s1, bget nb s p dev blockno = .panic m s1 →
      m = "bget: no buffers" ∧ s1 = s := by
    intro m s1 he
    rcases bget_cases nb s p dev blockno with ⟨b, s0, _, ha⟩ | ⟨_, _, _, hp⟩
    · rw [ha] at he
      exact absurd he (acquiresleep_ne_panic _ _ _ _ _)
    · rw [hp] at he
      simp only [Outcome.panic.injEq] at he
      exact ⟨he.1.symm, he.2.symm⟩
  refine ⟨main, ?_, unchanged, fun m s1 he => unchanged m s1 ((bread_panic_iff _ _ _ _ _ _ _).1 he)⟩
  rw [← main]
  constructor
  · rintro ⟨m, s1, he⟩
    exact ⟨m, s1, (bread_panic_iff _ _ _ _ _ _ _).1 he⟩
  · rintro ⟨m, s1, he⟩
    exact ⟨m, s1, (bread_panic_iff _ _ _ _ _ _ _).2 he⟩

/-- Witness of C4 with 2 buckets and 2 slots: once blocks `(1, 0)` and
`(1, 1)` are held, reading `(1, 2)` panics. -/
theorem bget_panic_iff_witness :
    ∃ m s1, bread 2 (bread 2 (bread 2 (binit 2 2) 1 1 0).state 1 1 1).state 1 1 2
        = .panic m s1 :=
  (bget_panic_iff 2 2 (by decide) _
    (Reachable.step (Op.bread 1 1 1)
      (Reachable.step (Op.bread 1 1 0) (Reachable.init (fun _ _ => 0)) rfl) rfl) 1 1 2).2.1.2
    ⟨by decide, by decide⟩

/-- When `bread(dev, blockno)` returns slot `b` at once from a reachable state,
the slot carries `dev` and `blockno`, has `valid = 1` and `refcnt >= 1`, and
its content lock is held by the caller; the call added one disk read of
`(dev, blockno)` to the trace exactly when the slot returned by `bget` had
`valid = 0`, and nothing otherwise. -/
theorem bread_returns_post (nb nbuf : Nat) (hnb : 0 < nb) (s : Bcache) (hs : Reachable nb nbuf s)
    (p dev blockno b : Nat) (s2 : Bcache) (h : bread nb s p dev blockno = .ok b s2) :
    (s2.buf b).dev = dev ∧ (s2.buf b).blockno = blockno ∧ (s2.buf b).valid = 1 ∧
    1 ≤ (s2.buf b).refcnt ∧ (s2.buf b).lock = some p ∧
    ∃ s1, bget nb s p dev blockno = .ok b s1 ∧
      (s2.log = s.log ++ [DiskEvent.read dev blockno] ↔ (s1.buf b).valid = 0) ∧
      (s2.log = s.log ↔ (s1.buf b).valid ≠ 0) := by
  have hI := hs.inv hnb
  obtain ⟨s1, hg⟩ := bget_of_bread h
  have hI1 : Inv nb nbuf s1 := by
    have := hI.bget p dev blockno
    rw [hg] at this
    exact this
  obtain ⟨s0, hc, _, hs1⟩ := bget_ok hg
  have hk := hc.key
  have hr := hc.refcnt_pos hI
  have hlog : s1.log = s.log := by rw [hs1]; exact hc.frame.2.2.2.1
  have h1d : (s1.buf b).dev = dev := by rw [hs1]; simpa using hk.1
  have h1n : (s1.buf b).blockno = blockno := by rw [hs1]; simpa using hk.2
  have h1r : 1 ≤ (s1.buf b).refcnt := by rw [hs1]; simpa using hr
  have h1l : (s1.buf b).lock = some p := by rw [hs1]; simp
  rw [bread_of_bget hg] at h
  by_cases hv : (s1.buf b).valid = 0
  · rw [if_pos hv] at h
    simp only [Outcome.ok.injEq, true_and] at h
    subst h
    refine ⟨by simp [virtio_disk_rw, h1d], by simp [virtio_disk_rw, h1n], by simp,
      by simpa [virtio_disk_rw] using h1r, by simp [virtio_disk_rw, h1l], s1, hg, ?_, ?_⟩
    · simp [virtio_disk_rw, hlog, h1d, h1n, hv]
    · simp [virtio_disk_rw, hlog, hv]
  · rw [if_neg hv] at h
    simp only [Outcome.ok.injEq, true_and] at h
    subst h
    have hv1 : (s1.buf b).valid = 1 := by
      have := hI1.valid01 b
      omega
    refine ⟨h1d, h1n, hv1, h1r, h1l, s1, hg, ?_, ?_⟩
    · simp [hlog, hv]
    · simp [hlog, hv]

/-- C7: effect of release.  From a reachable state, `brelse(b)` by the holder
of the content lock of `b` returns, having released the lock and decremented
`b.refcnt` by 1 and changed nothing else in `b`; no other slot, nor the disk
or the trace, changes.  When the new `refcnt` is 0, `b` was in the list of
bucket `b.blockno % NBUCKETS` and is now its head, the other slots of that
bucket following in their old order, and every other bucket is as it was;
when the new `refcnt` is not 0 every bucket list is as it was. -/
theorem brelse_effect (nb nbuf : Nat) (hnb : 0 < nb) (s : Bcache)
    (hs : Reachable nb nbuf s) (p b : Nat) (hl : (s.buf b).lock = some p) :
    ∃ s1, brelse nb s p b = .ok () s1 ∧
      s1.buf b = { s.buf b with lock := none, refcnt := (s.buf b).refcnt - 1 } ∧
      (∀ c, c ≠ b → s1.buf c = s.buf c) ∧
      s1.disk = s.disk ∧ s1.log = s.log ∧
      ((s1.buf b).refcnt = 0 →
        b ∈ s.hashbucket ((s.buf b).blockno % nb) ∧
        s1.hashbucket ((s.buf b).blockno % nb) =
          b :: (s.hashbucket ((s.buf b).blockno % nb)).erase b ∧
        ∀ i, i ≠ (s.buf b).blockno % nb → s1.hashbucket i = s.hashbucket i) ∧
      ((s1.buf b).refcnt ≠ 0 → s1.hashbucket = s.hashbucket) := by
  have hI := hs.inv hnb
  rw [brelse_held hl]
  by_cases h0 : (s.buf b).refcnt - 1 = 0
  · rw [if_pos h0]
    refine ⟨_, rfl, by simp, fun c hcb => by simp [hcb], rfl, rfl, fun _ => ?_, fun h => ?_⟩
    · have hr : (s.buf b).refcnt ≠ 0 := by omega
      have hb := hI.loc b hr
      refine ⟨hb, by simp, fun i hi => ?_⟩
      rw [pushHead_hashbucket_other _ _ _ _ hi, unlink_hashbucket, setBuf_hashbucket]
      refine List.erase_of_not_mem (fun hbi => hi ?_)
      exact hI.disj _ _ _ hbi hb
    · simp [h0] at h
  · rw [if_neg h0]
    refine ⟨_, rfl, by simp, fun c hcb => by simp [hcb], rfl, rfl, fun h => ?_, fun _ => rfl⟩
    simp [h0] at h

/-- Witness of C7: the release of slot 26 by its holder after `bread(0, 0)`. -/
theorem brelse_effect_witness :
    ∃ s1, brelse NBUCKETS (bread NBUCKETS (binit NBUCKETS 30) 1 0 0).state 1 26 = .ok () s1 ∧
      s1.buf 26 = { (bread NBUCKETS (binit NBUCKETS 30) 1 0 0).state.buf 26 with
        lock := none
        refcnt := ((bread NBUCKETS (binit NBUCKETS 30) 1 0 0).state.buf 26).refcnt - 1 } :=
  have ⟨s1, h1, h2, _⟩ := brelse_effect NBUCKETS 30 (by decide) _
    (Reachable.step (Op.bread 1 0 0) (Reachable.init (fun _ _ => 0)) rfl) 1 26 (by decide)
  ⟨s1, h1, h2⟩

/-- C10: reload after eviction.  From a reachable state in which no slot of
bucket `blockno % NBUCKETS` carries `(dev, blockno)`, a returning `bread`
gives a slot that was free, that `bget` stamped with `valid = 0`, and
that was filled by exactly one disk read, of `(dev, blockno)`: it comes
back with `valid = 1` and the content of the disk block, not what the slot
held before.  Scenario with 4 slots in 2 buckets: three read-then-release
rounds on the blocks 0, 2 and 4 of device 1, all of bucket 0, return; block
`(1, 0)` is then in no slot, and a fourth read of it returns with a disk
read of `(1, 0)`. -/
theorem bread_reload :
    (∀ (nb nbuf : Nat), 0 < nb → ∀ (s : Bcache), Reachable nb nbuf s →
      ∀ (p dev blockno : Nat),
      (∀ c ∈ s.hashbucket (blockno % nb),
        ¬ ((s.buf c).dev = dev ∧ (s.buf c).blockno = blockno)) →
      ∀ (b : Nat) (s2 : Bcache), bread nb s p dev blockno = .ok b s2 →
        (s.buf b).refcnt = 0 ∧
        (∃ s1, bget nb s p dev blockno = .ok b s1 ∧ (s1.buf b).valid = 0 ∧
          (s1.buf b).dev = dev ∧ (s1.buf b).blockno = blockno ∧ (s1.buf b).refcnt = 1) ∧
        s2.log = s.log ++ [DiskEvent.read dev blockno] ∧
        (s2.buf b).valid = 1 ∧ (s2.buf b).data = s.disk dev blockno) ∧
    ((readRelease 2 (binit 2 4) 7 1 0).isOk = true ∧
      (readRelease 2 (readRelease 2 (binit 2 4) 7 1 0).state 7 1 2).isOk = true ∧
      (readRelease 2 (readRelease 2 (readRelease 2 (binit 2 4) 7 1 0).state 7 1 2).state
        7 1 4).isOk = true ∧
      (∀ b, b < 4 → ¬ (((readRelease 2 (readRelease 2 (readRelease 2 (binit 2 4) 7 1 0).state
            7 1 2).state 7 1 4).state.buf b).dev = 1 ∧
          ((readRelease 2 (readRelease 2 (readRelease 2 (binit 2 4) 7 1 0).state
            7 1 2).state 7 1 4).state.buf b).blockno = 0)) ∧
      (bread 2 (readRelease 2 (readRelease 2 (readRelease 2 (binit 2 4) 7 1 0).state
          7 1 2).state 7 1 4).state 7 1 0).isOk = true ∧
      (bread 2 (readRelease 2 (readRelease 2 (readRelease 2 (binit 2 4) 7 1 0).state
          7 1 2).state 7 1 4).state 7 1 0).state.log =
        (readRelease 2 (readRelease 2 (readRelease 2 (binit 2 4) 7 1 0).state
          7 1 2).state 7 1 4).state.log ++ [DiskEvent.read 1 0]) := by
  refine ⟨?_, by decide⟩
  intro nb nbuf hnb s hs p dev blockno hm b s2 h
  have hI := hs.inv hnb
  obtain ⟨s1, hg⟩ := bget_of_bread h
  obtain ⟨s0, hc, _, hs1⟩ := bget_ok hg
  have hfr := hc.frame
  have hmiss := scanHit_none.2 hm
  have hfacts : (s.buf b).refcnt = 0 ∧ (s1.buf b).valid = 0 ∧ (s1.buf b).dev = dev ∧
      (s1.buf b).blockno = blockno ∧ (s1.buf b).refcnt = 1 := by
    rw [hs1]
    cases hc with
    | hit _ hh => rw [hmiss] at hh; simp at hh
    | recycle _ h1 h2 => exact ⟨(scanFree_some h2).1, by simp, by simp, by simp, by simp⟩
    | steal i _ h1 h2 h3 =>
      exact ⟨(scanFree_some (scanOthers_some h3).2.2).1, by simp, by simp, by simp, by simp⟩
  obtain ⟨hf0, hv, hd, hn, hr⟩ := hfacts
  have hlog : s1.log = s.log := by rw [hs1]; exact hfr.2.2.2.1
  have hdisk : s1.disk = s.disk := by rw [hs1]; exact hfr.2.2.2.2
  rw [bread_of_bget hg, if_pos hv] at h
  simp only [Outcome.ok.injEq, true_and] at h
  subst h
  refine ⟨hf0, ⟨s1, hg, hv, hd, hn, hr⟩, ?_, by simp, ?_⟩
  · simp [virtio_disk_rw, hlog, hd, hn]
  · simp [virtio_disk_rw, hdisk, hd, hn]

/-- Witness of C10 on the cache of 13 buckets and 30 slots: block `(1, 0)` is
not in the fresh cache, and `bread` takes the free slot 0, filled by a disk
read. -/
theorem bread_reload_witness :
    ((binit NBUCKETS 30).buf 0).refcnt = 0 ∧
    (bread NBUCKETS (binit NBUCKETS 30) 7 1 0).state.log =
      (binit NBUCKETS 30).log ++ [DiskEvent.read 1 0] :=
  have h := bread_reload.1 NBUCKETS 30 (by decide) _ (Reachable.init (fun _ _ => 0)) 7 1 0
    (by decide) 0 (bread NBUCKETS (binit NBUCKETS 30) 7 1 0).state rfl
  ⟨h.1, h.2.2.1⟩

/-- The lookup still finds `b` after another slot `c` was restamped for a
different block. -/
theorem scanHit_restamp {buf buf1 : Nat → Buf} {dev blockno : Nat} {l : List Nat} {b c : Nat}
    (h : scanHit buf dev blockno l = some b) (hcb : c ≠ b)
    (hsame : ∀ x, x ≠ c → buf1 x = buf x)
    (hk : ¬ ((buf1 c).dev = dev ∧ (buf1 c).blockno = blockno)) :
    scanHit buf1 dev blockno l = some b := by
  have hkb := (scanHit_some h).1
  unfold scanHit at h ⊢
  refine find_mono h (fun x _ hq => ?_) ?_
  · by_cases hxc : x = c
    · subst hxc
      simp only [decide_eq_true_eq] at hq
      exact absurd hq hk
    · rw [hsame x hxc] at hq
      exact hq
  · simpa [hsame b (Ne.symm hcb)] using hkb

/-- The lookup still finds `b` after another slot `c` was unlinked, and also
when `c` was then put at the head without carrying the block looked up. -/
theorem scanHit_move {buf buf1 : Nat → Buf} {dev blockno : Nat} {l : List Nat} {b c : Nat}
    (h : scanHit buf dev blockno l = some b) (hcb : c ≠ b)
    (hsame : ∀ x, x ≠ c → buf1 x = buf x) (hnd : l.Nodup) :
    scanHit buf1 dev blockno (l.erase c) = some b ∧
    (¬ ((buf1 c).dev = dev ∧ (buf1 c).blockno = blockno) →
      scanHit buf1 dev blockno (c :: l.erase c) = some b) := by
  have hkb := (scanHit_some h).1
  have h1 : scanHit buf1 dev blockno (l.erase c) = some b := by
    unfold scanHit at h ⊢
    refine find_mono (find_erase h (Ne.symm hcb)) (fun x hx hq => ?_) ?_
    · have hxc : x ≠ c := (hnd.mem_erase_iff.1 hx).1
      rw [hsame x hxc] at hq
      exact hq
    · simpa [hsame b (Ne.symm hcb)] using hkb
  refine ⟨h1, fun hk => ?_⟩
  unfold scanHit at h1 ⊢
  rw [List.find?_cons]
  have : decide ((buf1 c).dev = dev ∧ (buf1 c).blockno = blockno) = false := by
    simpa using hk
  rw [this]
  exact h1

/-- A slot caching a block still caches it at the point where a `bget`
calls `acquiresleep`, if it still carries the block there. -/
theorem BgetCase.keeps_cached {nb nbuf : Nat} {s : Bcache} (hI : Inv nb nbuf s)
    {b dev blockno : Nat} (hC : Cached nb s b dev blockno)
    {dev1 blockno1 b1 : Nat} {s0 : Bcache} (hc : BgetCase nb s dev1 blockno1 b1 s0)
    (hd : (s0.buf b).dev = dev) (hn : (s0.buf b).blockno = blockno) :
    Cached nb s0 b dev blockno := by
  obtain ⟨hbd, hbn, hbv, hbf⟩ := hC
  cases hc with
  | hit _ hh =>
    refine ⟨hd, hn, ?_, ?_⟩
    · by_cases hb : b = b1
      · subst hb; simpa using hbv
      · simpa [hb] using hbv
    · rw [setBuf_hashbucket, ← hbf]
      refine scanHit_congr (fun x _ => ?_)
      by_cases hx : x = b1
      · subst hx; simp
      · simp [hx]
  | recycle _ h1 h2 =>
    have hne : ¬ (dev1 = dev ∧ blockno1 = blockno) := by
      rintro ⟨rfl, rfl⟩
      rw [h1] at hbf
      exact absurd hbf (by simp)
    have hb : b1 ≠ b := by
      rintro rfl
      simp only [stamp_buf_same] at hd hn
      exact hne ⟨hd, hn⟩
    refine ⟨hd, hn, by simpa [Ne.symm hb] using hbv, ?_⟩
    rw [stamp_hashbucket]
    exact scanHit_restamp hbf hb (fun x hx => by simp [hx]) (by simpa using hne)
  | steal i _ h1 h2 h3 =>
    have hne : ¬ (dev1 = dev ∧ blockno1 = blockno) := by
      rintro ⟨rfl, rfl⟩
      rw [h1] at hbf
      exact absurd hbf (by simp)
    have hb : b1 ≠ b := by
      rintro rfl
      simp only [pushHead_buf, stamp_buf_same] at hd hn
      exact hne ⟨hd, hn⟩
    refine ⟨hd, hn, by simpa [Ne.symm hb] using hbv, ?_⟩
    have hm := @scanHit_move s.buf (pushHead (stamp (unlink s b1) b1 dev1 blockno1)
        (blockno1 % nb) b1).buf dev blockno _ b b1 hbf hb (fun x hx => by simp [hx])
      (hI.nodup _)
    by_cases hj : blockno % nb = blockno1 % nb
    · rw [hj] at hm ⊢
      rw [pushHead_hashbucket_same, stamp_hashbucket, unlink_hashbucket]
      exact hm.2 (by simpa using hne)
    · rw [pushHead_hashbucket_other _ _ _ _ hj, stamp_hashbucket, unlink_hashbucket]
      exact hm.1

/-- What a completed `bread` leaves: the state of `bget` at `acquiresleep`,
up to the lock, the content and the validity flag of the returned slot. -/
theorem step_bread {nb : Nat} {s s2 : Bcache} {p dev blockno : Nat}
    (h : step nb s (Op.bread p dev blockno) = some s2) :
    ∃ b s0, BgetCase nb s dev blockno b s0 ∧ bread nb s p dev blockno = .ok b s2 ∧
      s2.hashbucket = s0.hashbucket ∧
      (∀ c, (s2.buf c).dev = (s0.buf c).dev ∧ (s2.buf c).blockno = (s0.buf c).blockno ∧
        (s2.buf c).refcnt = (s0.buf c).refcnt) ∧
      (∀ c, c ≠ b → s2.buf c = s0.buf c) ∧
      ((s0.buf b).valid ≠ 0 → (s2.buf b).valid = (s0.buf b).valid) := by
  simp only [step] at h
  cases hb : bread nb s p dev blockno with
  | panic m s3 => rw [hb] at h; simp at h
  | blocked s3 => rw [hb] at h; simp at h
  | ok b s3 =>
    rw [hb] at h
    simp only [Option.some.injEq] at h
    subst h
    obtain ⟨s1, hg⟩ := bget_of_bread hb
    obtain ⟨s0, hc, _, hs1⟩ := bget_ok hg
    refine ⟨b, s0, hc, rfl, ?_⟩
    rw [bread_of_bget hg] at hb
    by_cases hv : (s1.buf b).valid = 0
    · rw [if_pos hv] at hb
      simp only [Outcome.ok.injEq, true_and] at hb
      subst hb
      subst hs1
      refine ⟨rfl, fun c => ?_, fun c hcb => ?_, fun hv0 => ?_⟩
      · by_cases hcb : c = b
        · subst hcb; simp [virtio_disk_rw]
        · simp [virtio_disk_rw, hcb]
      · simp [virtio_disk_rw, hcb]
      · simp at hv; exact absurd hv hv0
    · rw [if_neg hv] at hb
      simp only [Outcome.ok.injEq, true_and] at hb
      subst hb
      subst hs1
      refine ⟨rfl, fun c => ?_, fun c hcb => ?_, fun _ => ?_⟩
      · by_cases hcb : c = b
        · subst hcb; simp
        · simp [hcb]
      · simp [hcb]
      · simp

/-- Caching carries over to a cache with the same lists in which no slot
changed device or block number and `b` is still valid. -/
theorem Cached.of_same {nb : Nat} {s s2 : Bcache} {b dev blockno : Nat}
    (hC : Cached nb s b dev blockno) (hb : s2.hashbucket = s.hashbucket)
    (hf : ∀ c, (s2.buf c).dev = (s.buf c).dev ∧ (s2.buf c).blockno = (s.buf c).blockno)
    (hv : (s2.buf b).valid = 1) : Cached nb s2 b dev blockno := by
  obtain ⟨hbd, hbn, _, hbf⟩ := hC
  refine ⟨(hf b).1.trans hbd, (hf b).2.trans hbn, hv, ?_⟩
  rw [hb, ← hbf]
  exact scanHit_congr (fun x _ => hf x)

/-- A slot caching a block still caches it after a completed call, if it
still carries the block then. -/
theorem Cached.after_step {nb nbuf : Nat} {s s2 : Bcache} (hI : Inv nb nbuf s)
    {b dev blockno : Nat} (hC : Cached nb s b dev blockno) {op : Op}
    (h : step nb s op = some s2)
    (hd : (s2.buf b).dev = dev) (hn : (s2.buf b).blockno = blockno) :
    Cached nb s2 b dev blockno := by
  cases op with
  | bread p dev1 blockno1 =>
    obtain ⟨b1, s0, hc, _, hl, hf, ho, hv⟩ := step_bread h
    have hC0 : Cached nb s0 b dev blockno :=
      hc.keeps_cached hI hC ((hf b).1 ▸ hd) ((hf b).2.1 ▸ hn)
    refine hC0.of_same hl (fun c => ⟨(hf c).1, (hf c).2.1⟩) ?_
    by_cases hb : b = b1
    · subst hb
      rw [hv (by rw [hC0.2.2.1]; simp)]
      exact hC0.2.2.1
    · rw [ho b hb]; exact hC0.2.2.1
  | bwrite p c =>
    simp only [BufCache.step, bwrite] at h
    by_cases hl : holdingsleep s p c = true
    · simp only [hl, Bool.not_true, Bool.false_eq_true, if_false, Option.some.injEq] at h
      subst h
      exact hC.of_same (by simp [virtio_disk_rw]) (fun x => by simp [virtio_disk_rw])
        (by simpa [virtio_disk_rw] using hC.2.2.1)
    · simp [hl] at h
  | brelse p c =>
    simp only [BufCache.step] at h
    by_cases hr : 0 < (s.buf c).refcnt
    · rw [if_pos hr] at h
      by_cases hl : (s.buf c).lock = some p
      · rw [brelse_held hl] at h
        by_cases h0 : (s.buf c).refcnt - 1 = 0
        · rw [if_pos h0] at h
          simp only [Option.some.injEq] at h
          subst h
          obtain ⟨hbd, hbn, hbv, hbf⟩ := hC
          by_cases hcb : c = b
          · subst hcb
            refine ⟨hd, hn, by simpa using hbv, ?_⟩
            rw [← hbn, pushHead_hashbucket_same]
            simp [scanHit, hbd]
          · refine ⟨hd, hn, by simpa [Ne.symm hcb] using hbv, ?_⟩
            have hm := @scanHit_move s.buf (pushHead (unlink (s.setBuf c
                { s.buf c with lock := none, refcnt := (s.buf c).refcnt - 1 }) c)
                ((s.buf c).blockno % nb) c).buf dev blockno _ b c hbf hcb
              (fun x hx => by simp [hx]) (hI.nodup _)
            by_cases hj : blockno % nb = (s.buf c).blockno % nb
            · rw [hj] at hm ⊢
              rw [pushHead_hashbucket_same, unlink_hashbucket, setBuf_hashbucket]
              refine hm.2 ?_
              simp only [pushHead_buf, unlink_buf, setBuf_buf_same]
              rintro ⟨hcd, hcn⟩
              have hcr : (s.buf c).refcnt ≠ 0 := ne_of_gt hr
              have h1 := hI.first _ c (hI.loc c hcr) hcr
              rw [hcd, hcn, hbf] at h1
              exact hcb (Option.some.inj h1).symm
            · rw [pushHead_hashbucket_other _ _ _ _ hj, unlink_hashbucket, setBuf_hashbucket]
              exact hm.1
        · rw [if_neg h0] at h
          simp only [Option.some.injEq] at h
          subst h
          refine hC.of_same rfl (fun x => ?_) ?_
          · by_cases hx : x = c
            · subst hx; simp
            · simp [hx]
          · by_cases hx : b = c
            · subst hx; simpa using hC.2.2.1
            · simpa [hx] using hC.2.2.1
      · rw [brelse_not_held hl] at h; simp at h
    · rw [if_neg hr] at h; simp at h
  | bpin c =>
    simp only [BufCache.step] at h
    split at h
    · simp only [Option.some.injEq] at h
      subst h
      refine hC.of_same rfl (fun x => ?_) ?_
      · by_cases hx : x = c
        · subst hx; simp [bpin]
        · simp [bpin, hx]
      · by_cases hx : b = c
        · subst hx; simpa [bpin] using hC.2.2.1
        · simpa [bpin, hx] using hC.2.2.1
    · simp at h
  | bunpin c =>
    simp only [BufCache.step] at h
    split at h
    · simp only [Option.some.injEq] at h
      subst h
      refine hC.of_same rfl (fun x => ?_) ?_
      · by_cases hx : x = c
        · subst hx; simp [bunpin]
        · simp [bunpin, hx]
      · by_cases hx : b = c
        · subst hx; simpa [bunpin] using hC.2.2.1
        · simpa [bunpin, hx] using hC.2.2.1
    · simp at h
  | modify p c v =>
    simp only [BufCache.step] at h
    split at h
    · simp only [Option.some.injEq] at h
      subst h
      refine hC.of_same rfl (fun x => ?_) ?_
      · by_cases hx : x = c
        · subst hx; simp [setData]
        · simp [setData, hx]
      · by_cases hx : b = c
        · subst hx; simpa [setData] using hC.2.2.1
        · simpa [setData, hx] using hC.2.2.1
    · simp at h

/-- Along a run that keeps the block of slot `b`, the invariant holds and
the slot goes on caching the block. -/
theorem Kept.inv_cached {nb nbuf : Nat} {b dev blockno : Nat} {s1 s2 : Bcache}
    (hk : Kept nb b dev blockno s1 s2) (hI : Inv nb nbuf s1)
    (hC : Cached nb s1 b dev blockno) : Inv nb nbuf s2 ∧ Cached nb s2 b dev blockno := by
  induction hk with
  | refl => exact ⟨hI, hC⟩
  | step op _ h hd hn ih => exact ⟨ih.1.step h, ih.2.after_step ih.1 h hd hn⟩

/-- The slot returned by `bread` caches the block. -/
theorem bread_cached {nb nbuf : Nat} {s : Bcache} (hI : Inv nb nbuf s)
    {p dev blockno b : Nat} {s1 : Bcache} (h : bread nb s p dev blockno = .ok b s1) :
    Inv nb nbuf s1 ∧ Cached nb s1 b dev blockno := by
  have hI1 : Inv nb nbuf s1 := by
    have := hI.bread p dev blockno
    rw [h] at this
    exact this
  have hst : step nb s (Op.bread p dev blockno) = some s1 := by simp [BufCache.step, h]
  obtain ⟨b1, s0, hc, hb, _, hf, _, hv⟩ := step_bread hst
  rw [h] at hb
  simp only [Outcome.ok.injEq] at hb
  obtain ⟨rfl, _⟩ := hb
  have hk := hc.key
  have hr := hc.refcnt_pos hI
  have hd : (s1.buf b).dev = dev := (hf b).1.trans hk.1
  have hn : (s1.buf b).blockno = blockno := (hf b).2.1.trans hk.2
  have hr1 : (s1.buf b).refcnt ≠ 0 := by rw [(hf b).2.2]; omega
  refine ⟨hI1, hd, hn, ?_, ?_⟩
  · obtain ⟨s1a, hg⟩ := bget_of_bread h
    have hI1a : Inv nb nbuf s1a := by
      have := hI.bget p dev blockno
      rw [hg] at this
      exact this
    rw [bread_of_bget hg] at h
    by_cases hv0 : (s1a.buf b).valid = 0
    · rw [if_pos hv0] at h
      simp only [Outcome.ok.injEq, true_and] at h
      subst h; simp
    · rw [if_neg hv0] at h
      simp only [Outcome.ok.injEq, true_and] at h
      subst h
      have := hI1a.valid01 b
      omega
  · have := hI1.first _ b (hI1.loc b hr1) hr1
    rw [hd, hn] at this
    exact this

/-- After a `bread(dev, blockno)` that returned slot `b` from a reachable
state, and any run of completed calls during which `b` is not restamped for
another block, a further `bread(dev, blockno)` by process `q` finds `b`: if
the content lock of `b` is free it returns `b` with no disk transfer, the
count of `b` one higher, the lock taken, and the content of `b`, every other
slot and every bucket list as they were; if the lock is held the caller
sleeps on the lock of `b`, the count of `b` already one higher, with no disk
transfer either. -/
theorem bread_again (nb nbuf : Nat) (hnb : 0 < nb) (s : Bcache)
    (hs : Reachable nb nbuf s) (p dev blockno b : Nat) (s1 : Bcache)
    (h1 : bread nb s p dev blockno = .ok b s1) (s2 : Bcache)
    (hk : Kept nb b dev blockno s1 s2) (q : Nat) :
    ((s2.buf b).lock = none →
      ∃ s3, bread nb s2 q dev blockno = .ok b s3 ∧ s3.log = s2.log ∧ s3.disk = s2.disk ∧
        s3.buf b = { s2.buf b with refcnt := (s2.buf b).refcnt + 1, lock := some q } ∧
        (∀ c, c ≠ b → s3.buf c = s2.buf c) ∧ s3.hashbucket = s2.hashbucket) ∧
    ((s2.buf b).lock ≠ none →
      ∃ s3, bread nb s2 q dev blockno = .blocked s3 ∧ s3.log = s2.log ∧ s3.disk = s2.disk ∧
        s3.buf b = { s2.buf b with refcnt := (s2.buf b).refcnt + 1 } ∧
        (∀ c, c ≠ b → s3.buf c = s2.buf c) ∧ s3.hashbucket = s2.hashbucket ∧
        bgetSlot nb s2 dev blockno = some b) := by
  have hI := hs.inv hnb
  obtain ⟨hI1, hC1⟩ := bread_cached hI h1
  obtain ⟨_, _, hv, hf⟩ := (hk.inv_cached hI1 hC1).2
  have hg : bget nb s2 q dev blockno =
      acquiresleep (s2.setBuf b { s2.buf b with refcnt := (s2.buf b).refcnt + 1 }) q b := by
    simp [bget, hf]
  constructor
  · intro hl
    have hg1 : bget nb s2 q dev blockno = .ok b ((s2.setBuf b
        { s2.buf b with refcnt := (s2.buf b).refcnt + 1 }).setBuf b
        { s2.buf b with refcnt := (s2.buf b).refcnt + 1, lock := some q }) := by
      rw [hg]
      simp [acquiresleep, hl]
    refine ⟨(s2.setBuf b { s2.buf b with refcnt := (s2.buf b).refcnt + 1 }).setBuf b
        { s2.buf b with refcnt := (s2.buf b).refcnt + 1, lock := some q },
      by rw [bread_of_bget hg1, if_neg (by simp [hv])], rfl, rfl, by simp,
      fun c hcb => by simp [hcb], rfl⟩
  · intro hl
    refine ⟨s2.setBuf b { s2.buf b with refcnt := (s2.buf b).refcnt + 1 }, ?_, rfl, rfl,
      by simp, fun c hcb => by simp [hcb], rfl, by simp [bgetSlot, hf]⟩
    have : acquiresleep (s2.setBuf b { s2.buf b with refcnt := (s2.buf b).refcnt + 1 }) q b
        = .blocked (s2.setBuf b { s2.buf b with refcnt := (s2.buf b).refcnt + 1 }) := by
      rcases acquiresleep_cases
        (s2.setBuf b { s2.buf b with refcnt := (s2.buf b).refcnt + 1 }) q b with ⟨h, _⟩ | ⟨_, h⟩
      · simp at h; exact absurd h hl
      · exact h
    simp [bread, hg, this]

/-- Forgetting the release times. -/
theorem ReachableT.reachable {nb nbuf : Nat} {s : Bcache} {clock : Nat} {rel : Nat → Nat}
    (hs : ReachableT nb nbuf s clock rel) : Reachable nb nbuf s := by
  induction hs with
  | init disk => exact Reachable.init disk
  | step op _ h _ ih => exact Reachable.step op ih h

/-- The recency order survives a change that frees no slot and moves none. -/
theorem Recency.mono {s s1 : Bcache} {rel : Nat → Nat} (hR : Recency s rel)
    (hb : s1.hashbucket = s.hashbucket)
    (hf : ∀ x, (s1.buf x).refcnt = 0 → (s.buf x).refcnt = 0) : Recency s1 rel := by
  intro i
  rw [hb]
  exact (hR i).imp (fun {x y} hxy h1 h2 => hxy (hf x h1) (hf y h2))

/-- The recency order survives the move of slot `b` to the head of bucket
`h`, if afterwards `b` is referenced or has the latest release time. -/
theorem Recency.after_move {s s1 : Bcache} {rel rel1 : Nat → Nat} {h b : Nat}
    (hR : Recency s rel) (hnd : ∀ j, (s.hashbucket j).Nodup)
    (hl : ∀ j, s1.hashbucket j =
      if j = h then b :: (s.hashbucket h).erase b else (s.hashbucket j).erase b)
    (hrel : ∀ x, x ≠ b → rel1 x = rel x)
    (hfree : ∀ x, x ≠ b → (s1.buf x).refcnt = 0 → (s.buf x).refcnt = 0)
    (hb : (s1.buf b).refcnt ≠ 0 ∨ ∀ y, y ≠ b → rel1 y < rel1 b) : Recency s1 rel1 := by
  have herase : ∀ j, ((s.hashbucket j).erase b).Pairwise
      (fun x y => (s1.buf x).refcnt = 0 → (s1.buf y).refcnt = 0 →
        rel1 y = 0 ∨ rel1 y < rel1 x) := by
    intro j
    refine List.Pairwise.imp_of_mem ?_ ((hR j).sublist (List.erase_sublist b _))
    intro x y hx hy hxy h1 h2
    have hxb : x ≠ b := ((hnd j).mem_erase_iff.1 hx).1
    have hyb : y ≠ b := ((hnd j).mem_erase_iff.1 hy).1
    rw [hrel x hxb, hrel y hyb]
    exact hxy (hfree x hxb h1) (hfree y hyb h2)
  intro j
  rw [hl]
  by_cases hj : j = h
  · subst hj
    simp only [if_true]
    refine List.pairwise_cons.2 ⟨fun y hy h1 _ => ?_, herase j⟩
    rcases hb with hb | hb
    · exact absurd h1 hb
    · exact Or.inr (hb y ((hnd j).mem_erase_iff.1 hy).1)
  · simp only [hj, if_false]
    exact herase j

/-- The recency order holds at the point where `bget` calls `acquiresleep`. -/
theorem BgetCase.keeps_recency {nb nbuf : Nat} {s : Bcache} (hI : Inv nb nbuf s)
    {rel : Nat → Nat} (hR : Recency s rel) {dev blockno b : Nat} {s0 : Bcache}
    (hc : BgetCase nb s dev blockno b s0) : Recency s0 rel := by
  cases hc with
  | hit _ hh =>
    refine hR.mono rfl (fun x hx => ?_)
    by_cases hxb : x = b
    · subst hxb
      have := hI.nonneg x
      simp only [setBuf_buf_same] at hx
      omega
    · simpa [hxb] using hx
  | recycle _ h1 h2 =>
    refine hR.mono rfl (fun x hx => ?_)
    by_cases hxb : x = b
    · subst hxb; simp at hx
    · simpa [hxb] using hx
  | steal i _ h1 h2 h3 =>
    refine @Recency.after_move s _ rel rel (blockno % nb) b hR hI.nodup (fun j => ?_)
      (fun _ _ => rfl) (fun x hxb hx => ?_) (Or.inl (by simp))
    · by_cases hj : j = blockno % nb
      · subst hj; simp
      · simp [hj]
    · simpa [hxb] using hx

/-- Release times never exceed the number of calls made, and the free slots
of every bucket are in recency order. -/
theorem ReachableT.recency_inv {nb nbuf : Nat} (hnb : 0 < nb) {s : Bcache} {clock : Nat}
    {rel : Nat → Nat} (hs : ReachableT nb nbuf s clock rel) :
    (∀ x, rel x ≤ clock) ∧ Recency s rel := by
  induction hs with
  | init disk =>
    refine ⟨fun _ => le_refl _, fun i => ?_⟩
    exact List.pairwise_of_forall (fun _ _ _ _ => Or.inl rfl)
  | @step s s1 clock rel op hprev h hun ih =>
    have hI := hprev.reachable.inv hnb
    obtain ⟨hle, hR⟩ := ih
    cases op with
    | bread p dev blockno =>
      obtain ⟨b, s0, hc, _, hl, hf, _, _⟩ := step_bread h
      refine ⟨fun x => Nat.le_succ_of_le (hle x), ?_⟩
      refine (hc.keeps_recency hI hR).mono hl (fun x hx => ?_)
      rw [← (hf x).2.2]; exact hx
    | bwrite p c =>
      refine ⟨fun x => Nat.le_succ_of_le (hle x), ?_⟩
      simp only [BufCache.step, bwrite] at h
      by_cases hl : holdingsleep s p c = true
      · simp only [hl, Bool.not_true, Bool.false_eq_true, if_false, Option.some.injEq] at h
        subst h
        exact hR.mono (by simp [virtio_disk_rw]) (fun x hx => by simpa [virtio_disk_rw] using hx)
      · simp [hl] at h
    | brelse p c =>
      simp only [BufCache.step] at h
      by_cases hr : 0 < (s.buf c).refcnt
      · rw [if_pos hr] at h
        by_cases hl : (s.buf c).lock = some p
        · rw [brelse_held hl] at h
          by_cases h0 : (s.buf c).refcnt - 1 = 0
          · rw [if_pos h0] at h
            simp only [Option.some.injEq] at h
            subst h
            have h1 : (s.buf c).refcnt = 1 := by omega
            simp only [relAfter, h1, if_true]
            refine ⟨fun x => ?_, ?_⟩
            · by_cases hx : x = c
              · subst hx; simp
              · rw [upd_other _ _ _ _ hx]; exact Nat.le_succ_of_le (hle x)
            · refine @Recency.after_move s _ rel _ ((s.buf c).blockno % nb) c hR hI.nodup
                (fun j => ?_) (fun x hx => upd_other _ _ _ _ hx)
                (fun x hx hx0 => by simpa [hx] using hx0) (Or.inr (fun y hy => ?_))
              · by_cases hj : j = (s.buf c).blockno % nb
                · rw [hj]; simp
                · simp [hj]
              · rw [upd_same, upd_other _ _ _ _ hy]
                exact Nat.lt_succ_of_le (hle y)
          · rw [if_neg h0] at h
            simp only [Option.some.injEq] at h
            subst h
            have h1 : (s.buf c).refcnt ≠ 1 := by omega
            simp only [relAfter, h1, if_false]
            refine ⟨fun x => Nat.le_succ_of_le (hle x), hR.mono rfl (fun x hx => ?_)⟩
            by_cases hxc : x = c
            · subst hxc
              simp only [setBuf_buf_same] at hx
              exact absurd hx h0
            · simpa [hxc] using hx
        · rw [brelse_not_held hl] at h; simp at h
      · rw [if_neg hr] at h; simp at h
    | bpin c =>
      refine ⟨fun x => Nat.le_succ_of_le (hle x), ?_⟩
      simp only [BufCache.step] at h
      by_cases hr : 0 < (s.buf c).refcnt
      · rw [if_pos hr] at h
        simp only [Option.some.injEq] at h
        subst h
        refine hR.mono rfl (fun x hx => ?_)
        by_cases hxc : x = c
        · subst hxc
          simp only [bpin, setBuf_buf_same] at hx
          omega
        · simpa [bpin, hxc] using hx
      · rw [if_neg hr] at h; simp at h
    | bunpin c =>
      refine ⟨fun x => Nat.le_succ_of_le (hle x), ?_⟩
      have h1 := hun c rfl
      simp only [BufCache.step] at h
      by_cases hr : 0 < (s.buf c).refcnt
      · rw [if_pos hr] at h
        simp only [Option.some.injEq] at h
        subst h
        refine hR.mono rfl (fun x hx => ?_)
        by_cases hxc : x = c
        · subst hxc
          simp only [bunpin, setBuf_buf_same] at hx
          omega
        · simpa [bunpin, hxc] using hx
      · rw [if_neg hr] at h; simp at h
    | modify p c v =>
      refine ⟨fun x => Nat.le_succ_of_le (hle x), ?_⟩
      simp only [BufCache.step] at h
      by_cases hl : holdingsleep s p c = true
      · rw [if_pos hl] at h
        simp only [Option.some.injEq] at h
        subst h
        refine hR.mono rfl (fun x hx => ?_)
        by_cases hxc : x = c
        · subst hxc; simpa [setData] using hx
        · simpa [setData, hxc] using hx
      · rw [if_neg hl] at h; simp at h

/-- The slot found by the free-slot loop is the free slot nearest the tail:
no slot after it in the list is free. -/
theorem scanFree_last {buf : Nat → Buf} {l : List Nat} {v : Nat}
    (h : scanFree buf l = some v) :
    ∃ l1 l2, l = l1 ++ v :: l2 ∧ ∀ c ∈ l2, (buf c).refcnt ≠ 0 := by
  unfold scanFree at h
  obtain ⟨_, as, bs, hl, has⟩ := List.find?_eq_some.1 h
  refine ⟨bs.reverse, as.reverse, ?_, fun c hc => ?_⟩
  · have := congrArg List.reverse hl
    simpa using this
  · have := has c (List.mem_reverse.1 hc)
    simpa using this

/-- C8: recency ordering of eviction.  In a state reached from `binit` by
atomically executed calls in which slots become free through `brelse` only,
when `bget` misses on `(dev, blockno)` and bucket `blockno % NBUCKETS` holds a
free slot, `bget` restamps one slot `v` and no other, and leaves the lists
alone; `v` is a free slot of that bucket whose last release to `refcnt = 0` is
the earliest among the free slots of the bucket, a slot never released
(time 0) counting as earliest, and strictly earlier than that of every other
free slot of the bucket that was ever released.  Hence a free slot released
before both `a` and `c` keeps `a` and `c` from being chosen. -/
theorem eviction_recency (nb nbuf : Nat) (hnb : 0 < nb) (s : Bcache) (clock : Nat)
    (rel : Nat → Nat) (hs : ReachableT nb nbuf s clock rel) (p dev blockno : Nat)
    (hm : ∀ c ∈ s.hashbucket (blockno % nb),
      ¬ ((s.buf c).dev = dev ∧ (s.buf c).blockno = blockno))
    (hfree : ∃ c ∈ s.hashbucket (blockno % nb), (s.buf c).refcnt = 0) :
    ∃ v, v ∈ s.hashbucket (blockno % nb) ∧ (s.buf v).refcnt = 0 ∧
      (((bget nb s p dev blockno).state.buf v).dev = dev ∧
        ((bget nb s p dev blockno).state.buf v).blockno = blockno ∧
        ((bget nb s p dev blockno).state.buf v).valid = 0 ∧
        ((bget nb s p dev blockno).state.buf v).refcnt = 1) ∧
      (∀ c, c ≠ v → (bget nb s p dev blockno).state.buf c = s.buf c) ∧
      (bget nb s p dev blockno).state.hashbucket = s.hashbucket ∧
      (∀ c ∈ s.hashbucket (blockno % nb), (s.buf c).refcnt = 0 → rel v ≤ rel c) ∧
      (∀ c ∈ s.hashbucket (blockno % nb), (s.buf c).refcnt = 0 → c ≠ v → rel c ≠ 0 →
        rel v < rel c) ∧
      (∀ e ∈ s.hashbucket (blockno % nb), (s.buf e).refcnt = 0 →
        ∀ a c, rel e < rel a → rel e < rel c → v ≠ a ∧ v ≠ c) := by
  obtain ⟨_, hR⟩ := hs.recency_inv hnb
  have h1 := scanHit_none.2 hm
  have h2 : ∃ v, scanFree s.buf (s.hashbucket (blockno % nb)) = some v := by
    cases hf : scanFree s.buf (s.hashbucket (blockno % nb)) with
    | some v => exact ⟨v, rfl⟩
    | none =>
      obtain ⟨c, hc, hc0⟩ := hfree
      exact absurd hc0 (scanFree_none.1 hf c hc)
  obtain ⟨v, hv⟩ := h2
  obtain ⟨hv0, hvm⟩ := scanFree_some hv
  have hg : bget nb s p dev blockno = acquiresleep (stamp s v dev blockno) p v := by
    simp [bget, h1, hv]
  -- release time of `v` against that of any other free slot of the bucket
  have key : ∀ c ∈ s.hashbucket (blockno % nb), (s.buf c).refcnt = 0 → c ≠ v →
      rel v = 0 ∨ rel v < rel c := by
    intro c hc hc0 hcv
    obtain ⟨l1, l2, hl, hl2⟩ := scanFree_last hv
    have hP := hR (blockno % nb)
    rw [hl] at hP hc
    rcases List.mem_append.1 hc with h | h
    · exact (List.pairwise_append.1 hP).2.2 c h v (List.mem_cons_self _ _) hc0 hv0
    · rcases List.mem_cons.1 h with h | h
      · exact absurd h hcv
      · exact absurd hc0 (hl2 c h)
  have hle : ∀ c ∈ s.hashbucket (blockno % nb), (s.buf c).refcnt = 0 → rel v ≤ rel c := by
    intro c hc hc0
    by_cases hcv : c = v
    · rw [hcv]
    · rcases key c hc hc0 hcv with h | h
      · rw [h]; exact Nat.zero_le _
      · exact le_of_lt h
  refine ⟨v, hvm, hv0, ?_, ?_, ?_, hle, ?_, ?_⟩
  · rw [hg]
    rcases acquiresleep_cases (stamp s v dev blockno) p v with ⟨_, h⟩ | ⟨_, h⟩ <;>
      rw [h] <;> simp [Outcome.state]
  · intro c hcv
    rw [hg]
    rcases acquiresleep_cases (stamp s v dev blockno) p v with ⟨_, h⟩ | ⟨_, h⟩ <;>
      rw [h] <;> simp [Outcome.state, hcv]
  · rw [hg]
    rcases acquiresleep_cases (stamp s v dev blockno) p v with ⟨_, h⟩ | ⟨_, h⟩ <;>
      rw [h] <;> simp [Outcome.state]
  · intro c hc hc0 hcv hrc
    rcases key c hc hc0 hcv with h | h
    · rw [h]; exact Nat.pos_of_ne_zero hrc
    · exact h
  · intro e he he0 a c hea hec
    have := hle e he he0
    constructor
    · rintro rfl; omega
    · rintro rfl; omega

/-- Witness of C8 with 4 slots in 2 buckets: blocks `(1, 0)` and `(1, 2)` are
read and released in turn, which frees slot 0 at time 2 and slot 2 at time 4;
the miss on `(1, 4)` then restamps a free slot of bucket 0. -/
theorem eviction_recency_witness :
    ∃ v, v ∈ (readRelease 2 (readRelease 2 (binit 2 4) 7 1 0).state 7 1 2).state.hashbucket 0 ∧
      ((readRelease 2 (readRelease 2 (binit 2 4) 7 1 0).state 7 1 2).state.buf v).refcnt = 0 ∧
      ((bget 2 (readRelease 2 (readRelease 2 (binit 2 4) 7 1 0).state 7 1 2).state
        7 1 4).state.buf v).blockno = 4 :=
  have hs : ReachableT 2 4 (readRelease 2 (readRelease 2 (binit 2 4) 7 1 0).state 7 1 2).state
      4 (upd (upd (fun _ => 0) 0 2) 2 4) :=
    @ReachableT.step 2 4 _ _ _ _ (Op.brelse 7 2)
      (@ReachableT.step 2 4 _ _ _ _ (Op.bread 7 1 2)
        (@ReachableT.step 2 4 _ _ _ _ (Op.brelse 7 0)
          (@ReachableT.step 2 4 _ _ _ _ (Op.bread 7 1 0) (ReachableT.init (fun _ _ => 0)) rfl
            (fun _ h => Op.noConfusion h))
          rfl (fun _ h => Op.noConfusion h))
        rfl (fun _ h => Op.noConfusion h))
      rfl (fun _ h => Op.noConfusion h)
  have ⟨v, h1, h2, h3, _⟩ := eviction_recency 2 4 (by decide) _ 4 _ hs 7 1 4 (by decide)
    ⟨0, by decide, by decide⟩
  ⟨v, h1, h2, h3.2.1⟩

/-- C11: pin and unpin.  On any cache state `bpin(b)` adds 1 to `b.refcnt` and
`bunpin(b)` takes 1 off it; neither changes the lock, device, block number,
validity flag or content of `b`, another slot, a bucket list, the disk or
the trace; and `bunpin(b)` after `bpin(b)` gives the state back. -/
theorem pin_unpin (s : Bcache) (b : Nat) :
    ((bpin s b).buf b = { s.buf b with refcnt := (s.buf b).refcnt + 1 } ∧
      (∀ c, c ≠ b → (bpin s b).buf c = s.buf c) ∧
      (bpin s b).hashbucket = s.hashbucket ∧ (bpin s b).disk = s.disk ∧
      (bpin s b).log = s.log) ∧
    ((bunpin s b).buf b = { s.buf b with refcnt := (s.buf b).refcnt - 1 } ∧
      (∀ c, c ≠ b → (bunpin s b).buf c = s.buf c) ∧
      (bunpin s b).hashbucket = s.hashbucket ∧ (bunpin s b).disk = s.disk ∧
      (bunpin s b).log = s.log) ∧
    bunpin (bpin s b) b = s := by
  refine ⟨⟨by simp [bpin], fun c hc => by simp [bpin, hc], rfl, rfl, rfl⟩,
    ⟨by simp [bunpin], fun c hc => by simp [bunpin, hc], rfl, rfl, rfl⟩, ?_⟩
  cases s with
  | mk buf hashbucket disk log =>
    simp only [bunpin, bpin, Bcache.setBuf, Bcache.mk.injEq, and_true]
    funext c
    by_cases hc : c = b
    · subst hc
      simp only [upd_same]
      cases buf c
      simp
    · simp [upd, hc]

/-- Witness of C11 on the fresh cache: pinning slot 0 leaves slot 1 alone. -/
theorem pin_unpin_witness :
    (bpin (binit NBUCKETS 30) 0).buf 1 = (binit NBUCKETS 30).buf 1 :=
  (pin_unpin (binit NBUCKETS 30) 0).1.2.1 1 (by decide)

/-- C20: unpinning to zero does not refresh recency.  With 4 slots in 2
buckets: slot 0 is read for block `(1, 0)`, pinned and released; block
`(1, 2)` is read into slot 2 and released, which frees slot 2; slot 0 is then
unpinned and becomes free later than slot 2.  The run obeys the caller
discipline, the list of bucket 0 is the same before and after the unpin,
slot 0 is behind slot 2 in it, and the next miss in the bucket restamps
slot 0 and leaves slot 2, free as well, alone. -/
theorem bunpin_keeps_position :
    ∃ s1 s2,
      runOps 2 (binit 2 4)
        [Op.bread 7 1 0, Op.bpin 0, Op.brelse 7 0, Op.bread 7 1 2, Op.brelse 7 2] = some s1 ∧
      (s1.buf 2).refcnt = 0 ∧ (s1.buf 0).refcnt = 1 ∧
      step 2 s1 (Op.bunpin 0) = some s2 ∧
      (s2.buf 0).refcnt = 0 ∧ (s2.buf 2).refcnt = 0 ∧
      s1.hashbucket 0 = [2, 0] ∧ s2.hashbucket 0 = [2, 0] ∧
      (∀ c ∈ s2.hashbucket 0, ¬ ((s2.buf c).dev = 1 ∧ (s2.buf c).blockno = 4)) ∧
      ((bget 2 s2 7 1 4).state.buf 0).blockno = 4 ∧
      ((bget 2 s2 7 1 4).state.buf 0).refcnt = 1 ∧
      (bget 2 s2 7 1 4).state.buf 2 = s2.buf 2 :=
  ⟨_, _, rfl, by decide, by decide, rfl, by decide, by decide, by decide, by decide,
    by decide, by decide, by decide, by decide⟩

/-- The loop over the other buckets, run over increasing indices, stops at
the least index other than the target whose bucket holds a free slot. -/
theorem scanOthers_least {s : Bcache} {h : Nat} {is : List Nat} {i b : Nat}
    (hsorted : is.Pairwise (fun x y => x < y))
    (hs : scanOthers s h is = some (i, b)) :
    ∀ j ∈ is, j < i → j ≠ h → scanFree s.buf (s.hashbucket j) = none := by
  induction is with
  | nil => simp [scanOthers] at hs
  | cons x rest ih =>
    have hx := (List.pairwise_cons.1 hsorted).1
    have hrest := (List.pairwise_cons.1 hsorted).2
    unfold scanOthers at hs
    intro j hj hji hjh
    by_cases hxh : x = h
    · simp only [hxh, if_true] at hs
      rcases List.mem_cons.1 hj with h1 | h1
      · exact absurd (h1.trans hxh) hjh
      · exact ih hrest hs j h1 hji hjh
    · simp only [hxh, if_false] at hs
      cases hf : scanFree s.buf (s.hashbucket x) with
      | some c =>
        rw [hf] at hs
        simp only [Option.some.injEq, Prod.mk.injEq] at hs
        obtain ⟨rfl, _⟩ := hs
        rcases List.mem_cons.1 hj with h1 | h1
        · omega
        · have := hx j h1
          omega
      | none =>
        rw [hf] at hs
        rcases List.mem_cons.1 hj with h1 | h1
        · rw [h1]; exact hf
        · exact ih hrest hs j h1 hji hjh

/-- C15: cross-bucket eviction.  From a reachable state in which the target
bucket `t = blockno % NBUCKETS` holds neither the block nor a free slot while
another bucket holds a free slot, `bget` takes slot `b`, the free slot
nearest the tail of the lowest-indexed bucket `i` other than `t` holding a
free slot; `b` leaves the list of bucket `i`, whose other slots keep their
order, and becomes the head of bucket `t`, in front of its previous members
in their old order; no other list changes; `b` is stamped with `dev`,
`blockno`, `valid = 0`, `refcnt = 1` and keeps its content; no other slot
changes. -/
theorem cross_bucket_eviction (nb nbuf : Nat) (hnb : 0 < nb) (s : Bcache)
    (hs : Reachable nb nbuf s) (p dev blockno : Nat)
    (hm : ∀ c ∈ s.hashbucket (blockno % nb),
      ¬ ((s.buf c).dev = dev ∧ (s.buf c).blockno = blockno))
    (hf : ∀ c ∈ s.hashbucket (blockno % nb), (s.buf c).refcnt ≠ 0)
    (ho : ∃ i, i < nb ∧ i ≠ blockno % nb ∧ ∃ c ∈ s.hashbucket i, (s.buf c).refcnt = 0) :
    ∃ i b l1 l2, i < nb ∧ i ≠ blockno % nb ∧
      (∀ j, j < i → j ≠ blockno % nb → ∀ c ∈ s.hashbucket j, (s.buf c).refcnt ≠ 0) ∧
      s.hashbucket i = l1 ++ b :: l2 ∧ (s.buf b).refcnt = 0 ∧
      (∀ c ∈ l2, (s.buf c).refcnt ≠ 0) ∧
      (bget nb s p dev blockno).state.hashbucket i = l1 ++ l2 ∧
      (bget nb s p dev blockno).state.hashbucket (blockno % nb) =
        b :: s.hashbucket (blockno % nb) ∧
      (∀ j, j ≠ i → j ≠ blockno % nb →
        (bget nb s p dev blockno).state.hashbucket j = s.hashbucket j) ∧
      ((bget nb s p dev blockno).state.buf b).dev = dev ∧
      ((bget nb s p dev blockno).state.buf b).blockno = blockno ∧
      ((bget nb s p dev blockno).state.buf b).valid = 0 ∧
      ((bget nb s p dev blockno).state.buf b).refcnt = 1 ∧
      ((bget nb s p dev blockno).state.buf b).data = (s.buf b).data ∧
      (∀ c, c ≠ b → (bget nb s p dev blockno).state.buf c = s.buf c) := by
  have hI := hs.inv hnb
  have h1 := scanHit_none.2 hm
  have h2 := scanFree_none.2 hf
  have h3 : ∃ ib, scanOthers s (blockno % nb) (List.range nb) = some ib := by
    cases h : scanOthers s (blockno % nb) (List.range nb) with
    | some ib => exact ⟨ib, rfl⟩
    | none =>
      obtain ⟨i, hi, hit, c, hc, hc0⟩ := ho
      have := scanOthers_none.1 h i (List.mem_range.2 hi) hit
      exact absurd hc0 (scanFree_none.1 this c hc)
  obtain ⟨⟨i, b⟩, h3⟩ := h3
  obtain ⟨hi, hit, hfi⟩ := scanOthers_some h3
  obtain ⟨l1, l2, hl, hl2⟩ := scanFree_last hfi
  obtain ⟨hb0, hbi⟩ := scanFree_some hfi
  have hg : bget nb s p dev blockno =
      acquiresleep (pushHead (stamp (unlink s b) b dev blockno) (blockno % nb) b) p b := by
    simp [bget, h1, h2, h3]
  have hnd := hI.nodup i
  have hbt : b ∉ s.hashbucket (blockno % nb) := fun h => hit (hI.disj _ _ _ hbi h)
  have hst : (bget nb s p dev blockno).state.hashbucket =
        (pushHead (stamp (unlink s b) b dev blockno) (blockno % nb) b).hashbucket ∧
      ((bget nb s p dev blockno).state.buf b).dev = dev ∧
      ((bget nb s p dev blockno).state.buf b).blockno = blockno ∧
      ((bget nb s p dev blockno).state.buf b).valid = 0 ∧
      ((bget nb s p dev blockno).state.buf b).refcnt = 1 ∧
      ((bget nb s p dev blockno).state.buf b).data = (s.buf b).data ∧
      (∀ c, c ≠ b → (bget nb s p dev blockno).state.buf c = s.buf c) := by
    rw [hg]
    rcases acquiresleep_cases (pushHead (stamp (unlink s b) b dev blockno) (blockno % nb) b)
      p b with ⟨_, h⟩ | ⟨_, h⟩
    · rw [h]
      exact ⟨rfl, by simp [Outcome.state], by simp [Outcome.state], by simp [Outcome.state],
        by simp [Outcome.state], by simp [Outcome.state],
        fun c hc => by simp [Outcome.state, hc]⟩
    · rw [h]
      exact ⟨rfl, by simp [Outcome.state], by simp [Outcome.state], by simp [Outcome.state],
        by simp [Outcome.state], by simp [Outcome.state],
        fun c hc => by simp [Outcome.state, hc]⟩
  obtain ⟨hlists, hd, hn, hv, hr, hdat, hoth⟩ := hst
  refine ⟨i, b, l1, l2, List.mem_range.1 hi, hit, ?_, hl, hb0, hl2, ?_, ?_, ?_,
    hd, hn, hv, hr, hdat, hoth⟩
  · intro j hji hjt
    exact scanFree_none.1
      (scanOthers_least (List.pairwise_lt_range nb) h3 j
        (List.mem_range.2 (lt_trans hji (List.mem_range.1 hi))) hji hjt)
  · rw [hlists, pushHead_hashbucket_other _ _ _ _ hit, stamp_hashbucket, unlink_hashbucket, hl]
    have hb1 : b ∉ l1 := by
      rw [hl] at hnd
      intro hmem
      have := (List.nodup_append.1 hnd).2.2
      exact this hmem (List.mem_cons_self _ _)
    rw [List.erase_append_right _ hb1, List.erase_cons_head]
  · rw [hlists, pushHead_hashbucket_same, stamp_hashbucket, unlink_hashbucket,
      List.erase_of_not_mem hbt]
  · intro j hji hjt
    rw [hlists, pushHead_hashbucket_other _ _ _ _ hjt, stamp_hashbucket, unlink_hashbucket]
    exact List.erase_of_not_mem (fun h => hji (hI.disj _ _ _ h hbi))

/-- Witness of C15 with 4 slots in 2 buckets: with blocks `(1, 0)` and
`(1, 2)` held in the two slots of bucket 0, the miss on `(1, 4)` takes the
tail slot 1 of bucket 1, which becomes the head of bucket 0. -/
theorem cross_bucket_eviction_witness :
    ∃ i b l1 l2, i < 2 ∧ i ≠ 4 % 2 ∧
      (bread 2 (bread 2 (binit 2 4) 7 1 0).state 7 1 2).state.hashbucket i = l1 ++ b :: l2 ∧
      (bget 2 (bread 2 (bread 2 (binit 2 4) 7 1 0).state 7 1 2).state 7 1 4).state.hashbucket
        (4 % 2) = b :: (bread 2 (bread 2 (binit 2 4) 7 1 0).state 7 1 2).state.hashbucket (4 % 2) :=
  have ⟨i, b, l1, l2, h1, h2, _, h4, _, _, _, h8, _⟩ :=
    cross_bucket_eviction 2 4 (by decide) _
      (Reachable.step (Op.bread 7 1 2)
        (Reachable.step (Op.bread 7 1 0) (Reachable.init (fun _ _ => 0)) rfl) rfl)
      7 1 4 (by decide) (by decide) ⟨1, by decide, by decide, 1, by decide, by decide⟩
  ⟨i, b, l1, l2, h1, h2, h4, h8⟩

/-- What a returning `bread` leaves of the state in which `bget` called
`acquiresleep`: the lock of the returned slot is taken, its content and
validity flag may change, and nothing else does. -/
theorem bread_ok_fields {nb : Nat} {s s2 : Bcache} {p dev blockno b : Nat}
    (h : bread nb s p dev blockno = .ok b s2) :
    ∃ s0, BgetCase nb s dev blockno b s0 ∧ (s0.buf b).lock = none ∧
      (s2.buf b).lock = some p ∧ (s2.buf b).refcnt = (s0.buf b).refcnt ∧
      (s2.buf b).dev = (s0.buf b).dev ∧ (s2.buf b).blockno = (s0.buf b).blockno ∧
      (∀ c, c ≠ b → s2.buf c = s0.buf c) ∧ s2.hashbucket = s0.hashbucket := by
  obtain ⟨s1, hg⟩ := bget_of_bread h
  obtain ⟨s0, hc, hl, hs1⟩ := bget_ok hg
  refine ⟨s0, hc, hl, ?_⟩
  rw [bread_of_bget hg] at h
  subst hs1
  by_cases hv : ((s0.setBuf b { s0.buf b with lock := some p }).buf b).valid = 0
  · rw [if_pos hv] at h
    simp only [Outcome.ok.injEq, true_and] at h
    subst h
    exact ⟨by simp [virtio_disk_rw], by simp [virtio_disk_rw], by simp [virtio_disk_rw],
      by simp [virtio_disk_rw], fun c hcb => by simp [virtio_disk_rw, hcb], rfl⟩
  · rw [if_neg hv] at h
    simp only [Outcome.ok.injEq, true_and] at h
    subst h
    exact ⟨by simp, by simp, by simp, by simp, fun c hcb => by simp [hcb], rfl⟩

/-- The function `bget` leaves the device, block number and validity flag of
a referenced slot alone, and the slot stays in the lists it was in. -/
theorem bget_keeps_referenced (nb : Nat) (s : Bcache) (p dev blockno c : Nat)
    (hc : (s.buf c).refcnt ≠ 0) :
    ((bget nb s p dev blockno).state.buf c).dev = (s.buf c).dev ∧
    ((bget nb s p dev blockno).state.buf c).blockno = (s.buf c).blockno ∧
    ((bget nb s p dev blockno).state.buf c).valid = (s.buf c).valid ∧
    ∀ i, c ∈ (bget nb s p dev blockno).state.hashbucket i ↔ c ∈ s.hashbucket i := by
  rcases bget_state_cases nb s p dev blockno with he | ⟨b, s1, hcase, hh⟩
  · rw [he]
    simp [Outcome.state]
  · have hfr := hcase.frame
    have hch := hcase.chosen
    have hst : ((bget nb s p dev blockno).state.buf c).dev = (s1.buf c).dev ∧
        ((bget nb s p dev blockno).state.buf c).blockno = (s1.buf c).blockno ∧
        ((bget nb s p dev blockno).state.buf c).valid = (s1.buf c).valid ∧
        (bget nb s p dev blockno).state.hashbucket = s1.hashbucket := by
      rcases hh with ⟨_, he⟩ | ⟨_, he⟩
      · rw [he]
        by_cases hcb : c = b
        · subst hcb; simp [Outcome.state]
        · simp [Outcome.state, hcb]
      · rw [he]; simp [Outcome.state]
    obtain ⟨e1, e2, e3, e4⟩ := hst
    by_cases hcb : c = b
    · subst hcb
      rcases hch with ⟨h1, h2, h3, h4⟩ | h0
      · exact ⟨e1.trans h1, e2.trans h2, e3.trans h3, fun i => by rw [e4, h4]⟩
      · exact absurd h0 hc
    · rw [hfr.1 c hcb] at e1 e2 e3
      exact ⟨e1, e2, e3, fun i => by rw [e4]; exact hcase.mem_iff c hcb i⟩

/-- Under the pin-matching discipline the count of a slot is the number of
its unmatched pins, plus one when its content lock is held. -/
theorem ReachableP.count {nb nbuf : Nat} {s : Bcache} {pins : Nat → Nat}
    (hs : ReachableP nb nbuf s pins) :
    ∀ b, (s.buf b).refcnt = (pins b : Int) + (if (s.buf b).lock = none then 0 else 1) := by
  induction hs with
  | init disk =>
    intro b
    rw [(binitOn_spec disk nb nbuf).1]
    simp [Buf.zero]
  | @bread s s1 pins p dev blockno b _ h ih =>
    obtain ⟨s0, hc, hl0, hl, hr, _, _, ho, _⟩ := bread_ok_fields h
    have hfr := hc.frame
    intro c
    by_cases hcb : c = b
    · subst hcb
      rw [hl, hr]
      have hlock : (s.buf c).lock = none := by rw [← hfr.2.1]; exact hl0
      have := ih c
      rw [hlock] at this
      cases hc with
      | hit _ hh => simp only [setBuf_buf_same]; simp at this ⊢; omega
      | recycle _ h1 h2 =>
        have h0 := (scanFree_some h2).1
        simp only [stamp_buf_same]; simp at this ⊢; omega
      | steal i _ h1 h2 h3 =>
        have h0 := (scanFree_some (scanOthers_some h3).2.2).1
        simp only [pushHead_buf, stamp_buf_same]; simp at this ⊢; omega
    · rw [ho c hcb, hfr.1 c hcb]
      exact ih c
  | @bwrite s s1 pins p b _ h ih =>
    intro c
    simp only [BufCache.bwrite] at h
    split at h
    · simp at h
    · simp only [Outcome.ok.injEq, true_and] at h
      subst h
      simpa [virtio_disk_rw] using ih c
  | @brelse s s1 pins p b _ h ih =>
    intro c
    by_cases hl : (s.buf b).lock = some p
    · rw [brelse_held hl] at h
      have hb := ih b
      rw [hl] at hb
      have key : (s1.buf c).refcnt = (if c = b then (s.buf b).refcnt - 1 else (s.buf c).refcnt) ∧
          (s1.buf c).lock = (if c = b then none else (s.buf c).lock) := by
        split at h
        · simp only [Outcome.ok.injEq, true_and] at h
          subst h
          by_cases hcb : c = b
          · subst hcb; simp
          · simp [hcb]
        · simp only [Outcome.ok.injEq, true_and] at h
          subst h
          by_cases hcb : c = b
          · subst hcb; simp
          · simp [hcb]
      rw [key.1, key.2]
      by_cases hcb : c = b
      · subst hcb
        simp at hb ⊢
        omega
      · simp only [hcb, if_false]
        exact ih c
    · rw [brelse_not_held hl] at h; simp at h
  | @bpin s pins b _ ih =>
    intro c
    by_cases hcb : c = b
    · subst hcb
      have := ih c
      simp only [BufCache.bpin, setBuf_buf_same, upd_same]
      push_cast
      omega
    · simp only [BufCache.bpin, setBuf_buf_other _ _ _ _ hcb, upd_other _ _ _ _ hcb]
      exact ih c
  | @bunpin s pins b _ hp ih =>
    intro c
    by_cases hcb : c = b
    · subst hcb
      have := ih c
      simp only [BufCache.bunpin, setBuf_buf_same, upd_same]
      have : ((pins c - 1 : Nat) : Int) = (pins c : Int) - 1 := by omega
      rw [this]
      omega
    · simp only [BufCache.bunpin, setBuf_buf_other _ _ _ _ hcb, upd_other _ _ _ _ hcb]
      exact ih c
  | @modify s pins p b v _ _ ih =>
    intro c
    by_cases hcb : c = b
    · subst hcb
      simpa [BufCache.setData] using ih c
    · simp only [BufCache.setData, setBuf_buf_other _ _ _ _ hcb]
      exact ih c

/-- C18: held implies referenced.  In every state reached from `binit` by
atomically executed calls in which `brelse` and `bwrite` are made by the lock
holder and every `bunpin` matches an earlier `bpin`, a slot whose content
lock is held has `refcnt >= 1`; so `brelse` by the holder returns with a
count that is not negative, and `bget` neither restamps a held slot nor
moves it to another list. -/
theorem held_referenced (nb nbuf : Nat) (s : Bcache) (pins : Nat → Nat)
    (hs : ReachableP nb nbuf s pins) :
    (∀ b, (s.buf b).lock ≠ none → 1 ≤ (s.buf b).refcnt) ∧
    (∀ p b, (s.buf b).lock = some p →
      ∃ s1, brelse nb s p b = .ok () s1 ∧ (s1.buf b).refcnt = (s.buf b).refcnt - 1 ∧
        0 ≤ (s1.buf b).refcnt) ∧
    (∀ b, (s.buf b).lock ≠ none → ∀ p dev blockno,
      ((bget nb s p dev blockno).state.buf b).dev = (s.buf b).dev ∧
      ((bget nb s p dev blockno).state.buf b).blockno = (s.buf b).blockno ∧
      ((bget nb s p dev blockno).state.buf b).valid = (s.buf b).valid ∧
      ∀ i, b ∈ (bget nb s p dev blockno).state.hashbucket i ↔ b ∈ s.hashbucket i) := by
  have hcount := hs.count
  have held : ∀ b, (s.buf b).lock ≠ none → 1 ≤ (s.buf b).refcnt := by
    intro b hb
    have := hcount b
    simp only [hb, if_false] at this
    omega
  refine ⟨held, fun p b hl => ?_, fun b hb p dev blockno => ?_⟩
  · have h1 := held b (by rw [hl]; simp)
    rw [brelse_held hl]
    by_cases h0 : (s.buf b).refcnt - 1 = 0
    · rw [if_pos h0]
      exact ⟨_, rfl, by simp, by simp; omega⟩
    · rw [if_neg h0]
      exact ⟨_, rfl, by simp, by simp; omega⟩
  · have h1 := held b hb
    exact bget_keeps_referenced nb s p dev blockno b (by omega)

/-- Witness of C18: slot 26, held after `bread(0, 0)` on the fresh cache. -/
theorem held_referenced_witness :
    1 ≤ ((bread NBUCKETS (binit NBUCKETS 30) 1 0 0).state.buf 26).refcnt :=
  (held_referenced NBUCKETS 30 _ _
    (ReachableP.bread 1 0 0 26 (ReachableP.init (fun _ _ => 0)) rfl)).1 26 (by decide)

/-- Effect of a completed call other than `bread` on the slots and the disk:
no slot changes device, block number or validity flag; only `modify` changes
a content, that of its slot; only `bwrite` changes the disk, at the block of
its slot. -/
theorem step_fields {nb : Nat} {s s2 : Bcache} {op : Op} (h : step nb s op = some s2)
    (hop : ∀ p dev blockno, op ≠ Op.bread p dev blockno) :
    (∀ x, (s2.buf x).dev = (s.buf x).dev ∧ (s2.buf x).blockno = (s.buf x).blockno ∧
      (s2.buf x).valid = (s.buf x).valid) ∧
    (∀ x, (∀ p c, op ≠ Op.modify p x c) → (s2.buf x).data = (s.buf x).data) ∧
    (∀ p x c, op = Op.modify p x c → (s2.buf x).data = c) ∧
    (∀ d n, (∀ p b, op = Op.bwrite p b → ¬ ((s.buf b).dev = d ∧ (s.buf b).blockno = n)) →
      s2.disk d n = s.disk d n) ∧
    (∀ p b, op = Op.bwrite p b → s2.disk (s.buf b).dev (s.buf b).blockno = (s.buf b).data) := by
  cases op with
  | bread p dev blockno => exact absurd rfl (hop p dev blockno)
  | bwrite p b =>
    simp only [step, bwrite] at h
    by_cases hl : holdingsleep s p b = true
    · simp only [hl, Bool.not_true, Bool.false_eq_true, if_false, Option.some.injEq] at h
      subst h
      refine ⟨fun x => by simp [virtio_disk_rw], fun x _ => by simp [virtio_disk_rw],
        fun p x c he => by simp at he, fun d n hdn => ?_, fun p1 b1 he => ?_⟩
      · have := hdn p b rfl
        simp only [virtio_disk_rw, if_true]
        rw [if_neg]
        rintro ⟨rfl, rfl⟩
        exact this ⟨rfl, rfl⟩
      · simp only [Op.bwrite.injEq] at he
        obtain ⟨_, rfl⟩ := he
        simp [virtio_disk_rw]
    · simp [hl] at h
  | brelse p b =>
    simp only [step] at h
    by_cases hr : 0 < (s.buf b).refcnt
    · rw [if_pos hr] at h
      by_cases hl : (s.buf b).lock = some p
      · rw [brelse_held hl] at h
        have key : ∀ x, (s2.buf x).dev = (s.buf x).dev ∧ (s2.buf x).blockno = (s.buf x).blockno ∧
            (s2.buf x).valid = (s.buf x).valid ∧ (s2.buf x).data = (s.buf x).data ∧
            s2.disk = s.disk := by
          intro x
          by_cases h0 : (s.buf b).refcnt - 1 = 0
          · rw [if_pos h0] at h
            simp only [Option.some.injEq] at h
            subst h
            by_cases hx : x = b
            · subst hx; simp
            · simp [hx]
          · rw [if_neg h0] at h
            simp only [Option.some.injEq] at h
            subst h
            by_cases hx : x = b
            · subst hx; simp
            · simp [hx]
        refine ⟨fun x => ⟨(key x).1, (key x).2.1, (key x).2.2.1⟩, fun x _ => (key x).2.2.2.1,
          fun p x c he => by simp at he, fun d n _ => by rw [(key 0).2.2.2.2],
          fun p1 b1 he => by simp at he⟩
      · rw [brelse_not_held hl] at h; simp at h
    · rw [if_neg hr] at h; simp at h
  | bpin b =>
    simp only [step] at h
    by_cases hr : 0 < (s.buf b).refcnt
    · rw [if_pos hr] at h
      simp only [Option.some.injEq] at h
      subst h
      have key : ∀ x, ((bpin s b).buf x).dev = (s.buf x).dev ∧
          ((bpin s b).buf x).blockno = (s.buf x).blockno ∧
          ((bpin s b).buf x).valid = (s.buf x).valid ∧
          ((bpin s b).buf x).data = (s.buf x).data := by
        intro x
        by_cases hx : x = b
        · subst hx; simp [bpin]
        · simp [bpin, hx]
      exact ⟨fun x => ⟨(key x).1, (key x).2.1, (key x).2.2.1⟩, fun x _ => (key x).2.2.2,
        fun p x c he => by simp at he, fun d n _ => rfl, fun p1 b1 he => by simp at he⟩
    · rw [if_neg hr] at h; simp at h
  | bunpin b =>
    simp only [step] at h
    by_cases hr : 0 < (s.buf b).refcnt
    · rw [if_pos hr] at h
      simp only [Option.some.injEq] at h
      subst h
      have key : ∀ x, ((bunpin s b).buf x).dev = (s.buf x).dev ∧
          ((bunpin s b).buf x).blockno = (s.buf x).blockno ∧
          ((bunpin s b).buf x).valid = (s.buf x).valid ∧
          ((bunpin s b).buf x).data = (s.buf x).data := by
        intro x
        by_cases hx : x = b
        · subst hx; simp [bunpin]
        · simp [bunpin, hx]
      exact ⟨fun x => ⟨(key x).1, (key x).2.1, (key x).2.2.1⟩, fun x _ => (key x).2.2.2,
        fun p x c he => by simp at he, fun d n _ => rfl, fun p1 b1 he => by simp at he⟩
    · rw [if_neg hr] at h; simp at h
  | modify p b v =>
    simp only [step] at h
    by_cases hl : holdingsleep s p b = true
    · rw [if_pos hl] at h
      simp only [Option.some.injEq] at h
      subst h
      refine ⟨fun x => ?_, fun x hx => ?_, fun p1 x c he => ?_, fun d n _ => rfl,
        fun p1 b1 he => by simp at he⟩
      · by_cases hx : x = b
        · subst hx; simp [setData]
        · simp [setData, hx]
      · have hxb : x ≠ b := fun hxb => hx p v (by rw [hxb])
        simp [setData, hxb]
      · simp only [Op.modify.injEq] at he
        obtain ⟨_, rfl, rfl⟩ := he
        simp [setData]
    · rw [if_neg hl] at h; simp at h

/-- Content of the slot returned by `bread`: what the disk holds for the
block, or, on a hit on a valid slot, what the slot held.  The disk and the
other slots are as they were. -/
theorem bread_data {nb : Nat} {s s2 : Bcache} {p dev blockno b : Nat}
    (h : bread nb s p dev blockno = .ok b s2) :
    ((s2.buf b).data = s.disk dev blockno ∨
      ((s.buf b).dev = dev ∧ (s.buf b).blockno = blockno ∧ (s.buf b).valid ≠ 0 ∧
        (s2.buf b).data = (s.buf b).data)) ∧
    (s2.buf b).dev = dev ∧ (s2.buf b).blockno = blockno ∧
    s2.disk = s.disk ∧ ∀ x, x ≠ b → s2.buf x = s.buf x := by
  obtain ⟨s1, hg⟩ := bget_of_bread h
  obtain ⟨s0, hc, _, hs1⟩ := bget_ok hg
  have hfr := hc.frame
  have hk := hc.key
  rw [bread_of_bget hg] at h
  subst hs1
  by_cases hv : ((s0.setBuf b { s0.buf b with lock := some p }).buf b).valid = 0
  · rw [if_pos hv] at h
    simp only [Outcome.ok.injEq, true_and] at h
    subst h
    refine ⟨Or.inl ?_, by simp [virtio_disk_rw, hk.1], by simp [virtio_disk_rw, hk.2],
      by simp [virtio_disk_rw, hfr.2.2.2.2],
      fun x hx => by simp [virtio_disk_rw, hx, hfr.1 x hx]⟩
    simp [virtio_disk_rw, hk.1, hk.2, hfr.2.2.2.2]
  · rw [if_neg hv] at h
    simp only [Outcome.ok.injEq, true_and] at h
    subst h
    refine ⟨Or.inr ?_, by simp [hk.1], by simp [hk.2], hfr.2.2.2.2,
      fun x hx => by simp [hx, hfr.1 x hx]⟩
    simp only [setBuf_buf_same] at hv ⊢
    cases hc with
    | hit _ hh =>
      have := (scanHit_some hh).1
      simp only [setBuf_buf_same] at hv
      exact ⟨this.1, this.2, hv, by simp⟩
    | recycle _ h1 h2 => simp at hv
    | steal i _ h1 h2 h3 => simp at hv

/-- A completed call keeps every valid slot caching the block it carries. -/
theorem ValidCached.after_call {nb nbuf : Nat} {s s2 : Bcache} (hI : Inv nb nbuf s)
    (hV : ValidCached nb s) {op : Op} (h : step nb s op = some s2) : ValidCached nb s2 := by
  intro x hx
  by_cases hop : ∃ p dev blockno, op = Op.bread p dev blockno
  · obtain ⟨p, dev, blockno, rfl⟩ := hop
    obtain ⟨b, s0, _, hb, _⟩ := step_bread h
    by_cases hxb : x = b
    · subst hxb
      have hC := (bread_cached hI hb).2
      rw [hC.1, hC.2.1]
      exact hC
    · have hsame := (bread_data hb).2.2.2.2 x hxb
      rw [hsame] at hx ⊢
      exact (hV x hx).after_step hI h (by rw [hsame]) (by rw [hsame])
  · have hop1 : ∀ p dev blockno, op ≠ Op.bread p dev blockno :=
      fun p dev blockno he => hop ⟨p, dev, blockno, he⟩
    obtain ⟨hk, _⟩ := step_fields h hop1
    rw [(hk x).2.2] at hx
    rw [(hk x).1, (hk x).2.1]
    exact (hV x hx).after_step hI h (hk x).1 (hk x).2.1

/-- In a reachable state every valid slot caches the block it carries. -/
theorem Reachable.validCached {nb nbuf : Nat} (hnb : 0 < nb) {s : Bcache}
    (hs : Reachable nb nbuf s) : ValidCached nb s := by
  induction hs with
  | init disk =>
    intro x hx
    rw [(binitOn_spec disk nb nbuf).1] at hx
    exact absurd rfl hx
  | step op hprev h ih => exact ih.after_call (hprev.inv hnb) h

/-- A completed call that neither changes the cached content of the block
nor writes the disk block keeps disk and valid copies at the content `c`. -/
theorem Coherent.after_quiet {nb : Nat} {s s2 : Bcache} {dev blockno c : Nat}
    (hJ : Coherent s dev blockno c) {op : Op} (h : step nb s op = some s2)
    (hm : ∀ p b v, op = Op.modify p b v →
      ¬ ((s.buf b).dev = dev ∧ (s.buf b).blockno = blockno))
    (hw : ∀ p b, op = Op.bwrite p b →
      ¬ ((s.buf b).dev = dev ∧ (s.buf b).blockno = blockno)) :
    Coherent s2 dev blockno c := by
  by_cases hop : ∃ p dev1 blockno1, op = Op.bread p dev1 blockno1
  · obtain ⟨p, dev1, blockno1, rfl⟩ := hop
    obtain ⟨b, s0, _, hb, _⟩ := step_bread h
    obtain ⟨hdat, hd, hn, hdisk, hsame⟩ := bread_data hb
    refine ⟨by rw [hdisk]; exact hJ.1, fun x hxd hxn hxv => ?_⟩
    by_cases hxb : x = b
    · subst hxb
      rw [hd] at hxd
      rw [hn] at hxn
      subst hxd hxn
      rcases hdat with h1 | ⟨h1, h2, h3, h4⟩
      · rw [h1]; exact hJ.1
      · rw [h4]; exact hJ.2 x h1 h2 h3
    · rw [hsame x hxb] at hxd hxn hxv ⊢
      exact hJ.2 x hxd hxn hxv
  · have hop1 : ∀ p dev1 blockno1, op ≠ Op.bread p dev1 blockno1 :=
      fun p dev1 blockno1 he => hop ⟨p, dev1, blockno1, he⟩
    obtain ⟨hk, hdat, _, hdisk, _⟩ := step_fields h hop1
    refine ⟨by rw [hdisk dev blockno hw]; exact hJ.1, fun x hxd hxn hxv => ?_⟩
    rw [(hk x).1] at hxd
    rw [(hk x).2.1] at hxn
    rw [(hk x).2.2] at hxv
    rw [hdat x (fun p v he => hm p x v he ⟨hxd, hxn⟩)]
    exact hJ.2 x hxd hxn hxv

/-- Disk and valid copies stay at the content `c` along a quiet run. -/
theorem Quiet.coherent {nb dev blockno c : Nat} {s s2 : Bcache}
    (hq : Quiet nb dev blockno s s2) (hJ : Coherent s dev blockno c) :
    Coherent s2 dev blockno c := by
  induction hq with
  | refl => exact hJ
  | step op _ h hm hw ih => exact ih.after_quiet h hm hw

/-- C19: write-through coherence.  From a reachable state, let the holder of
slot `b` set its content to `c`, call `bwrite` on it and release it; after
any run of completed calls in which no holder changes the cached content of
the block of `b` and none writes that disk block, a `bread` of the block that
returns gives a slot carrying the block with content `c`, be it a hit on
a valid slot or a slot filled from the disk. -/
theorem write_through (nb nbuf : Nat) (hnb : 0 < nb) (s : Bcache)
    (hs : Reachable nb nbuf s) (p b c : Nat) (s1 s2 s3 s4 : Bcache)
    (h1 : step nb s (Op.modify p b c) = some s1)
    (h2 : step nb s1 (Op.bwrite p b) = some s2)
    (h3 : step nb s2 (Op.brelse p b) = some s3)
    (hq : Quiet nb (s.buf b).dev (s.buf b).blockno s3 s4)
    (q b1 : Nat) (s5 : Bcache)
    (h5 : bread nb s4 q (s.buf b).dev (s.buf b).blockno = .ok b1 s5) :
    (s5.buf b1).data = c ∧ (s5.buf b1).dev = (s.buf b).dev ∧
      (s5.buf b1).blockno = (s.buf b).blockno ∧
      (s5.log = s4.log ∨
        s5.log = s4.log ++ [DiskEvent.read (s.buf b).dev (s.buf b).blockno]) := by
  have hI := hs.inv hnb
  have hV := hs.validCached hnb
  have f1 := step_fields h1 (fun _ _ _ he => by simp at he)
  have f2 := step_fields h2 (fun _ _ _ he => by simp at he)
  have f3 := step_fields h3 (fun _ _ _ he => by simp at he)
  -- the slot is referenced when it is released
  have hr : (s.buf b).refcnt ≠ 0 := by
    have hr2 : 0 < (s2.buf b).refcnt := by
      simp only [step] at h3
      by_cases hr : 0 < (s2.buf b).refcnt
      · exact hr
      · rw [if_neg hr] at h3; simp at h3
    have e1 : (s1.buf b).refcnt = (s.buf b).refcnt := by
      simp only [step] at h1
      split at h1
      · simp only [Option.some.injEq] at h1
        subst h1; simp [setData]
      · simp at h1
    have e2 : (s2.buf b).refcnt = (s1.buf b).refcnt := by
      simp only [step, bwrite] at h2
      by_cases hl : holdingsleep s1 p b = true
      · simp only [hl, Bool.not_true, Bool.false_eq_true, if_false, Option.some.injEq] at h2
        subst h2; simp [virtio_disk_rw]
      · simp [hl] at h2
    rw [e2, e1] at hr2
    exact ne_of_gt hr2
  -- after the three calls disk and valid copies hold `c`
  have hJ : Coherent s3 (s.buf b).dev (s.buf b).blockno c := by
    constructor
    · rw [f3.2.2.2.1 _ _ (fun _ _ he => by simp at he)]
      have := f2.2.2.2.2 p b rfl
      rw [(f1.1 b).1, (f1.1 b).2.1, f1.2.2.1 p b c rfl] at this
      exact this
    · intro x hxd hxn hxv
      rw [(f3.1 x).1, (f2.1 x).1, (f1.1 x).1] at hxd
      rw [(f3.1 x).2.1, (f2.1 x).2.1, (f1.1 x).2.1] at hxn
      rw [(f3.1 x).2.2, (f2.1 x).2.2, (f1.1 x).2.2] at hxv
      have hxb : x = b := by
        have hx1 := (hV x hxv).2.2.2
        have hb1 := hI.first _ b (hI.loc b hr) hr
        rw [hxd, hxn, hb1] at hx1
        exact (Option.some.inj hx1).symm
      subst hxb
      rw [f3.2.1 x (fun _ _ he => by simp at he), f2.2.1 x (fun _ _ he => by simp at he)]
      exact f1.2.2.1 p x c rfl
  have hJ4 := hq.coherent hJ
  obtain ⟨hdat, hd, hn, _, _⟩ := bread_data h5
  have hlog : s5.log = s4.log ∨
      s5.log = s4.log ++ [DiskEvent.read (s.buf b).dev (s.buf b).blockno] := by
    obtain ⟨sg, hg⟩ := bget_of_bread h5
    obtain ⟨s0, hc, _, hsg⟩ := bget_ok hg
    have hk := hc.key
    have hl0 := hc.frame.2.2.2.1
    rw [bread_of_bget hg] at h5
    subst hsg
    split at h5
    · simp only [Outcome.ok.injEq, true_and] at h5
      subst h5
      right
      simp [virtio_disk_rw, hk.1, hk.2, hl0]
    · simp only [Outcome.ok.injEq, true_and] at h5
      subst h5
      left
      simp [hl0]
  refine ⟨?_, hd, hn, hlog⟩
  rcases hdat with h | ⟨e1, e2, e3, e4⟩
  · rw [h]; exact hJ4.1
  · rw [e4]; exact hJ4.2 b1 e1 e2 e3

/-- Witness of C19 with 4 slots in 2 buckets: the holder of slot 0, which
carries block `(1, 0)`, sets its content to 42, writes it and releases it;
blocks `(1, 2)` and `(1, 4)` are then read and released, which evicts block
`(1, 0)`; the next `bread` of `(1, 0)` reloads it into slot 2 with content
42. -/
theorem write_through_witness :
    ((bread 2 (readRelease 2 (readRelease 2
        (brelse 2 (bwrite (setData (bread 2 (binit 2 4) 7 1 0).state 0 42) 7 0).state 7 0).state
        7 1 2).state 7 1 4).state 8 1 0).state.buf 2).data = 42 :=
  (write_through 2 4 (by decide) (bread 2 (binit 2 4) 7 1 0).state
    (Reachable.step (Op.bread 7 1 0) (Reachable.init (fun _ _ => 0)) rfl) 7 0 42
    (setData (bread 2 (binit 2 4) 7 1 0).state 0 42)
    (bwrite (setData (bread 2 (binit 2 4) 7 1 0).state 0 42) 7 0).state
    (brelse 2 (bwrite (setData (bread 2 (binit 2 4) 7 1 0).state 0 42) 7 0).state 7 0).state
    (readRelease 2 (readRelease 2
        (brelse 2 (bwrite (setData (bread 2 (binit 2 4) 7 1 0).state 0 42) 7 0).state 7 0).state
        7 1 2).state 7 1 4).state
    rfl rfl rfl
    (@Quiet.step 2 1 0 _ _ _ (Op.brelse 7 0)
      (@Quiet.step 2 1 0 _ _ _ (Op.bread 7 1 4)
        (@Quiet.step 2 1 0 _ _ _ (Op.brelse 7 2)
          (@Quiet.step 2 1 0 _ _ _ (Op.bread 7 1 2) (Quiet.refl _) rfl
            (fun _ _ _ he => Op.noConfusion he) (fun _ _ he => Op.noConfusion he))
          rfl (fun _ _ _ he => Op.noConfusion he) (fun _ _ he => Op.noConfusion he))
        rfl (fun _ _ _ he => Op.noConfusion he) (fun _ _ he => Op.noConfusion he))
      rfl (fun _ _ _ he => Op.noConfusion he) (fun _ _ he => Op.noConfusion he))
    8 2 _ rfl).1

/-! ## Traces of lock events and field accesses -/

/-- Events that touch no lock leave the held locks as they are. -/
theorem heldAfter_quiet {held : List Nat} {e : Ev} (h : e.quiet = true) :
    heldAfter held e = held := by
  cases e <;> simp [Ev.quiet] at h <;> rfl

/-- An event that touches no lock does not matter to the locking discipline,
at most one bucket lock being held. -/
theorem singleLock_skip {held : List Nat} (hh : held.length ≤ 1) {e : Ev}
    (he : e.quiet = true) (es : List Ev) :
    singleLock held (e :: es) = singleLock held es := by
  cases e <;> simp [Ev.quiet] at he <;> simp [singleLock, heldAfter, hh]

/-- A stretch of events that touch no lock does not matter to the locking
discipline, at most one bucket lock being held. -/
theorem singleLock_quiet {held : List Nat} (hh : held.length ≤ 1) {es : List Ev}
    (hq : ∀ e ∈ es, e.quiet = true) (rest : List Ev) :
    singleLock held (es ++ rest) = singleLock held rest := by
  induction es with
  | nil => rfl
  | cons e t ih =>
    rw [List.cons_append, singleLock_skip hh (hq e (List.mem_cons_self _ _)),
      ih (fun x hx => hq x (List.mem_cons_of_mem _ hx))]

/-- Taking a bucket lock with none held. -/
theorem singleLock_enter (i : Nat) (es : List Ev) :
    singleLock [] (Ev.acquire i :: es) = singleLock [i] es := by
  simp [singleLock, heldAfter]

/-- Giving back the bucket lock held. -/
theorem singleLock_leave (i : Nat) (es : List Ev) :
    singleLock [i] (Ev.release i :: es) = singleLock [] es := by
  simp [singleLock, heldAfter]

/-- The first loop of `bget` touches no lock. -/
theorem hitLoop_quiet (buf : Nat → Buf) (dev blockno o : Nat) (l : List Nat) :
    ∀ e ∈ hitLoop buf dev blockno o l, e.quiet = true := by
  induction l with
  | nil => simp [hitLoop]
  | cons x t ih =>
    intro e he
    unfold hitLoop at he
    split at he
    · split at he
      · simp at he
        rcases he with rfl | rfl | rfl | rfl <;> rfl
      · simp only [List.mem_cons] at he
        rcases he with rfl | rfl | rfl | he
        · rfl
        · rfl
        · rfl
        · exact ih e he
    · simp only [List.mem_cons] at he
      rcases he with rfl | rfl | he
      · rfl
      · rfl
      · exact ih e he

/-- A free-slot loop of `bget` touches no lock. -/
theorem freeLoop_quiet (buf : Nat → Buf) (o : Nat) (l : List Nat) :
    ∀ e ∈ freeLoop buf o l, e.quiet = true := by
  induction l with
  | nil => simp [freeLoop]
  | cons x t ih =>
    intro e he
    unfold freeLoop at he
    split at he
    · simp at he
      subst he; rfl
    · simp only [List.mem_cons] at he
      rcases he with rfl | rfl | he
      · rfl
      · rfl
      · exact ih e he

/-- Stamping a slot touches no lock. -/
theorem stampEvents_quiet (b : Nat) (o : Option Nat) : ∀ e ∈ stampEvents b o, e.quiet = true := by
  intro e he
  simp [stampEvents] at he
  rcases he with rfl | rfl | rfl | rfl <;> rfl

/-- Writing a link touches no lock. -/
theorem nodeWrite_quiet (f : Field) (n o : Option Nat) :
    ∀ e ∈ nodeWrite f n o, e.quiet = true := by
  intro e he
  unfold nodeWrite at he
  split at he
  · simp at he; subst he; rfl
  · simp at he; subst he; rfl
  · simp at he

/-- Unlinking a slot touches no lock. -/
theorem unlinkEvents_quiet (l : List Nat) (o : Option Nat) (b : Nat) :
    ∀ e ∈ unlinkEvents l o b, e.quiet = true := by
  intro e he
  simp only [unlinkEvents, List.mem_append, List.mem_cons, List.mem_singleton,
    List.not_mem_nil, or_false] at he
  rcases he with ((((rfl | rfl) | he) | (rfl | rfl)) | he)
  · rfl
  · rfl
  · exact nodeWrite_quiet _ _ _ e he
  · rfl
  · rfl
  · exact nodeWrite_quiet _ _ _ e he

/-- Inserting a slot after a sentinel touches no lock. -/
theorem insertEvents_quiet (l : List Nat) (h b : Nat) :
    ∀ e ∈ insertEvents l h b, e.quiet = true := by
  intro e he
  simp only [insertEvents, List.mem_append, List.mem_cons, List.mem_singleton,
    List.not_mem_nil, or_false] at he
  rcases he with (((rfl | rfl | rfl | rfl) | he) | rfl)
  · rfl
  · rfl
  · rfl
  · rfl
  · exact nodeWrite_quiet _ _ _ e he
  · rfl

/-- The tail of a path of `bget`: the bucket lock is given back, then the
content lock is asked for. -/
theorem singleLock_exit (h b : Nat) :
    singleLock [h] [Ev.release h, Ev.acquiresleep b] = true := by
  simp [singleLock, heldAfter]

/-- The loop of `bget` over the other buckets, entered with no lock held,
keeps the locking discipline. -/
theorem othersTrace_singleLock (s : Bcache) (h : Nat) (is : List Nat) :
    singleLock [] (othersTrace s h is) = true := by
  induction is with
  | nil => simp [othersTrace, singleLock, heldAfter]
  | cons i rest ih =>
    unfold othersTrace
    by_cases hi : i = h
    · rw [if_pos hi]; exact ih
    · rw [if_neg hi, List.cons_append, singleLock_enter, List.cons_append,
        singleLock_skip (by simp) (show (Ev.headRead _).quiet = true from rfl),
        singleLock_quiet (by simp) (freeLoop_quiet _ _ _)]
      cases scanFree s.buf (s.hashbucket i) with
      | none =>
        simp only []
        rw [singleLock_leave]
        exact ih
      | some b =>
        simp only [List.append_assoc, List.cons_append]
        rw [singleLock_quiet (by simp) (unlinkEvents_quiet _ _ _), singleLock_leave,
          singleLock_quiet (by simp) (stampEvents_quiet _ _), singleLock_enter,
          singleLock_quiet (by simp) (insertEvents_quiet _ _ _)]
        exact singleLock_exit h b

/-- One execution of `bget` keeps the locking discipline. -/
theorem bgetTrace_singleLock (nb : Nat) (s : Bcache) (dev blockno : Nat) :
    singleLock [] (bgetTrace nb s dev blockno) = true := by
  unfold bgetTrace
  simp only []
  rw [List.cons_append, singleLock_enter, List.cons_append, singleLock_skip (by simp) (show (Ev.headRead _).quiet = true from rfl),
    singleLock_quiet (by simp) (hitLoop_quiet _ _ _ _ _)]
  cases scanHit s.buf dev blockno (s.hashbucket (blockno % nb)) with
  | some b => exact singleLock_exit _ b
  | none =>
    simp only []
    rw [List.cons_append, singleLock_skip (by simp) (show (Ev.headRead _).quiet = true from rfl),
      singleLock_quiet (by simp) (freeLoop_quiet _ _ _)]
    cases scanFree s.buf (s.hashbucket (blockno % nb)) with
    | some b =>
      simp only []
      rw [singleLock_quiet (by simp) (stampEvents_quiet _ _)]
      exact singleLock_exit _ b
    | none =>
      simp only []
      rw [singleLock_leave]
      exact othersTrace_singleLock s _ _

/-- One step of the check of the locking discipline. -/
theorem singleLock_cons (held : List Nat) (e : Ev) (es : List Ev) :
    singleLock held (e :: es) =
      (decide ((heldAfter held e).length ≤ 1) &&
        (match e with
          | .acquiresleep _ => held.isEmpty
          | _ => true) &&
        singleLock (heldAfter held e) es) := by
  cases e <;> rfl

/-- A trace of events that touch no lock keeps the discipline exactly when
no bucket lock is held. -/
theorem singleLock_tail {held : List Nat} {tail : List Ev}
    (hq : ∀ e ∈ tail, e.quiet = true) : singleLock held tail = held.isEmpty := by
  induction tail with
  | nil => rfl
  | cons e t ih =>
    have he := hq e (List.mem_cons_self _ _)
    have := ih (fun x hx => hq x (List.mem_cons_of_mem _ hx))
    cases held with
    | nil => rw [singleLock_skip (by simp) he, this]
    | cons a r =>
      rw [singleLock_cons, heldAfter_quiet he, this]
      simp

/-- Events that touch no lock, added at the end of a trace, do not matter to
the locking discipline. -/
theorem singleLock_append_tail (held : List Nat) (es : List Ev) {tail : List Ev}
    (hq : ∀ e ∈ tail, e.quiet = true) :
    singleLock held (es ++ tail) = singleLock held es := by
  induction es generalizing held with
  | nil => rw [List.nil_append, singleLock_tail hq]; rfl
  | cons e t ih => rw [List.cons_append, singleLock_cons, singleLock_cons, ih]

/-- A trace put in front keeps the last event. -/
theorem ends_append {A B : List Ev} {x : Ev} (h : ∃ pre, B = pre ++ [x]) :
    ∃ pre, A ++ B = pre ++ [x] := by
  obtain ⟨pre, rfl⟩ := h
  exact ⟨A ++ pre, (List.append_assoc _ _ _).symm⟩

/-- An event put in front keeps the last event. -/
theorem ends_cons {a : Ev} {B : List Ev} {x : Ev} (h : ∃ pre, B = pre ++ [x]) :
    ∃ pre, a :: B = pre ++ [x] := by
  obtain ⟨pre, rfl⟩ := h
  exact ⟨a :: pre, rfl⟩

/-- The end of the trace of `bget` agrees with what `bget` does: the trace
ends with the call of `acquiresleep` on the slot `bget` chose, or with the
panic when `bget` panics. -/
theorem bgetTrace_last (nb : Nat) (s : Bcache) (p dev blockno : Nat) :
    (∃ b s1, BgetCase nb s dev blockno b s1 ∧
      ∃ pre, bgetTrace nb s dev blockno = pre ++ [Ev.acquiresleep b]) ∨
    (bget nb s p dev blockno = .panic "bget: no buffers" s ∧
      ∃ pre, bgetTrace nb s dev blockno = pre ++ [Ev.panic]) := by
  have hothers : ∀ is : List Nat,
      (∃ i b, scanOthers s (blockno % nb) is = some (i, b) ∧
        ∃ pre, othersTrace s (blockno % nb) is = pre ++ [Ev.acquiresleep b]) ∨
      (scanOthers s (blockno % nb) is = none ∧
        ∃ pre, othersTrace s (blockno % nb) is = pre ++ [Ev.panic]) := by
    intro is
    induction is with
    | nil => right; exact ⟨rfl, [], rfl⟩
    | cons i rest ih =>
      unfold scanOthers othersTrace
      by_cases hi : i = blockno % nb
      · simp only [hi, if_true]; exact ih
      · simp only [hi, if_false]
        cases hf : scanFree s.buf (s.hashbucket i) with
        | some b =>
          left
          exact ⟨i, b, rfl, ends_append (ends_append ⟨[Ev.release (blockno % nb)], rfl⟩)⟩
        | none =>
          simp only []
          rcases ih with ⟨j, b, h1, h2⟩ | ⟨h1, h2⟩
          · left
            exact ⟨j, b, h1, ends_append (ends_cons h2)⟩
          · right
            exact ⟨h1, ends_append (ends_cons h2)⟩
  unfold bgetTrace
  simp only []
  cases h1 : scanHit s.buf dev blockno (s.hashbucket (blockno % nb)) with
  | some b =>
    left
    exact ⟨b, _, BgetCase.hit b h1, ends_append ⟨[Ev.release (blockno % nb)], rfl⟩⟩
  | none =>
    cases h2 : scanFree s.buf (s.hashbucket (blockno % nb)) with
    | some b =>
      left
      exact ⟨b, _, BgetCase.recycle b h1 h2,
        ends_append (ends_append (ends_append ⟨[Ev.release (blockno % nb)], rfl⟩))⟩
    | none =>
      rcases hothers (List.range nb) with ⟨i, b, h3, h4⟩ | ⟨h3, h4⟩
      · left
        exact ⟨b, _, BgetCase.steal i b h1 h2 h3,
          ends_append (ends_append (ends_cons h4))⟩
      · right
        exact ⟨by simp [bget, h1, h2, h3], ends_append (ends_append (ends_cons h4))⟩

/-- C16: single bucket lock.  On every cache state and for every argument,
the trace of lock events of `bget`, and with it of `bread`, of `brelse` and of
`bpin` and `bunpin`, up to the return, the sleep or the panic, holds at most
one bucket lock at any point, has given back every bucket lock at its end,
and takes a content lock only with no bucket lock held. -/
theorem single_bucket_lock (nb : Nat) (s : Bcache) (p b dev blockno : Nat) :
    singleLock [] (bgetTrace nb s dev blockno) = true ∧
    singleLock [] (breadTrace nb s p dev blockno) = true ∧
    singleLock [] (brelseTrace nb s p b) = true ∧
    singleLock [] (bpinTrace nb s b) = true := by
  refine ⟨bgetTrace_singleLock nb s dev blockno, ?_, ?_, ?_⟩
  · unfold breadTrace
    rw [singleLock_append_tail]
    · exact bgetTrace_singleLock nb s dev blockno
    · intro e he
      split at he
      · simp only [List.mem_cons] at he
        rcases he with rfl | he
        · rfl
        · split at he
          · simp at he; subst he; rfl
          · simp at he
      · simp at he
  · unfold brelseTrace
    split
    · simp [singleLock, heldAfter]
    · simp only [List.cons_append, List.nil_append, List.append_assoc]
      rw [singleLock_skip (by simp) (show (Ev.releasesleep b).quiet = true from rfl),
        singleLock_skip (by simp) (show (Ev.read _ _ _).quiet = true from rfl),
        singleLock_enter,
        singleLock_skip (by simp) (show (Ev.read _ _ _).quiet = true from rfl),
        singleLock_skip (by simp) (show (Ev.write _ _ _).quiet = true from rfl),
        singleLock_skip (by simp) (show (Ev.read _ _ _).quiet = true from rfl)]
      split
      · rw [List.append_assoc, singleLock_quiet (by simp) (unlinkEvents_quiet _ _ _),
          singleLock_quiet (by simp) (insertEvents_quiet _ _ _)]
        simp [singleLock, heldAfter]
      · simp [singleLock, heldAfter]
  · simp [bpinTrace, singleLock, heldAfter]

/-- A stretch of covered accesses passes the check of the accesses. -/
theorem lockedAccess_quiet (ex : Ev → Bool) {held : List Nat} {es : List Ev}
    (hq : ∀ e ∈ es, e.quiet = true ∧ covered held e = true) (rest : List Ev) :
    lockedAccess ex held (es ++ rest) = lockedAccess ex held rest := by
  induction es with
  | nil => rfl
  | cons e t ih =>
    have he := hq e (List.mem_cons_self _ _)
    rw [List.cons_append, lockedAccess, heldAfter_quiet he.1, he.2,
      ih (fun x hx => hq x (List.mem_cons_of_mem _ hx))]
    simp

/-- One covered access passes the check of the accesses. -/
theorem lockedAccess_skip (ex : Ev → Bool) {held : List Nat} {e : Ev}
    (he : e.quiet = true ∧ covered held e = true) (es : List Ev) :
    lockedAccess ex held (e :: es) = lockedAccess ex held es := by
  rw [lockedAccess, heldAfter_quiet he.1, he.2]
  simp

/-- Taking a bucket lock, in the check of the accesses. -/
theorem lockedAccess_enter (ex : Ev → Bool) (held : List Nat) (i : Nat) (es : List Ev) :
    lockedAccess ex held (Ev.acquire i :: es) = lockedAccess ex (i :: held) es := by
  simp [lockedAccess, heldAfter, covered]

/-- Giving back the bucket lock held, in the check of the accesses. -/
theorem lockedAccess_leave (ex : Ev → Bool) (i : Nat) (es : List Ev) :
    lockedAccess ex [i] (Ev.release i :: es) = lockedAccess ex [] es := by
  simp [lockedAccess, heldAfter, covered]

/-- The tail of a path of `bget`, in the check of the accesses. -/
theorem lockedAccess_exit (ex : Ev → Bool) (h b : Nat) :
    lockedAccess ex [h] [Ev.release h, Ev.acquiresleep b] = true := by
  simp [lockedAccess, heldAfter, covered]

/-- The accesses of the first loop of `bget` are made under the lock of the
bucket walked. -/
theorem hitLoop_covered (buf : Nat → Buf) (dev blockno o : Nat) (l : List Nat) :
    ∀ e ∈ hitLoop buf dev blockno o l, e.quiet = true ∧ covered [o] e = true := by
  induction l with
  | nil => simp [hitLoop]
  | cons x t ih =>
    intro e he
    unfold hitLoop at he
    split at he
    · split at he
      · simp at he
        rcases he with rfl | rfl | rfl | rfl <;> simp [Ev.quiet, covered]
      · simp only [List.mem_cons] at he
        rcases he with rfl | rfl | rfl | he
        · simp [Ev.quiet, covered]
        · simp [Ev.quiet, covered]
        · simp [Ev.quiet, covered]
        · exact ih e he
    · simp only [List.mem_cons] at he
      rcases he with rfl | rfl | he
      · simp [Ev.quiet, covered]
      · simp [Ev.quiet, covered]
      · exact ih e he

/-- The accesses of a free-slot loop of `bget` are made under the lock of
the bucket walked. -/
theorem freeLoop_covered (buf : Nat → Buf) (o : Nat) (l : List Nat) :
    ∀ e ∈ freeLoop buf o l, e.quiet = true ∧ covered [o] e = true := by
  induction l with
  | nil => simp [freeLoop]
  | cons x t ih =>
    intro e he
    unfold freeLoop at he
    split at he
    · simp at he
      subst he; simp [Ev.quiet, covered]
    · simp only [List.mem_cons] at he
      rcases he with rfl | rfl | he
      · simp [Ev.quiet, covered]
      · simp [Ev.quiet, covered]
      · exact ih e he

/-- Stamping a slot of the bucket whose lock is held is covered. -/
theorem stampEvents_covered (b o : Nat) :
    ∀ e ∈ stampEvents b (some o), e.quiet = true ∧ covered [o] e = true := by
  intro e he
  simp [stampEvents] at he
  rcases he with rfl | rfl | rfl | rfl <;> simp [Ev.quiet, covered]

/-- Stamping a slot that is in no list is covered. -/
theorem stampEvents_unlinked (b : Nat) (held : List Nat) :
    ∀ e ∈ stampEvents b none, e.quiet = true ∧ covered held e = true := by
  intro e he
  simp [stampEvents] at he
  rcases he with rfl | rfl | rfl | rfl <;> simp [Ev.quiet, covered]

/-- Writing a link of a node of the bucket whose lock is held is covered. -/
theorem nodeWrite_covered (f : Field) (n : Option Nat) (o : Nat) :
    ∀ e ∈ nodeWrite f n (some o), e.quiet = true ∧ covered [o] e = true := by
  intro e he
  unfold nodeWrite at he
  split at he
  · rename_i y own
    simp at he
    subst he
    simp [Ev.quiet, covered]
  · rename_i i heq
    simp at he heq
    subst he heq
    simp [Ev.quiet, covered]
  · simp at he

/-- Unlinking a slot of the bucket whose lock is held is covered. -/
theorem unlinkEvents_covered (l : List Nat) (o b : Nat) :
    ∀ e ∈ unlinkEvents l (some o) b, e.quiet = true ∧ covered [o] e = true := by
  intro e he
  simp only [unlinkEvents, List.mem_append, List.mem_cons, List.mem_singleton,
    List.not_mem_nil, or_false] at he
  rcases he with ((((rfl | rfl) | he) | (rfl | rfl)) | he)
  · simp [Ev.quiet, covered]
  · simp [Ev.quiet, covered]
  · exact nodeWrite_covered _ _ _ e he
  · simp [Ev.quiet, covered]
  · simp [Ev.quiet, covered]
  · exact nodeWrite_covered _ _ _ e he

/-- Inserting an unlinked slot after the sentinel of the bucket whose lock
is held is covered. -/
theorem insertEvents_covered (l : List Nat) (h b : Nat) :
    ∀ e ∈ insertEvents l h b, e.quiet = true ∧ covered [h] e = true := by
  intro e he
  simp only [insertEvents, List.mem_append, List.mem_cons, List.mem_singleton,
    List.not_mem_nil, or_false] at he
  rcases he with (((rfl | rfl | rfl | rfl) | he) | rfl)
  · simp [Ev.quiet, covered]
  · simp [Ev.quiet, covered]
  · simp [Ev.quiet, covered]
  · simp [Ev.quiet, covered]
  · exact nodeWrite_covered _ _ _ e he
  · simp [Ev.quiet, covered]

/-- Every access of the loop of `bget` over the other buckets is covered. -/
theorem othersTrace_locked (ex : Ev → Bool) (s : Bcache) (h : Nat) (is : List Nat) :
    lockedAccess ex [] (othersTrace s h is) = true := by
  induction is with
  | nil => simp [othersTrace, lockedAccess, heldAfter, covered]
  | cons i rest ih =>
    unfold othersTrace
    by_cases hi : i = h
    · rw [if_pos hi]; exact ih
    · rw [if_neg hi, List.cons_append, lockedAccess_enter, List.cons_append,
        lockedAccess_skip ex (by simp [Ev.quiet, covered]),
        lockedAccess_quiet ex (freeLoop_covered _ _ _)]
      cases scanFree s.buf (s.hashbucket i) with
      | none =>
        simp only []
        rw [lockedAccess_leave]
        exact ih
      | some b =>
        simp only [List.append_assoc, List.cons_append]
        rw [lockedAccess_quiet ex (unlinkEvents_covered _ _ _), lockedAccess_leave,
          lockedAccess_quiet ex (stampEvents_unlinked _ _), lockedAccess_enter,
          lockedAccess_quiet ex (insertEvents_covered _ _ _)]
        exact lockedAccess_exit ex h b

/-- Every access of `bget` is covered. -/
theorem bgetTrace_locked (ex : Ev → Bool) (nb : Nat) (s : Bcache) (dev blockno : Nat) :
    lockedAccess ex [] (bgetTrace nb s dev blockno) = true := by
  unfold bgetTrace
  simp only []
  rw [List.cons_append, lockedAccess_enter, List.cons_append,
    lockedAccess_skip ex (by simp [Ev.quiet, covered]),
    lockedAccess_quiet ex (hitLoop_covered _ _ _ _ _)]
  cases scanHit s.buf dev blockno (s.hashbucket (blockno % nb)) with
  | some b => exact lockedAccess_exit ex _ b
  | none =>
    simp only []
    rw [List.cons_append, lockedAccess_skip ex (by simp [Ev.quiet, covered]),
      lockedAccess_quiet ex (freeLoop_covered _ _ _)]
    cases scanFree s.buf (s.hashbucket (blockno % nb)) with
    | some b =>
      simp only []
      rw [lockedAccess_quiet ex (stampEvents_covered _ _)]
      exact lockedAccess_exit ex _ b
    | none =>
      simp only []
      rw [lockedAccess_leave]
      exact othersTrace_locked ex s _ _

/-- Exempted events pass the check of the accesses. -/
theorem lockedAccess_exempt (ex : Ev → Bool) (held : List Nat) {tail : List Ev}
    (hx : ∀ e ∈ tail, ex e = true) : lockedAccess ex held tail = true := by
  induction tail generalizing held with
  | nil => rfl
  | cons e t ih =>
    rw [lockedAccess, hx e (List.mem_cons_self _ _),
      ih _ (fun x h => hx x (List.mem_cons_of_mem _ h))]
    simp

/-- Exempted events added at the end of a trace do not matter to the check
of the accesses. -/
theorem lockedAccess_append_exempt (ex : Ev → Bool) (held : List Nat) (es : List Ev)
    {tail : List Ev} (hx : ∀ e ∈ tail, ex e = true) :
    lockedAccess ex held (es ++ tail) = lockedAccess ex held es := by
  induction es generalizing held with
  | nil => rw [List.nil_append, lockedAccess_exempt ex held hx]; rfl
  | cons e t ih => rw [List.cons_append, lockedAccess, lockedAccess, ih]

/-- In a state satisfying the invariant, the bucket owning a linked slot is
the bucket whose list holds it. -/
theorem ownerOf_eq {nb nbuf : Nat} {s : Bcache} (hI : Inv nb nbuf s) {b i : Nat}
    (hb : b ∈ s.hashbucket i) : ownerOf nb s b = some i := by
  unfold ownerOf
  cases hf : (List.range nb).find? (fun i => decide (b ∈ s.hashbucket i)) with
  | none =>
    have := List.find?_eq_none.1 hf i (List.mem_range.2 (hI.bound i b hb).2)
    simp at this
    exact absurd hb this
  | some j =>
    have := List.find?_some hf
    simp only [decide_eq_true_eq] at this
    rw [hI.disj _ _ _ this hb]

/-- The accesses of the trace of `bread` on the fresh cache are not all made
under a bucket lock: the test of `b->valid` comes after the release.  The
same holds of `brelse`, which reads `b->blockno` before it takes the lock. -/
theorem locked_access_counterexample :
    lockedAccess (fun _ => false) [] (breadTrace NBUCKETS (binit NBUCKETS 30) 1 0 0) = false ∧
    lockedAccess (fun _ => false) []
      (brelseTrace NBUCKETS (bread NBUCKETS (binit NBUCKETS 30) 1 0 0).state 1 26) = false ∧
    lockedAccess (fun _ => false) []
      (bpinTrace NBUCKETS (bread NBUCKETS (binit NBUCKETS 30) 1 0 0).state 26) = false := by
  decide

/-- C17, amended: metadata accessed under the owning bucket lock.  On every
state, every access `bget` makes to the device, block number, validity flag,
count or links of a slot, or to the links of a sentinel, is made while the
thread holds the lock of the bucket whose list holds the slot, or while the
slot, unlinked in the cross-bucket path, is in no list.  The same holds of
`bread` on every state, and of `brelse`, `bpin` and `bunpin` on a referenced
slot of a reachable state, for every access but these: `bread` tests and sets
`valid` of the slot returned, and `brelse`, `bpin` and `bunpin` read `blockno`
of their slot, with no bucket lock held. -/
theorem locked_access :
    (∀ (nb : Nat) (s : Bcache) (dev blockno : Nat),
      lockedAccess (fun _ => false) [] (bgetTrace nb s dev blockno) = true) ∧
    (∀ (nb : Nat) (s : Bcache) (p dev blockno : Nat),
      lockedAccess outsideLock [] (breadTrace nb s p dev blockno) = true) ∧
    (∀ (nb nbuf : Nat), 0 < nb → ∀ (s : Bcache), Reachable nb nbuf s →
      ∀ (p b : Nat), 0 < (s.buf b).refcnt →
        lockedAccess outsideLock [] (brelseTrace nb s p b) = true ∧
        lockedAccess outsideLock [] (bpinTrace nb s b) = true) := by
  refine ⟨fun nb s dev blockno => bgetTrace_locked _ nb s dev blockno,
    fun nb s p dev blockno => ?_, fun nb nbuf hnb s hs p b hr => ?_⟩
  · unfold breadTrace
    rw [lockedAccess_append_exempt]
    · exact bgetTrace_locked _ nb s dev blockno
    · intro e he
      split at he
      · simp only [List.mem_cons] at he
        rcases he with rfl | he
        · rfl
        · split at he
          · simp at he; subst he; rfl
          · simp at he
      · simp at he
  · have hI := hs.inv hnb
    have ho := ownerOf_eq hI (hI.loc b (ne_of_gt hr))
    constructor
    · unfold brelseTrace
      split
      · simp [lockedAccess, covered, heldAfter]
      · simp only [ho, listOf, List.cons_append, List.nil_append, List.append_assoc]
        rw [lockedAccess_skip _ (by simp [Ev.quiet, covered])]
        rw [lockedAccess]
        simp only [outsideLock, Bool.true_or, Bool.true_and, heldAfter]
        rw [lockedAccess_enter,
          lockedAccess_skip _ (by simp [Ev.quiet, covered]),
          lockedAccess_skip _ (by simp [Ev.quiet, covered]),
          lockedAccess_skip _ (by simp [Ev.quiet, covered])]
        split
        · rw [List.append_assoc, lockedAccess_quiet _ (unlinkEvents_covered _ _ _),
            lockedAccess_quiet _ (insertEvents_covered _ _ _)]
          simp [lockedAccess, heldAfter, covered]
        · simp [lockedAccess, heldAfter, covered]
    · simp [bpinTrace, ho, lockedAccess, heldAfter, covered, outsideLock]

/-- Witness of C17, amended: the trace of `brelse` of slot 26 by its holder
after `bread(0, 0)` on the fresh cache. -/
theorem locked_access_witness :
    lockedAccess outsideLock []
      (brelseTrace NBUCKETS (bread NBUCKETS (binit NBUCKETS 30) 1 0 0).state 1 26) = true :=
  (locked_access.2.2 NBUCKETS 30 (by decide) _
    (Reachable.step (Op.bread 1 0 0) (Reachable.init (fun _ _ => 0)) rfl) 1 26 (by decide)).1

/-! ## Interleaved executions of `bget` -/

/-- Running `j` sections, then `k` more. -/
theorem runAlone_add (nb j k : Nat) (c : Bcache × Thread) :
    runAlone nb (j + k) c = runAlone nb k (runAlone nb j c) := by
  induction j generalizing c with
  | zero => simp [runAlone]
  | succ j ih =>
    rw [Nat.add_right_comm]
    simp only [runAlone]
    exact ih _

/-- The loop over the other buckets, run alone from bucket `i` on, does what
`scanOthers` does over the indices from `i` to `nb`. -/
theorem runAlone_others (nb : Nat) (s : Bcache) (p dev blockno : Nat) (n : Nat) :
    ∀ i, i + n = nb →
      ∃ k, runAlone nb k (s, ⟨p, dev, blockno, Pc.others i⟩) =
        match scanOthers s (blockno % nb) (List.range' i n) with
        | some (_, b) => (unlink s b, ⟨p, dev, blockno, Pc.carry b⟩)
        | none => (s, ⟨p, dev, blockno, Pc.dead⟩) := by
  induction n with
  | zero =>
    intro i hi
    refine ⟨1, ?_⟩
    have : nb ≤ i := by omega
    simp [runAlone, bgetSection, this, scanOthers]
  | succ n ih =>
    intro i hi
    have hlt : ¬ nb ≤ i := by omega
    obtain ⟨k, hk⟩ := ih (i + 1) (by omega)
    rw [List.range'_succ]
    unfold scanOthers
    have hone : ∀ c, runAlone nb (1 + k) c = runAlone nb k (bgetSection nb c.1 c.2) := by
      intro c
      rw [runAlone_add]
      rfl
    by_cases hih : i = blockno % nb
    · refine ⟨1 + k, ?_⟩
      rw [hone]
      have e : bgetSection nb s ⟨p, dev, blockno, Pc.others i⟩ =
          (s, ⟨p, dev, blockno, Pc.others (i + 1)⟩) := by
        simp only [bgetSection]
        rw [if_neg hlt, if_pos hih]
      rw [e, if_pos hih]
      exact hk
    · rw [if_neg hih]
      cases hf : scanFree s.buf (s.hashbucket i) with
      | some b =>
        refine ⟨1, ?_⟩
        simp [runAlone, bgetSection, hlt, hih, hf]
      | none =>
        refine ⟨1 + k, ?_⟩
        rw [hone]
        have e : bgetSection nb s ⟨p, dev, blockno, Pc.others i⟩ =
            (s, ⟨p, dev, blockno, Pc.others (i + 1)⟩) := by
          simp [bgetSection, hlt, hih, hf]
        rw [e]
        exact hk

/-- A thread run alone does what `bget` does: after some number of sections
it rests in the state in which `bget` ends, having returned the slot `bget`
returns, panicked when `bget` panics, or asleep when `bget` sleeps. -/
theorem runAlone_bget (nb : Nat) (s : Bcache) (p dev blockno : Nat) :
    ∃ k c, runAlone nb k (s, ⟨p, dev, blockno, Pc.start⟩) = c ∧
      bgetSection nb c.1 c.2 = c ∧ c.1 = (bget nb s p dev blockno).state ∧
      (∀ b s1, bget nb s p dev blockno = .ok b s1 → c.2.pc = Pc.done b) ∧
      (∀ m s1, bget nb s p dev blockno = .panic m s1 → c.2.pc = Pc.dead) ∧
      (∀ s1, bget nb s p dev blockno = .blocked s1 → ∃ b, c.2.pc = Pc.sleep b) := by
  -- from `sleep b` on
  have hsleep : ∀ (s0 : Bcache) (b : Nat),
      ∃ c, runAlone nb 1 (s0, ⟨p, dev, blockno, Pc.sleep b⟩) = c ∧
        bgetSection nb c.1 c.2 = c ∧ c.1 = (acquiresleep s0 p b).state ∧
        (∀ b1 s1, acquiresleep s0 p b = .ok b1 s1 → c.2.pc = Pc.done b1) ∧
        (∀ m s1, acquiresleep s0 p b = .panic m s1 → c.2.pc = Pc.dead) ∧
        (∀ s1, acquiresleep s0 p b = .blocked s1 → ∃ b1, c.2.pc = Pc.sleep b1) := by
    intro s0 b
    cases hl : (s0.buf b).lock with
    | none =>
      refine ⟨_, rfl, ?_⟩
      simp [runAlone, bgetSection, hl, acquiresleep, Outcome.state]
    | some q =>
      refine ⟨_, rfl, ?_⟩
      simp [runAlone, bgetSection, hl, acquiresleep, Outcome.state]
  cases h1 : scanHit s.buf dev blockno (s.hashbucket (blockno % nb)) with
  | some b =>
    have hg : bget nb s p dev blockno =
        acquiresleep (s.setBuf b { s.buf b with refcnt := (s.buf b).refcnt + 1 }) p b := by
      simp [bget, h1]
    obtain ⟨c, hc, hrest⟩ := hsleep (s.setBuf b { s.buf b with refcnt := (s.buf b).refcnt + 1 }) b
    refine ⟨1 + 1, c, ?_, ?_⟩
    · rw [runAlone_add, ← hc]
      simp [runAlone, bgetSection, h1]
    · rw [hg]; exact hrest
  | none =>
    cases h2 : scanFree s.buf (s.hashbucket (blockno % nb)) with
    | some b =>
      have hg : bget nb s p dev blockno = acquiresleep (stamp s b dev blockno) p b := by
        simp [bget, h1, h2]
      obtain ⟨c, hc, hrest⟩ := hsleep (stamp s b dev blockno) b
      refine ⟨1 + 1, c, ?_, ?_⟩
      · rw [runAlone_add, ← hc]
        simp [runAlone, bgetSection, h1, h2]
      · rw [hg]; exact hrest
    | none =>
      obtain ⟨k, hk⟩ := runAlone_others nb s p dev blockno nb 0 (by simp)
      rw [← List.range_eq_range'] at hk
      cases h3 : scanOthers s (blockno % nb) (List.range nb) with
      | some ib =>
        obtain ⟨i, b⟩ := ib
        have hg : bget nb s p dev blockno =
            acquiresleep (pushHead (stamp (unlink s b) b dev blockno) (blockno % nb) b) p b := by
          simp [bget, h1, h2, h3]
        obtain ⟨c, hc, hrest⟩ :=
          hsleep (pushHead (stamp (unlink s b) b dev blockno) (blockno % nb) b) b
        refine ⟨1 + (k + (1 + 1)), c, ?_, ?_⟩
        · rw [runAlone_add, runAlone_add, ← hc]
          have e1 : runAlone nb 1 (s, ⟨p, dev, blockno, Pc.start⟩) =
              (s, ⟨p, dev, blockno, Pc.others 0⟩) := by
            simp [runAlone, bgetSection, h1, h2]
          rw [e1, hk, h3]
          simp [runAlone, bgetSection]
        · rw [hg]; exact hrest
      | none =>
        have hg : bget nb s p dev blockno = .panic "bget: no buffers" s := by
          simp [bget, h1, h2, h3]
        refine ⟨1 + k, (s, ⟨p, dev, blockno, Pc.dead⟩), ?_, ?_⟩
        · rw [runAlone_add]
          have e1 : runAlone nb 1 (s, ⟨p, dev, blockno, Pc.start⟩) =
              (s, ⟨p, dev, blockno, Pc.others 0⟩) := by
            simp [runAlone, bgetSection, h1, h2]
          rw [e1, hk, h3]
        · rw [hg]
          simp [bgetSection, Outcome.state]

/-- C13: two threads in `bget` for the same uncached block.  With 30 slots in
13 buckets, the blocks `(1, 0)`, `(1, 13)` and `(1, 26)` are held in the three
slots of bucket 0, and two threads call `bget(1, 39)`.  Both search bucket 0
before either has inserted a slot: each then takes a free slot of bucket 1 and
puts it at the head of bucket 0, and both return, the one slot 1 and the other
slot 14, two slots with `refcnt = 1` carrying the same block `(1, 39)`. -/
theorem concurrent_bget_duplicate :
    (interleave NBUCKETS
      ((bread NBUCKETS (bread NBUCKETS (bread NBUCKETS (binit NBUCKETS 30) 7 1 0).state
          7 1 13).state 7 1 26).state,
        [⟨8, 1, 39, Pc.start⟩, ⟨9, 1, 39, Pc.start⟩])
      [0, 1, 0, 0, 1, 1, 0, 1, 0, 1]).2 =
      [⟨8, 1, 39, Pc.done 1⟩, ⟨9, 1, 39, Pc.done 14⟩] ∧
    ((interleave NBUCKETS
      ((bread NBUCKETS (bread NBUCKETS (bread NBUCKETS (binit NBUCKETS 30) 7 1 0).state
          7 1 13).state 7 1 26).state,
        [⟨8, 1, 39, Pc.start⟩, ⟨9, 1, 39, Pc.start⟩])
      [0, 1, 0, 0, 1, 1, 0, 1, 0, 1]).1.buf 1).refcnt = 1 ∧
    ((interleave NBUCKETS
      ((bread NBUCKETS (bread NBUCKETS (bread NBUCKETS (binit NBUCKETS 30) 7 1 0).state
          7 1 13).state 7 1 26).state,
        [⟨8, 1, 39, Pc.start⟩, ⟨9, 1, 39, Pc.start⟩])
      [0, 1, 0, 0, 1, 1, 0, 1, 0, 1]).1.buf 14).refcnt = 1 ∧
    ((interleave NBUCKETS
      ((bread NBUCKETS (bread NBUCKETS (bread NBUCKETS (binit NBUCKETS 30) 7 1 0).state
          7 1 13).state 7 1 26).state,
        [⟨8, 1, 39, Pc.start⟩, ⟨9, 1, 39, Pc.start⟩])
      [0, 1, 0, 0, 1, 1, 0, 1, 0, 1]).1.buf 1).dev = 1 ∧
    ((interleave NBUCKETS
      ((bread NBUCKETS (bread NBUCKETS (bread NBUCKETS (binit NBUCKETS 30) 7 1 0).state
          7 1 13).state 7 1 26).state,
        [⟨8, 1, 39, Pc.start⟩, ⟨9, 1, 39, Pc.start⟩])
      [0, 1, 0, 0, 1, 1, 0, 1, 0, 1]).1.buf 14).dev = 1 ∧
    ((interleave NBUCKETS
      ((bread NBUCKETS (bread NBUCKETS (bread NBUCKETS (binit NBUCKETS 30) 7 1 0).state
          7 1 13).state 7 1 26).state,
        [⟨8, 1, 39, Pc.start⟩, ⟨9, 1, 39, Pc.start⟩])
      [0, 1, 0, 0, 1, 1, 0, 1, 0, 1]).1.buf 1).blockno = 39 ∧
    ((interleave NBUCKETS
      ((bread NBUCKETS (bread NBUCKETS (bread NBUCKETS (binit NBUCKETS 30) 7 1 0).state
          7 1 13).state 7 1 26).state,
        [⟨8, 1, 39, Pc.start⟩, ⟨9, 1, 39, Pc.start⟩])
      [0, 1, 0, 0, 1, 1, 0, 1, 0, 1]).1.buf 14).blockno = 39 ∧
    (interleave NBUCKETS
      ((bread NBUCKETS (bread NBUCKETS (bread NBUCKETS (binit NBUCKETS 30) 7 1 0).state
          7 1 13).state 7 1 26).state,
        [⟨8, 1, 39, Pc.start⟩, ⟨9, 1, 39, Pc.start⟩])
      [0, 1, 0, 0, 1, 1, 0, 1, 0, 1]).1.hashbucket 0 = [14, 1, 26, 13, 0] := by
  decide

/-! ## Link fields: elementary facts -/

@[simp] theorem setNext_next (L : Links) (a v x : Node) :
    (L.setNext a v).next x = if x = a then v else L.next x := rfl

@[simp] theorem setNext_prev (L : Links) (a v : Node) : (L.setNext a v).prev = L.prev := rfl

@[simp] theorem setPrev_prev (L : Links) (a v x : Node) :
    (L.setPrev a v).prev x = if x = a then v else L.prev x := rfl

@[simp] theorem setPrev_next (L : Links) (a v : Node) : (L.setPrev a v).next = L.next := rfl

theorem insertHead_next (L : Links) (h b : Nat) (x : Node) :
    (insertHead L h b).next x =
      if x = .head h then .slot b else if x = .slot b then L.next (.head h) else L.next x := by
  simp [insertHead]

theorem insertHead_prev (L : Links) (h b : Nat) (x : Node) :
    (insertHead L h b).prev x =
      if x = L.next (.head h) then .slot b else if x = .slot b then .head h else L.prev x := by
  simp [insertHead]

theorem unlinkNode_next (L : Links) (b : Nat) (x : Node) :
    (unlinkNode L b).next x =
      if x = L.prev (.slot b) then L.next (.slot b) else L.next x := by
  simp only [unlinkNode, setNext_next, setPrev_prev, setPrev_next]
  by_cases h : Node.slot b = L.next (.slot b)
  · simp [← h]
  · simp [h]

theorem unlinkNode_prev (L : Links) (b : Nat) (x : Node) :
    (unlinkNode L b).prev x =
      if x = L.next (.slot b) then L.prev (.slot b) else L.prev x := by
  simp [unlinkNode]

/-- A chain depends only on the `next` of its nodes but the last and on the
`prev` of its nodes but the first. -/
theorem Chain.of_agree {L M : Links} : ∀ (l : List Nat) (a z : Node), Chain L a l z →
    (∀ x, (x = a ∨ ∃ b ∈ l, x = Node.slot b) → M.next x = L.next x) →
    (∀ x, (x = z ∨ ∃ b ∈ l, x = Node.slot b) → M.prev x = L.prev x) →
    Chain M a l z := by
  intro l
  induction l with
  | nil =>
    intro a z hc hn hp
    exact ⟨by rw [hn a (Or.inl rfl)]; exact hc.1, by rw [hp z (Or.inl rfl)]; exact hc.2⟩
  | cons b t ih =>
    intro a z hc hn hp
    obtain ⟨h1, h2, h3⟩ := hc
    refine ⟨by rw [hn a (Or.inl rfl)]; exact h1, ?_, ?_⟩
    · rw [hp _ (Or.inr ⟨b, List.mem_cons_self _ _, rfl⟩)]; exact h2
    · refine ih _ _ h3 ?_ ?_
      · rintro x (hx | ⟨c, hc, hx⟩)
        · exact hn x (Or.inr ⟨b, List.mem_cons_self _ _, hx⟩)
        · exact hn x (Or.inr ⟨c, List.mem_cons_of_mem _ hc, hx⟩)
      · rintro x (hx | ⟨c, hc, hx⟩)
        · exact hp x (Or.inl hx)
        · exact hp x (Or.inr ⟨c, List.mem_cons_of_mem _ hc, hx⟩)

/-- A chain through `l1 ++ b :: l2` is a chain to `b` and a chain from `b`. -/
theorem Chain.split_at {L : Links} {b : Nat} {l2 : List Nat} {z : Node} :
    ∀ (l1 : List Nat) (a : Node),
      Chain L a (l1 ++ b :: l2) z ↔ Chain L a l1 (.slot b) ∧ Chain L (.slot b) l2 z := by
  intro l1
  induction l1 with
  | nil =>
    intro a
    simp only [List.nil_append, Chain]
    tauto
  | cons c t ih =>
    intro a
    show (L.next a = .slot c ∧ L.prev (.slot c) = a ∧ Chain L (.slot c) (t ++ b :: l2) z) ↔
      (L.next a = .slot c ∧ L.prev (.slot c) = a ∧ Chain L (.slot c) t (.slot b)) ∧
        Chain L (.slot b) l2 z
    rw [ih]
    tauto

/-- The first link of a chain. -/
theorem Chain.first_link {L : Links} {l : List Nat} {a z : Node} (hc : Chain L a l z) :
    (L.next a = z ∨ ∃ b ∈ l, L.next a = .slot b) ∧ L.prev (L.next a) = a := by
  cases l with
  | nil => exact ⟨Or.inl hc.1, by rw [hc.1]; exact hc.2⟩
  | cons b t =>
    exact ⟨Or.inr ⟨b, List.mem_cons_self _ _, hc.1⟩, by rw [hc.1]; exact hc.2.1⟩

/-- The last link of a chain. -/
theorem Chain.last_link {L : Links} : ∀ (l : List Nat) (a z : Node), Chain L a l z →
    (L.prev z = a ∨ ∃ b ∈ l, L.prev z = .slot b) ∧ L.next (L.prev z) = z := by
  intro l
  induction l with
  | nil =>
    intro a z hc
    exact ⟨Or.inl hc.2, by rw [hc.2]; exact hc.1⟩
  | cons b t ih =>
    intro a z hc
    obtain ⟨h1, h2⟩ := ih _ _ hc.2.2
    refine ⟨Or.inr ?_, h2⟩
    rcases h1 with h1 | ⟨c, hc1, h1⟩
    · exact ⟨b, List.mem_cons_self _ _, h1⟩
    · exact ⟨c, List.mem_cons_of_mem _ hc1, h1⟩

/-- Following `next` along a chain to the sentinel visits its slots in
order. -/
theorem walk_next {L : Links} {h : Nat} : ∀ (l : List Nat) (a : Node) (k : Nat),
    Chain L a l (.head h) → l.length < k →
    walk L.next h k (L.next a) = some l := by
  intro l
  induction l with
  | nil =>
    intro a k hc hk
    obtain ⟨k, rfl⟩ : ∃ j, k = j + 1 := ⟨k - 1, by simp at hk; omega⟩
    simp [walk, hc.1]
  | cons b t ih =>
    intro a k hc hk
    obtain ⟨k, rfl⟩ : ∃ j, k = j + 1 := ⟨k - 1, by simp at hk; omega⟩
    have := ih (.slot b) k hc.2.2 (by simpa using hk)
    simp [walk, hc.1, this]

/-- Following `prev` along a chain from the sentinel visits its slots in
reverse order. -/
theorem walk_prev {L : Links} {h : Nat} : ∀ (l : List Nat) (z : Node) (k : Nat),
    Chain L (.head h) l z → l.length < k →
    walk L.prev h k (L.prev z) = some l.reverse := by
  intro l
  induction l using List.reverseRecOn with
  | nil =>
    intro z k hc hk
    obtain ⟨k, rfl⟩ : ∃ j, k = j + 1 := ⟨k - 1, by simp at hk; omega⟩
    simp [walk, hc.2]
  | append_singleton t b ih =>
    intro z k hc hk
    obtain ⟨k, rfl⟩ : ∃ j, k = j + 1 := ⟨k - 1, by simp at hk; omega⟩
    rw [Chain.split_at] at hc
    have := ih (.slot b) k hc.1 (by simp at hk; omega)
    simp [walk, hc.2.2, this]

/-- A loop that leaves at the first slot satisfying `P` finds what a search
of the visited slots finds. -/
theorem search_of_walk {f : Node → Node} {h : Nat} (P : Nat → Bool) :
    ∀ (k : Nat) (a : Node) (l : List Nat), walk f h k a = some l →
      search f h P k a = some (l.find? P) := by
  intro k
  induction k with
  | zero => intro a l hw; simp [walk] at hw
  | succ k ih =>
    intro a l hw
    by_cases ha : a = .head h
    · subst ha
      simp only [walk, if_true, Option.some.injEq] at hw
      subst hw
      simp [search]
    · cases a with
      | head i => simp [walk, ha] at hw
      | null => simp [walk, ha] at hw
      | slot b =>
        simp only [walk, ha, if_false, Option.map_eq_some'] at hw
        obtain ⟨t, ht, rfl⟩ := hw
        simp only [search, ha, if_false, List.find?_cons]
        cases hP : P b with
        | true => simp
        | false => simpa using ih _ _ ht

/-- Taking slot `b` out: the chain that started at `b` starts at the node that
was before `b`. -/
theorem Chain.unlink_tail {L : Links} {b : Nat} {l2 : List Nat} {z : Node}
    (hc : Chain L (.slot b) l2 z) (hp : ∀ x ∈ l2, L.prev (.slot b) ≠ .slot x)
    (hnd : l2.Nodup) (hz : ∀ x ∈ l2, z ≠ .slot x) :
    Chain (unlinkNode L b) (L.prev (.slot b)) l2 z := by
  cases l2 with
  | nil =>
    obtain ⟨h1, h2⟩ := hc
    refine ⟨?_, ?_⟩
    · rw [unlinkNode_next, if_pos rfl, h1]
    · rw [unlinkNode_prev, h1, if_pos rfl]
  | cons x t =>
    obtain ⟨h1, h2, h3⟩ := hc
    refine ⟨?_, ?_, ?_⟩
    · rw [unlinkNode_next, if_pos rfl, h1]
    · rw [unlinkNode_prev, h1, if_pos rfl]
    · refine Chain.of_agree _ _ _ h3 ?_ ?_
      · rintro y (hy | ⟨c, hc, hy⟩)
        · rw [unlinkNode_next, if_neg]
          rw [hy]; exact fun e => hp x (List.mem_cons_self _ _) e.symm
        · rw [unlinkNode_next, if_neg]
          rw [hy]; exact fun e => hp c (List.mem_cons_of_mem _ hc) e.symm
      · rintro y (hy | ⟨c, hc, hy⟩)
        · rw [unlinkNode_prev, if_neg]
          rw [hy, h1]; exact hz x (List.mem_cons_self _ _)
        · rw [unlinkNode_prev, if_neg]
          rw [hy, h1]
          intro e
          have : c = x := by injection e
          subst this
          exact (List.nodup_cons.1 hnd).1 hc

/-- Taking slot `b` out of the chain it is in. -/
theorem Chain.unlink_mid {L : Links} {b : Nat} {l2 : List Nat} {z : Node} :
    ∀ (l1 : List Nat) (a : Node), Chain L a (l1 ++ b :: l2) z →
      (∀ x ∈ l1 ++ b :: l2, a ≠ .slot x) → (l1 ++ b :: l2).Nodup →
      (∀ x ∈ l1 ++ b :: l2, z ≠ .slot x) →
      Chain (unlinkNode L b) a (l1 ++ l2) z := by
  intro l1
  induction l1 with
  | nil =>
    intro a hc ha hnd hz
    simp only [List.nil_append] at hc ha hnd hz ⊢
    obtain ⟨h1, h2, h3⟩ := hc
    have := Chain.unlink_tail h3
      (fun x hx => by rw [h2]; exact ha x (List.mem_cons_of_mem _ hx))
      (List.nodup_cons.1 hnd).2 (fun x hx => hz x (List.mem_cons_of_mem _ hx))
    rw [h2] at this
    exact this
  | cons y t1 ih =>
    intro a hc ha hnd hz
    simp only [List.cons_append] at hc ha hnd hz ⊢
    obtain ⟨h1, h2, h3⟩ := hc
    have hnd2 := List.nodup_cons.1 hnd
    have h4 := ih (.slot y) h3
      (fun x hx e => by
        have : y = x := by injection e
        subst this
        exact hnd2.1 hx)
      hnd2.2 (fun x hx => hz x (List.mem_cons_of_mem _ hx))
    have hs := (Chain.split_at t1 (.slot y)).1 h3
    refine ⟨?_, ?_, h4⟩
    · rw [unlinkNode_next, if_neg, h1]
      rcases (Chain.last_link _ _ _ hs.1).1 with e | ⟨c, hc, e⟩
      · rw [e]; exact ha y (List.mem_cons_self _ _)
      · rw [e]
        exact ha c (List.mem_cons_of_mem _ (List.mem_append_left _ hc))
    · rw [unlinkNode_prev, if_neg, h2]
      rcases (Chain.first_link hs.2).1 with e | ⟨c, hc, e⟩
      · rw [e]; exact fun e2 => hz y (List.mem_cons_self _ _) e2.symm
      · rw [e]
        intro e2
        have : y = c := by injection e2
        subst this
        exact hnd2.1 (List.mem_append_right _ (List.mem_cons_of_mem _ hc))

/-- Taking slot `b` out of its list leaves the lists of the buckets linked,
with `b` erased. -/
theorem Linked.unlink {nb : Nat} {L : Links} {bk : Nat → List Nat} (hL : Linked nb L bk)
    (hnd : ∀ i, (bk i).Nodup) (hdj : ∀ i j c, c ∈ bk i → c ∈ bk j → i = j)
    {b j : Nat} (hb : b ∈ bk j) (hj : j < nb) :
    Linked nb (unlinkNode L b) (fun i => (bk i).erase b) := by
  obtain ⟨l1, l2, hl⟩ := List.append_of_mem hb
  have hcj := hL j hj
  rw [hl] at hcj
  have hs := (Chain.split_at l1 (.head j)).1 hcj
  have hndj := hnd j
  rw [hl] at hndj
  have hb1 : b ∉ l1 := fun h => by
    have := (List.nodup_append.1 hndj).2.2 h (List.mem_cons_self _ _)
    exact this
  intro i hi
  show Chain (unlinkNode L b) (.head i) ((bk i).erase b) (.head i)
  by_cases hij : i = j
  · subst hij
    rw [hl, List.erase_append_right _ hb1, List.erase_cons_head]
    exact Chain.unlink_mid l1 _ hcj (fun x _ e => by cases e) hndj (fun x _ e => by cases e)
  · have hbi : b ∉ bk i := fun h => hij (hdj _ _ _ h hb)
    rw [List.erase_of_not_mem hbi]
    have hmem : ∀ c, c ∈ l1 ∨ c ∈ l2 → c ∉ bk i := by
      intro c hc hci
      apply hij
      apply hdj _ _ _ hci
      rw [hl]
      rcases hc with hc | hc
      · exact List.mem_append_left _ hc
      · exact List.mem_append_right _ (List.mem_cons_of_mem _ hc)
    refine Chain.of_agree _ _ _ (hL i hi) ?_ ?_
    · intro y hy
      rw [unlinkNode_next, if_neg]
      intro e
      rcases (Chain.last_link _ _ _ hs.1).1 with e1 | ⟨c, hc, e1⟩
      · rw [e1] at e
        rcases hy with hy | ⟨d, _, hy⟩
        · rw [hy] at e; injection e with e; exact hij e
        · rw [hy] at e; cases e
      · rw [e1] at e
        rcases hy with hy | ⟨d, hd, hy⟩
        · rw [hy] at e; cases e
        · rw [hy] at e
          injection e with e
          subst e
          exact hmem _ (Or.inl hc) hd
    · intro y hy
      rw [unlinkNode_prev, if_neg]
      intro e
      rcases (Chain.first_link hs.2).1 with e1 | ⟨c, hc, e1⟩
      · rw [e1] at e
        rcases hy with hy | ⟨d, _, hy⟩
        · rw [hy] at e; injection e with e; exact hij e
        · rw [hy] at e; cases e
      · rw [e1] at e
        rcases hy with hy | ⟨d, hd, hy⟩
        · rw [hy] at e; cases e
        · rw [hy] at e
          injection e with e
          subst e
          exact hmem _ (Or.inr hc) hd

/-- Inserting a slot that is in no list at the head of bucket `h` leaves the
lists linked, with `b` in front of the list of `h`. -/
theorem Linked.insert {nb : Nat} {L : Links} {bk : Nat → List Nat} (hL : Linked nb L bk)
    (hnd : ∀ i, (bk i).Nodup) (hdj : ∀ i j c, c ∈ bk i → c ∈ bk j → i = j)
    {b h : Nat} (hb : ∀ i, b ∉ bk i) (hh : h < nb) :
    Linked nb (insertHead L h b) (fun i => if i = h then b :: bk h else bk i) := by
  have hn := (Chain.first_link (hL h hh)).1
  have hnb : L.next (.head h) ≠ .slot b := by
    rcases hn with e | ⟨c, hc, e⟩
    · rw [e]; exact fun e => by cases e
    · rw [e]
      intro e2
      injection e2 with e2
      subst e2
      exact hb h hc
  intro i hi
  show Chain (insertHead L h b) (.head i) (if i = h then b :: bk h else bk i) (.head i)
  by_cases hih : i = h
  · subst hih
    rw [if_pos rfl]
    have hc := hL i hi
    refine ⟨?_, ?_, ?_⟩
    · rw [insertHead_next, if_pos rfl]
    · rw [insertHead_prev, if_neg (Ne.symm hnb), if_pos rfl]
    · cases hl : bk i with
      | nil =>
        rw [hl] at hc
        obtain ⟨h1, h2⟩ := hc
        refine ⟨?_, ?_⟩
        · rw [insertHead_next, if_neg (by intro e; cases e), if_pos rfl, h1]
        · rw [insertHead_prev, h1, if_pos rfl]
      | cons x t =>
        rw [hl] at hc
        obtain ⟨h1, h2, h3⟩ := hc
        have hndi := hnd i
        rw [hl] at hndi
        have hbx : ∀ c, c ∈ x :: t → c ≠ b := by
          intro c hc e
          subst e
          exact hb i (by rw [hl]; exact hc)
        refine ⟨?_, ?_, ?_⟩
        · rw [insertHead_next, if_neg (by intro e; cases e), if_pos rfl, h1]
        · rw [insertHead_prev, h1, if_pos rfl]
        · refine Chain.of_agree _ _ _ h3 ?_ ?_
          · intro y hy
            have : ∃ c, c ∈ x :: t ∧ y = .slot c := by
              rcases hy with hy | ⟨c, hc, hy⟩
              · exact ⟨x, List.mem_cons_self _ _, hy⟩
              · exact ⟨c, List.mem_cons_of_mem _ hc, hy⟩
            obtain ⟨c, hc, rfl⟩ := this
            rw [insertHead_next, if_neg (by intro e; cases e), if_neg]
            intro e
            injection e with e
            exact hbx c hc e
          · intro y hy
            rw [insertHead_prev, h1]
            rcases hy with hy | ⟨c, hc, hy⟩
            · subst hy
              rw [if_neg (by intro e; cases e), if_neg (by intro e; cases e)]
            · subst hy
              rw [if_neg, if_neg]
              · intro e
                injection e with e
                exact hbx c (List.mem_cons_of_mem _ hc) e
              · intro e
                injection e with e
                subst e
                exact (List.nodup_cons.1 hndi).1 hc
  · rw [if_neg hih]
    refine Chain.of_agree _ _ _ (hL i hi) ?_ ?_
    · intro y hy
      rw [insertHead_next]
      rcases hy with hy | ⟨c, hc, hy⟩
      · subst hy
        rw [if_neg (by intro e; injection e with e; exact hih e), if_neg (by intro e; cases e)]
      · subst hy
        rw [if_neg (by intro e; cases e), if_neg]
        intro e
        injection e with e
        subst e
        exact hb i hc
    · intro y hy
      rw [insertHead_prev]
      rcases hy with hy | ⟨c, hc, hy⟩
      · subst hy
        rw [if_neg, if_neg (by intro e; cases e)]
        rcases hn with e | ⟨d, _, e⟩
        · rw [e]; intro e2; injection e2 with e2; exact hih e2
        · rw [e]; intro e2; cases e2
      · subst hy
        rw [if_neg, if_neg]
        · intro e
          injection e with e
          subst e
          exact hb i hc
        · rcases hn with e | ⟨d, hd, e⟩
          · rw [e]; intro e2; cases e2
          · rw [e]
            intro e2
            injection e2 with e2
            subst e2
            exact hih (hdj _ _ _ hc hd)

/-- Moving slot `b` from the list it is in to the head of bucket `h`, as the
cross-bucket path of `bget` and `brelse` do, keeps the lists linked. -/
theorem Linked.moved {nb : Nat} {L : Links} {bk bk1 : Nat → List Nat} (hL : Linked nb L bk)
    (hnd : ∀ i, (bk i).Nodup) (hdj : ∀ i j c, c ∈ bk i → c ∈ bk j → i = j)
    {b j h : Nat} (hb : b ∈ bk j) (hj : j < nb) (hh : h < nb)
    (h1 : ∀ i, bk1 i = if i = h then b :: (bk h).erase b else (bk i).erase b) :
    Linked nb (insertHead (unlinkNode L b) h b) bk1 := by
  have hU := hL.unlink hnd hdj hb hj
  have hI := @Linked.insert nb _ _ hU (fun i => (hnd i).erase b)
    (fun i j c hi hj => hdj i j c (List.mem_of_mem_erase hi) (List.mem_of_mem_erase hj))
    b h (fun i hi => ((hnd i).mem_erase_iff.1 hi).1 rfl) hh
  intro i hi
  rw [h1 i]
  exact hI i hi

/-- The first loop of `binit` makes every sentinel its own `next` and
`prev`. -/
theorem initHeads_fold (L : Links) (k : Nat) :
    ∀ i, i < k →
      ((List.range k).foldl
        (fun L i => (L.setPrev (.head i) (.head i)).setNext (.head i) (.head i)) L).next
          (.head i) = .head i ∧
      ((List.range k).foldl
        (fun L i => (L.setPrev (.head i) (.head i)).setNext (.head i) (.head i)) L).prev
          (.head i) = .head i := by
  induction k with
  | zero => intro i hi; omega
  | succ k ih =>
    intro i hi
    rw [List.range_succ, List.foldl_append]
    simp only [List.foldl_cons, List.foldl_nil, setNext_next, setNext_prev, setPrev_prev,
      setPrev_next]
    by_cases hik : i = k
    · subst hik; simp
    · have : Node.head i ≠ Node.head k := fun e => hik (by injection e)
      rw [if_neg this, if_neg this]
      exact ih i (by omega)

/-- The link fields built by `binit` hold the lists built by `binit`. -/
theorem binitLinks_fold (disk : Nat → Nat → Nat) {nb : Nat} (hnb : 0 < nb) (L0 : Links)
    (k : Nat) :
    Linked nb
      ((List.range k).foldl (fun L i => insertHead L (i % nb) i)
        ((List.range nb).foldl
          (fun L i => (L.setPrev (.head i) (.head i)).setNext (.head i) (.head i)) L0))
      ((List.range k).foldl (fun s i => pushHead s (i % nb) i)
        { Bcache.zero with disk := disk }).hashbucket := by
  induction k with
  | zero =>
    intro i hi
    simp only [List.range_zero, List.foldl_nil]
    exact initHeads_fold L0 nb i hi
  | succ k ih =>
    obtain ⟨_, _, _, h4, h5⟩ := binitOn_fold disk nb k
    rw [List.range_succ, List.foldl_append, List.foldl_append]
    simp only [List.foldl_cons, List.foldl_nil]
    have hI := @Linked.insert nb _ _ ih h4
      (fun i j c hi hj => by rw [← ((h5 i c).1 hi).2, ← ((h5 j c).1 hj).2])
      k (k % nb) (fun i hi => by have := ((h5 i k).1 hi).1; omega) (Nat.mod_lt _ hnb)
    intro i hi
    have := hI i hi
    simp only [pushHead, upd_apply]
    exact this

theorem binitLinks_linked (disk : Nat → Nat → Nat) {nb : Nat} (hnb : 0 < nb) (nbuf : Nat)
    (L0 : Links) :
    Linked nb (binitLinks nb nbuf L0) (binitOn disk nb nbuf).hashbucket :=
  binitLinks_fold disk hnb L0 nbuf

/-- A list without repetition of numbers below `n` has at most `n` elements. -/
theorem length_le_of_nodup {l : List Nat} {n : Nat} (hnd : l.Nodup) (hb : ∀ x ∈ l, x < n) :
    l.length ≤ n := by
  have h1 : l.toFinset ⊆ Finset.range n := by
    intro x hx
    rw [List.mem_toFinset] at hx
    exact Finset.mem_range.2 (hb x hx)
  have h2 := Finset.card_le_card h1
  rw [List.toFinset_card_of_nodup hnd, Finset.card_range] at h2
  exact h2

/-- A bucket list has at most `nbuf` slots. -/
theorem Inv.length_le {nb nbuf : Nat} {s : Bcache} (hI : Inv nb nbuf s) (i : Nat) :
    (s.hashbucket i).length ≤ nbuf :=
  length_le_of_nodup (hI.nodup i) (fun x hx => (hI.bound i x hx).1)

/-- On linked lists the loop that follows `next` from the sentinel finds what
`scanHit` finds, in at most `nbuf + 1` steps. -/
theorem search_next {nb nbuf : Nat} {s : Bcache} {L : Links} (hI : Inv nb nbuf s)
    (hL : Linked nb L s.hashbucket) {i : Nat} (hi : i < nb) (P : Nat → Bool) :
    search L.next i P (nbuf + 1) (L.next (.head i)) = some ((s.hashbucket i).find? P) :=
  search_of_walk P _ _ _
    (walk_next _ _ _ (hL i hi) (Nat.lt_succ_of_le (hI.length_le i)))

/-- On linked lists the loop that follows `prev` from the sentinel finds what
`scanFree` finds, in at most `nbuf + 1` steps. -/
theorem search_prev {nb nbuf : Nat} {s : Bcache} {L : Links} (hI : Inv nb nbuf s)
    (hL : Linked nb L s.hashbucket) {i : Nat} (hi : i < nb) (P : Nat → Bool) :
    search L.prev i P (nbuf + 1) (L.prev (.head i)) =
      some ((s.hashbucket i).reverse.find? P) :=
  search_of_walk P _ _ _
    (walk_prev _ _ _ (hL i hi) (Nat.lt_succ_of_le (hI.length_le i)))

/-- On linked lists the loop over the other buckets finds on the link fields
what `scanOthers` finds on the lists. -/
theorem othersLinks_eq {nb nbuf : Nat} {s : Bcache} {L : Links} (hI : Inv nb nbuf s)
    (hL : Linked nb L s.hashbucket) (h : Nat) :
    ∀ (is : List Nat), (∀ i ∈ is, i < nb) →
      othersLinks nbuf s.buf L h is = some ((scanOthers s h is).map Prod.snd) := by
  intro is
  induction is with
  | nil => intro _; rfl
  | cons i rest ih =>
    intro hb
    have ih := ih (fun j hj => hb j (List.mem_cons_of_mem _ hj))
    unfold othersLinks scanOthers
    by_cases hih : i = h
    · rw [if_pos hih, if_pos hih]; exact ih
    · rw [if_neg hih, if_neg hih, search_prev hI hL (hb i (List.mem_cons_self _ _))]
      show (match some (scanFree s.buf (s.hashbucket i)) with
        | none => none
        | some (some b) => some (some b)
        | some none => othersLinks nbuf s.buf L h rest) = _
      cases hf : scanFree s.buf (s.hashbucket i) with
      | some b => rfl
      | none => exact ih

/-- The link fields follow the lists through `bget`: on linked lists the
loops of `bget` return to their sentinels, and the link fields after the call
hold the lists after the call. -/
theorem bgetLinks_linked {nb nbuf : Nat} (hnb : 0 < nb) {s : Bcache} {L : Links}
    (hI : Inv nb nbuf s) (hL : Linked nb L s.hashbucket) {dev blockno b : Nat} {s0 : Bcache}
    (hc : BgetCase nb s dev blockno b s0) :
    ∃ L1, bgetLinks nb nbuf s.buf L dev blockno = some L1 ∧ Linked nb L1 s0.hashbucket := by
  have hh : blockno % nb < nb := Nat.mod_lt _ hnb
  have e1 := search_next hI hL hh
    (fun b => decide ((s.buf b).dev = dev ∧ (s.buf b).blockno = blockno))
  have e2 := search_prev hI hL hh (fun b => decide ((s.buf b).refcnt = 0))
  have e3 := othersLinks_eq hI hL (blockno % nb) (List.range nb)
    (fun i hi => List.mem_range.1 hi)
  change search L.next _ _ _ _ = some (scanHit s.buf dev blockno _) at e1
  change search L.prev _ _ _ _ = some (scanFree s.buf _) at e2
  cases hc with
  | hit b h1 =>
    refine ⟨L, ?_, hL⟩
    simp only [bgetLinks, e1, h1]
  | recycle b h1 h2 =>
    refine ⟨L, ?_, hL⟩
    simp only [bgetLinks, e1, h1, e2, h2]
  | steal i b h1 h2 h3 =>
    refine ⟨insertHead (unlinkNode L b) (blockno % nb) b, ?_, ?_⟩
    · simp only [bgetLinks, e1, h1, e2, h2, e3, h3, Option.map_some']
    · obtain ⟨hi, _, hf⟩ := scanOthers_some h3
      refine hL.moved hI.nodup hI.disj (scanFree_some hf).2 (List.mem_range.1 hi) hh ?_
      intro j
      simp [pushHead, stamp, unlink, Bcache.setBuf, upd_apply]

/-- The link fields follow the lists through every completed call. -/
theorem linksAfter_linked {nb nbuf : Nat} (hnb : 0 < nb) {s s1 : Bcache} {L : Links}
    (hI : Inv nb nbuf s) (hL : Linked nb L s.hashbucket) {op : Op}
    (hs : step nb s op = some s1) :
    ∃ L1, linksAfter nb nbuf s L op = some L1 ∧ Linked nb L1 s1.hashbucket := by
  cases op with
  | bread p dev blockno =>
    obtain ⟨b, s0, hc, _, hhb, _⟩ := step_bread hs
    obtain ⟨L1, h1, h2⟩ := bgetLinks_linked hnb hI hL hc
    exact ⟨L1, h1, by rw [hhb]; exact h2⟩
  | bwrite p b =>
    refine ⟨L, rfl, ?_⟩
    simp only [step, bwrite] at hs
    by_cases hh : holdingsleep s p b = true
    · simp [hh] at hs
      subst hs
      simpa [virtio_disk_rw] using hL
    · simp [hh] at hs
  | brelse p b =>
    simp only [step] at hs
    by_cases hr : 0 < (s.buf b).refcnt
    · rw [if_pos hr] at hs
      by_cases hh : (s.buf b).lock = some p
      · rw [brelse_held hh] at hs
        have hhs : holdingsleep s p b = true := by simp [holdingsleep, hh]
        by_cases h0 : (s.buf b).refcnt - 1 = 0
        · rw [if_pos h0] at hs
          simp only [Option.some.injEq] at hs
          subst hs
          refine ⟨_, rfl, ?_⟩
          simp only [brelseLinks, hhs, Bool.not_true, Bool.false_eq_true, if_false, if_pos h0]
          refine hL.moved hI.nodup hI.disj (hI.loc b (by omega))
            (Nat.mod_lt _ hnb) (Nat.mod_lt _ hnb) ?_
          intro j
          simp [pushHead, unlink, Bcache.setBuf, upd_apply]
        · rw [if_neg h0] at hs
          simp only [Option.some.injEq] at hs
          subst hs
          refine ⟨_, rfl, ?_⟩
          simp only [brelseLinks, hhs, Bool.not_true, Bool.false_eq_true, if_false, if_neg h0]
          exact hL
      · rw [brelse_not_held hh] at hs
        simp at hs
    · rw [if_neg hr] at hs
      simp at hs
  | bpin b =>
    refine ⟨L, rfl, ?_⟩
    simp only [step] at hs
    by_cases hr : 0 < (s.buf b).refcnt
    · rw [if_pos hr] at hs
      simp only [Option.some.injEq] at hs
      subst hs
      exact hL
    · rw [if_neg hr] at hs
      simp at hs
  | bunpin b =>
    refine ⟨L, rfl, ?_⟩
    simp only [step] at hs
    by_cases hr : 0 < (s.buf b).refcnt
    · rw [if_pos hr] at hs
      simp only [Option.some.injEq] at hs
      subst hs
      exact hL
    · rw [if_neg hr] at hs
      simp at hs
  | modify p b c =>
    refine ⟨L, rfl, ?_⟩
    simp only [step] at hs
    by_cases hh : holdingsleep s p b = true
    · rw [if_pos hh] at hs
      simp only [Option.some.injEq] at hs
      subst hs
      exact hL
    · rw [if_neg hh] at hs
      simp at hs

/-- Every reachable cache is a reachable state of the lists, and its link
fields hold these lists. -/
theorem ReachableL.linked {nb nbuf : Nat} (hnb : 0 < nb) {s : Bcache} {L : Links}
    (h : ReachableL nb nbuf s L) : Reachable nb nbuf s ∧ Linked nb L s.hashbucket := by
  induction h with
  | init disk L0 => exact ⟨Reachable.init disk, binitLinks_linked disk hnb nbuf L0⟩
  | step op _ hs hl ih =>
    obtain ⟨L1, h1, h2⟩ := linksAfter_linked hnb (Reachable.inv hnb ih.1) ih.2 hs
    rw [hl] at h1
    injection h1 with h1
    subst h1
    exact ⟨Reachable.step op ih.1 hs, h2⟩

/-- After `k` rounds of the second loop of `binit` the lists of the first
`k % nb` buckets are one slot longer than the others. -/
theorem binitOn_length (disk : Nat → Nat → Nat) {nb : Nat} (hnb : 0 < nb) (k : Nat) :
    ∃ q, ∀ j, j < nb →
      (((List.range k).foldl (fun s i => pushHead s (i % nb) i)
        { Bcache.zero with disk := disk }).hashbucket j).length =
        q + if j < k % nb then 1 else 0 := by
  induction k with
  | zero =>
    refine ⟨0, fun j _ => ?_⟩
    simp [Bcache.zero]
  | succ k ih =>
    obtain ⟨q, hq⟩ := ih
    rw [List.range_succ, List.foldl_append]
    simp only [List.foldl_cons, List.foldl_nil]
    have hr : k % nb < nb := Nat.mod_lt _ hnb
    have hm : (k + 1) % nb = (k % nb + 1) % nb := (Nat.mod_add_mod k nb 1).symm
    by_cases hlt : k % nb + 1 < nb
    · rw [hm, Nat.mod_eq_of_lt hlt]
      refine ⟨q, fun j hj => ?_⟩
      by_cases hjk : j = k % nb
      · subst hjk
        rw [pushHead_hashbucket_same, List.length_cons, hq _ hj]
        simp
      · rw [pushHead_hashbucket_other _ _ _ _ hjk, hq _ hj]
        by_cases h1 : j < k % nb
        · rw [if_pos h1, if_pos (by omega)]
        · rw [if_neg h1, if_neg (by omega)]
    · have he : k % nb + 1 = nb := by omega
      rw [hm, he, Nat.mod_self]
      refine ⟨q + 1, fun j hj => ?_⟩
      by_cases hjk : j = k % nb
      · subst hjk
        rw [pushHead_hashbucket_same, List.length_cons, hq _ hj]
        simp
      · rw [pushHead_hashbucket_other _ _ _ _ hjk, hq _ hj]
        rw [if_pos (by omega)]
        simp

/-- The slots of the lists of the buckets are `nbuf` in all. -/
theorem Inv.total {nb nbuf : Nat} {s : Bcache} (hI : Inv nb nbuf s) :
    (Finset.range nb).sum (fun i => (s.hashbucket i).length) = nbuf := by
  have h1 : (Finset.range nb).biUnion (fun i => (s.hashbucket i).toFinset) =
      Finset.range nbuf := by
    ext b
    simp only [Finset.mem_biUnion, Finset.mem_range, List.mem_toFinset]
    constructor
    · rintro ⟨i, _, hb⟩
      exact (hI.bound i b hb).1
    · intro hb
      exact hI.cover b hb
  have h2 := Finset.card_biUnion
    (s := Finset.range nb) (t := fun i => (s.hashbucket i).toFinset)
    (fun i _ j _ hij => by
      rw [Finset.disjoint_left]
      intro b hbi hbj
      rw [List.mem_toFinset] at hbi hbj
      exact hij (hI.disj i j b hbi hbj))
  rw [h1, Finset.card_range] at h2
  rw [h2]
  exact Finset.sum_congr rfl (fun i _ => (List.toFinset_card_of_nodup (hI.nodup i)).symm)

/-- On linked lists `next` and `prev` are inverse of each other on every
sentinel and every slot, and neither is null there. -/
theorem Linked.inverse {nb nbuf : Nat} {s : Bcache} {L : Links} (hI : Inv nb nbuf s)
    (hL : Linked nb L s.hashbucket) (a : Node)
    (ha : (∃ i, i < nb ∧ a = .head i) ∨ (∃ b, b < nbuf ∧ a = .slot b)) :
    L.prev (L.next a) = a ∧ L.next (L.prev a) = a ∧
      L.next a ≠ .null ∧ L.prev a ≠ .null := by
  have key : ∀ (l : List Nat) (x z : Node), z ≠ .null → Chain L x l z → L.next x ≠ .null := by
    intro l x z hz hc
    rcases (Chain.first_link hc).1 with e | ⟨c, _, e⟩
    · rw [e]; exact hz
    · rw [e]; exact fun e => by cases e
  have key2 : ∀ (l : List Nat) (x z : Node), x ≠ .null → Chain L x l z → L.prev z ≠ .null := by
    intro l x z hx hc
    rcases (Chain.last_link _ _ _ hc).1 with e | ⟨c, _, e⟩
    · rw [e]; exact hx
    · rw [e]; exact fun e => by cases e
  rcases ha with ⟨i, hi, rfl⟩ | ⟨b, hb, rfl⟩
  · exact ⟨(Chain.first_link (hL i hi)).2, (Chain.last_link _ _ _ (hL i hi)).2,
      key _ _ _ (fun e => by cases e) (hL i hi), key2 _ _ _ (fun e => by cases e) (hL i hi)⟩
  · obtain ⟨i, hi, hbi⟩ := hI.cover b hb
    obtain ⟨l1, l2, hl⟩ := List.append_of_mem hbi
    have hc := hL i hi
    rw [hl] at hc
    have hs := (Chain.split_at l1 (.head i)).1 hc
    exact ⟨(Chain.first_link hs.2).2, (Chain.last_link _ _ _ hs.1).2,
      key _ _ _ (fun e => by cases e) hs.2, key2 _ _ _ (fun e => by cases e) hs.1⟩

/-- On linked lists the loops that follow `next` and `prev` from a sentinel
come back to it, having visited the slots of its list, forwards and
backwards. -/
theorem Linked.walks {nb nbuf : Nat} {s : Bcache} {L : Links} (hI : Inv nb nbuf s)
    (hL : Linked nb L s.hashbucket) {i : Nat} (hi : i < nb) :
    walk L.next i (nbuf + 1) (L.next (.head i)) = some (s.hashbucket i) ∧
    walk L.prev i (nbuf + 1) (L.prev (.head i)) = some (s.hashbucket i).reverse :=
  ⟨walk_next _ _ _ (hL i hi) (Nat.lt_succ_of_le (hI.length_le i)),
    walk_prev _ _ _ (hL i hi) (Nat.lt_succ_of_le (hI.length_le i))⟩

/-- C12: initialization.  After `binit` with `nb > 0` buckets and `nbuf` slots,
whatever the disk and the link fields before: the loop that follows `next`
from the sentinel of a bucket comes back to it having visited the slots of its
list, the loop that follows `prev` visits them in reverse order, and `next`
and `prev` are inverse of each other and not null on every sentinel and slot
(each list is a well-formed circular doubly-linked list); the list of bucket
`i` holds, once each, exactly the slots `b < nbuf` with `b % nb = i`, so slot
`b` is in the list of bucket `b % nb` and in no other; the lengths of two
lists differ by at most 1; every slot has `refcnt = 0` and a free content
lock; and nothing was read from or written to the disk. -/
theorem binit_post {nb : Nat} (hnb : 0 < nb) (nbuf : Nat) (disk : Nat → Nat → Nat)
    (L0 : Links) :
    (∀ i, i < nb →
      walk (binitLinks nb nbuf L0).next i (nbuf + 1) ((binitLinks nb nbuf L0).next (.head i)) =
        some ((binitOn disk nb nbuf).hashbucket i) ∧
      walk (binitLinks nb nbuf L0).prev i (nbuf + 1) ((binitLinks nb nbuf L0).prev (.head i)) =
        some ((binitOn disk nb nbuf).hashbucket i).reverse) ∧
    (∀ a, ((∃ i, i < nb ∧ a = Node.head i) ∨ (∃ b, b < nbuf ∧ a = Node.slot b)) →
      (binitLinks nb nbuf L0).prev ((binitLinks nb nbuf L0).next a) = a ∧
      (binitLinks nb nbuf L0).next ((binitLinks nb nbuf L0).prev a) = a ∧
      (binitLinks nb nbuf L0).next a ≠ Node.null ∧
      (binitLinks nb nbuf L0).prev a ≠ Node.null) ∧
    (∀ i, i < nb → ((binitOn disk nb nbuf).hashbucket i).Nodup ∧
      ∀ b, b ∈ (binitOn disk nb nbuf).hashbucket i ↔ b < nbuf ∧ b % nb = i) ∧
    (∀ b, b < nbuf → b ∈ (binitOn disk nb nbuf).hashbucket (b % nb) ∧
      ∀ i, b ∈ (binitOn disk nb nbuf).hashbucket i → i = b % nb) ∧
    (∀ i j, i < nb → j < nb →
      ((binitOn disk nb nbuf).hashbucket i).length ≤
        ((binitOn disk nb nbuf).hashbucket j).length + 1) ∧
    (∀ b, ((binitOn disk nb nbuf).buf b).refcnt = 0 ∧
      ((binitOn disk nb nbuf).buf b).lock = none) ∧
    (binitOn disk nb nbuf).log = [] ∧ (binitOn disk nb nbuf).disk = disk := by
  obtain ⟨h1, h2, h3, h4, h5⟩ := binitOn_spec disk nb nbuf
  have hI := Inv.binitOn disk hnb nbuf
  have hL := binitLinks_linked disk hnb nbuf L0
  refine ⟨fun i hi => Linked.walks hI hL hi, fun a ha => Linked.inverse hI hL a ha,
    fun i _ => ⟨h4 i, h5 i⟩, fun b hb => ⟨(h5 _ b).2 ⟨hb, rfl⟩, fun i hi => ((h5 i b).1 hi).2.symm⟩,
    ?_, ?_, h2, h3⟩
  · intro i j hi hj
    obtain ⟨q, hq⟩ := binitOn_length disk hnb nbuf
    have ei := hq i hi
    have ej := hq j hj
    change ((binitOn disk nb nbuf).hashbucket i).length = _ at ei
    change ((binitOn disk nb nbuf).hashbucket j).length = _ at ej
    rw [ei, ej]
    split <;> split <;> omega
  · intro b
    rw [h1]
    exact ⟨rfl, rfl⟩

/-- Witness of C12: 13 buckets and 30 slots, the link fields all null before
`binit`. -/
theorem binit_post_witness :
    (∀ i, i < 13 →
      walk (binitLinks 13 30 Links.zero).next i (30 + 1)
          ((binitLinks 13 30 Links.zero).next (.head i)) =
        some ((binitOn (fun _ _ => 0) 13 30).hashbucket i) ∧
      walk (binitLinks 13 30 Links.zero).prev i (30 + 1)
          ((binitLinks 13 30 Links.zero).prev (.head i)) =
        some ((binitOn (fun _ _ => 0) 13 30).hashbucket i).reverse) ∧
    (∀ a, ((∃ i, i < 13 ∧ a = Node.head i) ∨ (∃ b, b < 30 ∧ a = Node.slot b)) →
      (binitLinks 13 30 Links.zero).prev ((binitLinks 13 30 Links.zero).next a) = a ∧
      (binitLinks 13 30 Links.zero).next ((binitLinks 13 30 Links.zero).prev a) = a ∧
      (binitLinks 13 30 Links.zero).next a ≠ Node.null ∧
      (binitLinks 13 30 Links.zero).prev a ≠ Node.null) ∧
    (∀ i, i < 13 → ((binitOn (fun _ _ => 0) 13 30).hashbucket i).Nodup ∧
      ∀ b, b ∈ (binitOn (fun _ _ => 0) 13 30).hashbucket i ↔ b < 30 ∧ b % 13 = i) ∧
    (∀ b, b < 30 → b ∈ (binitOn (fun _ _ => 0) 13 30).hashbucket (b % 13) ∧
      ∀ i, b ∈ (binitOn (fun _ _ => 0) 13 30).hashbucket i → i = b % 13) ∧
    (∀ i j, i < 13 → j < 13 →
      ((binitOn (fun _ _ => 0) 13 30).hashbucket i).length ≤
        ((binitOn (fun _ _ => 0) 13 30).hashbucket j).length + 1) ∧
    (∀ b, ((binitOn (fun _ _ => 0) 13 30).buf b).refcnt = 0 ∧
      ((binitOn (fun _ _ => 0) 13 30).buf b).lock = none) ∧
    (binitOn (fun _ _ => 0) 13 30).log = [] ∧
    (binitOn (fun _ _ => 0) 13 30).disk = (fun _ _ => 0) :=
  binit_post (by decide) 30 (fun _ _ => 0) Links.zero

/-- C14: the structural invariant.  A call (`bread`, `bwrite`, `brelse`, `bpin`,
`bunpin`, or a change of content by the lock holder) that runs to completion
under the caller discipline in a cache reached from `binit` leaves link fields
(the loops of `bget` come back to their sentinels) in which: following `next`
from the sentinel of each of the `nb` buckets comes back to the sentinel
having visited the slots of its list, following `prev` visits them in reverse
order, `next` and `prev` are inverse of each other and not null on every
sentinel and slot; no list holds a slot twice, every one of the `nbuf` slots
is in the list of exactly one bucket; and the lists hold `nbuf` slots in
all. -/
theorem structural_invariant {nb nbuf : Nat} (hnb : 0 < nb) {s s1 : Bcache} {L : Links}
    (h : ReachableL nb nbuf s L) {op : Op} (hs : step nb s op = some s1) :
    ∃ L1, linksAfter nb nbuf s L op = some L1 ∧
      (∀ i, i < nb →
        walk L1.next i (nbuf + 1) (L1.next (.head i)) = some (s1.hashbucket i) ∧
        walk L1.prev i (nbuf + 1) (L1.prev (.head i)) = some (s1.hashbucket i).reverse) ∧
      (∀ a, ((∃ i, i < nb ∧ a = Node.head i) ∨ (∃ b, b < nbuf ∧ a = Node.slot b)) →
        L1.prev (L1.next a) = a ∧ L1.next (L1.prev a) = a ∧
        L1.next a ≠ Node.null ∧ L1.prev a ≠ Node.null) ∧
      (∀ i, (s1.hashbucket i).Nodup) ∧
      (∀ b, b < nbuf →
        ∃ i, i < nb ∧ b ∈ s1.hashbucket i ∧ ∀ j, b ∈ s1.hashbucket j → j = i) ∧
      (Finset.range nb).sum (fun i => (s1.hashbucket i).length) = nbuf := by
  obtain ⟨hR, hL⟩ := h.linked hnb
  have hI := Reachable.inv hnb hR
  obtain ⟨L1, h1, h2⟩ := linksAfter_linked hnb hI hL hs
  have hI1 := Reachable.inv hnb (Reachable.step op hR hs)
  refine ⟨L1, h1, fun i hi => Linked.walks hI1 h2 hi, fun a ha => Linked.inverse hI1 h2 a ha,
    hI1.nodup, ?_, hI1.total⟩
  intro b hb
  obtain ⟨i, hi, hbi⟩ := hI1.cover b hb
  exact ⟨i, hi, hbi, fun j hj => hI1.disj j i b hj hbi⟩

/-- Witness of C14: 2 buckets and 4 slots, the blocks `(1, 0)` and `(1, 2)`
held in the two slots of bucket 0; `bread(1, 4)` then takes slot 1 out of the
list of bucket 1 and inserts it at the head of the list of bucket 0. -/
theorem structural_invariant_witness :
    ∃ L1, linksAfter 2 4 (bread 2 (bread 2 (binit 2 4) 7 1 0).state 7 1 2).state
        (binitLinks 2 4 Links.zero) (Op.bread 7 1 4) = some L1 ∧
      (∀ i, i < 2 →
        walk L1.next i (4 + 1) (L1.next (.head i)) =
          some ((bread 2 (bread 2 (bread 2 (binit 2 4) 7 1 0).state 7 1 2).state 7 1 4).state.hashbucket
            i) ∧
        walk L1.prev i (4 + 1) (L1.prev (.head i)) =
          some ((bread 2 (bread 2 (bread 2 (binit 2 4) 7 1 0).state 7 1 2).state 7 1 4).state.hashbucket
            i).reverse) ∧
      (∀ a, ((∃ i, i < 2 ∧ a = Node.head i) ∨ (∃ b, b < 4 ∧ a = Node.slot b)) →
        L1.prev (L1.next a) = a ∧ L1.next (L1.prev a) = a ∧
        L1.next a ≠ Node.null ∧ L1.prev a ≠ Node.null) ∧
      (∀ i, ((bread 2 (bread 2 (bread 2 (binit 2 4) 7 1 0).state 7 1 2).state 7 1 4).state.hashbucket
        i).Nodup) ∧
      (∀ b, b < 4 →
        ∃ i, i < 2 ∧
          b ∈ (bread 2 (bread 2 (bread 2 (binit 2 4) 7 1 0).state 7 1 2).state 7 1 4).state.hashbucket
            i ∧
          ∀ j, b ∈ (bread 2 (bread 2 (bread 2 (binit 2 4) 7 1 0).state 7 1 2).state 7 1
            4).state.hashbucket j → j = i) ∧
      (Finset.range 2).sum (fun i =>
        ((bread 2 (bread 2 (bread 2 (binit 2 4) 7 1 0).state 7 1 2).state 7 1 4).state.hashbucket
          i).length) = 4 :=
  @structural_invariant 2 4 (by decide)
    (bread 2 (bread 2 (binit 2 4) 7 1 0).state 7 1 2).state
    (bread 2 (bread 2 (bread 2 (binit 2 4) 7 1 0).state 7 1 2).state 7 1 4).state
    (binitLinks 2 4 Links.zero)
    (@ReachableL.step 2 4 (bread 2 (binit 2 4) 7 1 0).state _ (binitLinks 2 4 Links.zero) _
      (Op.bread 7 1 2)
      (@ReachableL.step 2 4 (binit 2 4) _ (binitLinks 2 4 Links.zero) _ (Op.bread 7 1 0)
        (ReachableL.init (fun _ _ => 0) Links.zero) rfl rfl)
      rfl rfl)
    (Op.bread 7 1 4) rfl

/-- The cross-bucket path on the link fields: in the cache of the witness of
C14 the list of bucket 0 is then slot 1, slot 2, slot 0, and the list of
bucket 1 is slot 3. -/
theorem steal_links_example :
    (linksAfter 2 4 (bread 2 (bread 2 (binit 2 4) 7 1 0).state 7 1 2).state
        (binitLinks 2 4 Links.zero) (Op.bread 7 1 4)).bind
      (fun L1 => walk L1.next 0 5 (L1.next (.head 0))) = some [1, 2, 0] ∧
    (linksAfter 2 4 (bread 2 (bread 2 (binit 2 4) 7 1 0).state 7 1 2).state
        (binitLinks 2 4 Links.zero) (Op.bread 7 1 4)).bind
      (fun L1 => walk L1.prev 0 5 (L1.prev (.head 0))) = some [0, 2, 1] ∧
    (linksAfter 2 4 (bread 2 (bread 2 (binit 2 4) 7 1 0).state 7 1 2).state
        (binitLinks 2 4 Links.zero) (Op.bread 7 1 4)).bind
      (fun L1 => walk L1.next 1 5 (L1.next (.head 1))) = some [3] := by
  decide

/-! ## Callers asleep in `bread`: elementary facts -/

/-- The slot of `bgetSlot` is the slot `bget` chooses. -/
theorem bgetSlot_of_case {nb : Nat} {s : Bcache} {dev blockno b : Nat} {s0 : Bcache}
    (hc : BgetCase nb s dev blockno b s0) : bgetSlot nb s dev blockno = some b := by
  cases hc with
  | hit _ h1 => simp [bgetSlot, h1]
  | recycle _ h1 h2 => simp [bgetSlot, h1, h2]
  | steal i _ h1 h2 h3 => simp [bgetSlot, h1, h2, h3]

/-- The function `bread` is `bget` up to its `acquiresleep`, followed by what
a woken sleeper does. -/
theorem bread_eq_wake {nb : Nat} {s : Bcache} {dev blockno b : Nat} {s0 : Bcache}
    (hc : BgetCase nb s dev blockno b s0) (p : Nat) :
    bread nb s p dev blockno = breadWake s0 p b := by
  have hg : bget nb s p dev blockno = acquiresleep s0 p b := by
    cases hc with
    | hit _ h1 => simp [bget, h1]
    | recycle _ h1 h2 => simp [bget, h1, h2]
    | steal i _ h1 h2 h3 => simp [bget, h1, h2, h3]
  simp only [bread, breadWake, hg]

/-- A woken sleeper that finds the lock free takes it and returns. -/
theorem breadWake_free {s : Bcache} {p b : Nat} (hl : (s.buf b).lock = none) :
    breadWake s p b =
      if (s.buf b).valid = 0 then
        .ok b ((virtio_disk_rw (s.setBuf b { s.buf b with lock := some p }) b false).setBuf b
          { (virtio_disk_rw (s.setBuf b { s.buf b with lock := some p }) b false).buf b with
            valid := 1 })
      else .ok b (s.setBuf b { s.buf b with lock := some p }) := by
  simp [breadWake, acquiresleep, hl]

/-- A woken sleeper that finds the lock held sleeps on. -/
theorem breadWake_held {s : Bcache} {p b : Nat} (hl : (s.buf b).lock ≠ none) :
    breadWake s p b = .blocked s := by
  cases h : (s.buf b).lock with
  | none => exact absurd h hl
  | some q => simp [breadWake, acquiresleep, h]

/-- What a woken sleeper that returns has done: it found the lock free and
took it, read the block from the disk if the slot was not valid, and set
`valid`; nothing else changed. -/
theorem breadWake_ok {s s2 : Bcache} {p b c : Nat} (h : breadWake s p b = .ok c s2) :
    c = b ∧ (s.buf b).lock = none ∧
    (s2.buf b).dev = (s.buf b).dev ∧ (s2.buf b).blockno = (s.buf b).blockno ∧
    (s2.buf b).refcnt = (s.buf b).refcnt ∧ (s2.buf b).lock = some p ∧
    ((s.buf b).valid ≠ 0 → s2 = s.setBuf b { s.buf b with lock := some p }) ∧
    ((s.buf b).valid = 0 → (s2.buf b).valid = 1 ∧
      s2.log = s.log ++ [DiskEvent.read (s.buf b).dev (s.buf b).blockno] ∧
      (s2.buf b).data = s.disk (s.buf b).dev (s.buf b).blockno) ∧
    (∀ x, x ≠ b → s2.buf x = s.buf x) ∧ s2.hashbucket = s.hashbucket ∧ s2.disk = s.disk := by
  by_cases hl : (s.buf b).lock = none
  · rw [breadWake_free hl] at h
    by_cases hv : (s.buf b).valid = 0
    · rw [if_pos hv] at h
      simp only [Outcome.ok.injEq] at h
      obtain ⟨rfl, rfl⟩ := h
      refine ⟨rfl, hl, by simp [virtio_disk_rw], by simp [virtio_disk_rw],
        by simp [virtio_disk_rw], by simp [virtio_disk_rw], fun h => absurd hv h,
        fun _ => ⟨by simp, by simp [virtio_disk_rw], by simp [virtio_disk_rw]⟩,
        fun x hx => by simp [virtio_disk_rw, hx], by simp [virtio_disk_rw],
        by simp [virtio_disk_rw]⟩
    · rw [if_neg hv] at h
      simp only [Outcome.ok.injEq] at h
      obtain ⟨rfl, rfl⟩ := h
      exact ⟨rfl, hl, by simp, by simp, by simp, by simp, fun _ => rfl,
        fun h => absurd h hv, fun x hx => by simp [hx], rfl, rfl⟩
  · rw [breadWake_held hl] at h
    simp at h

/-- A `bread` that sleeps has gone one of the three ways of `BgetCase` and
found the lock of the chosen slot held. -/
theorem bread_blocked {nb : Nat} {s s1 : Bcache} {p dev blockno : Nat}
    (h : bread nb s p dev blockno = .blocked s1) :
    ∃ b, BgetCase nb s dev blockno b s1 ∧ (s1.buf b).lock ≠ none := by
  rcases bget_cases nb s p dev blockno with ⟨b, s0, hc, hg⟩ | ⟨_, _, _, hg⟩
  · rw [bread_eq_wake hc p] at h
    by_cases hl : (s0.buf b).lock = none
    · rw [breadWake_free hl] at h
      split at h <;> simp at h
    · rw [breadWake_held hl] at h
      simp only [Outcome.blocked.injEq] at h
      subst h
      exact ⟨b, hc, hl⟩
  · simp [bread, hg] at h

/-- In a reachable state every referenced slot is valid. -/
theorem Reachable.referenced_valid {nb nbuf : Nat} (hnb : 0 < nb) {s : Bcache}
    (hs : Reachable nb nbuf s) : ∀ b, (s.buf b).refcnt ≠ 0 → (s.buf b).valid = 1 := by
  induction hs with
  | init disk =>
    intro b hb
    rw [(binitOn_spec disk nb nbuf).1] at hb
    exact absurd rfl hb
  | @step s s1 op hprev h ih =>
    have hI := hprev.inv hnb
    intro c hc
    cases op with
    | bread p dev blockno =>
      obtain ⟨b, s0, hcase, hbr, _, hf, ho, _⟩ := step_bread h
      by_cases hcb : c = b
      · subst hcb
        exact (bread_cached hI hbr).2.2.2.1
      · rw [ho c hcb, hcase.frame.1 c hcb] at hc ⊢
        exact ih c hc
    | bwrite p b =>
      have hf := (step_fields h (fun _ _ _ he => Op.noConfusion he)).1 c
      simp only [BufCache.step, BufCache.bwrite] at h
      by_cases hh : holdingsleep s p b = true
      · simp [hh] at h
        subst h
        exact ih c (by simpa [virtio_disk_rw] using hc)
      · simp [hh] at h
    | brelse p b =>
      have hf := (step_fields h (fun _ _ _ he => Op.noConfusion he)).1 c
      rw [hf.2.2]
      simp only [BufCache.step] at h
      by_cases hr : 0 < (s.buf b).refcnt
      · rw [if_pos hr] at h
        by_cases hcb : c = b
        · subst hcb; exact ih c (by omega)
        · refine ih c ?_
          by_cases hl : (s.buf b).lock = some p
          · rw [brelse_held hl] at h
            by_cases h0 : (s.buf b).refcnt - 1 = 0
            · rw [if_pos h0] at h
              simp only [Option.some.injEq] at h
              subst h
              simpa [hcb] using hc
            · rw [if_neg h0] at h
              simp only [Option.some.injEq] at h
              subst h
              simpa [hcb] using hc
          · rw [brelse_not_held hl] at h
            simp at h
      · rw [if_neg hr] at h
        simp at h
    | bpin b =>
      have hf := (step_fields h (fun _ _ _ he => Op.noConfusion he)).1 c
      rw [hf.2.2]
      simp only [BufCache.step] at h
      by_cases hr : 0 < (s.buf b).refcnt
      · rw [if_pos hr] at h
        simp only [Option.some.injEq] at h
        subst h
        by_cases hcb : c = b
        · subst hcb; exact ih c (by omega)
        · exact ih c (by simpa [BufCache.bpin, hcb] using hc)
      · rw [if_neg hr] at h
        simp at h
    | bunpin b =>
      have hf := (step_fields h (fun _ _ _ he => Op.noConfusion he)).1 c
      rw [hf.2.2]
      simp only [BufCache.step] at h
      by_cases hr : 0 < (s.buf b).refcnt
      · rw [if_pos hr] at h
        simp only [Option.some.injEq] at h
        subst h
        by_cases hcb : c = b
        · subst hcb; exact ih c (by omega)
        · exact ih c (by simpa [BufCache.bunpin, hcb] using hc)
      · rw [if_neg hr] at h
        simp at h
    | modify p b v =>
      have hf := (step_fields h (fun _ _ _ he => Op.noConfusion he)).1 c
      rw [hf.2.2]
      simp only [BufCache.step] at h
      by_cases hh : holdingsleep s p b = true
      · rw [if_pos hh] at h
        simp only [Option.some.injEq] at h
        subst h
        refine ih c ?_
        by_cases hcb : c = b
        · subst hcb; simpa [BufCache.setData] using hc
        · simpa [BufCache.setData, hcb] using hc
      · rw [if_neg hh] at h
        simp at h

/-- Taking a sleeper off the list takes one off the number of sleepers of its
slot. -/
theorem countP_erase_mem {ws : List Sleeper} {w : Sleeper} (hw : w ∈ ws) (b : Nat) :
    ws.countP (fun v => decide (v.b = b)) =
      (ws.erase w).countP (fun v => decide (v.b = b)) + (if w.b = b then 1 else 0) := by
  rw [(List.perm_cons_erase hw).countP_eq, List.countP_cons]
  simp

/-- The count of a slot through a completed call: if before the call the
count of every slot is the number of its unmatched pins, plus `k`, plus one
when its lock is held, then so it is after the call. -/
theorem step_count {nb : Nat} {s s1 : Bcache} {op : Op} (h : step nb s op = some s1)
    {pins k : Nat → Nat} (hp : ∀ b, op = Op.bunpin b → 0 < pins b)
    (ih : ∀ c, (s.buf c).refcnt =
      (pins c : Int) + (k c : Int) + (if (s.buf c).lock = none then 0 else 1)) :
    ∀ c, (s1.buf c).refcnt =
      (pinsAfter pins op c : Int) + (k c : Int) + (if (s1.buf c).lock = none then 0 else 1) := by
  intro c
  cases op with
  | bread p dev blockno =>
    obtain ⟨b, _, _, hbr, _⟩ := step_bread h
    obtain ⟨s0, hc, hl0, hl, hr, _, _, ho, _⟩ := bread_ok_fields hbr
    have hfr := hc.frame
    show (s1.buf c).refcnt = (pins c : Int) + _ + _
    by_cases hcb : c = b
    · subst hcb
      rw [hl, hr]
      have hlock : (s.buf c).lock = none := by rw [← hfr.2.1]; exact hl0
      have := ih c
      rw [hlock] at this
      cases hc with
      | hit _ hh => simp only [setBuf_buf_same]; simp at this ⊢; omega
      | recycle _ h1 h2 =>
        have h0 := (scanFree_some h2).1
        simp only [stamp_buf_same]; simp at this ⊢; omega
      | steal i _ h1 h2 h3 =>
        have h0 := (scanFree_some (scanOthers_some h3).2.2).1
        simp only [pushHead_buf, stamp_buf_same]; simp at this ⊢; omega
    · rw [ho c hcb, hfr.1 c hcb]
      exact ih c
  | bwrite p b =>
    show (s1.buf c).refcnt = (pins c : Int) + _ + _
    simp only [step, bwrite] at h
    by_cases hh : holdingsleep s p b = true
    · simp [hh] at h
      subst h
      simpa [virtio_disk_rw] using ih c
    · simp [hh] at h
  | brelse p b =>
    show (s1.buf c).refcnt = (pins c : Int) + _ + _
    simp only [step] at h
    by_cases hr : 0 < (s.buf b).refcnt
    · rw [if_pos hr] at h
      by_cases hl : (s.buf b).lock = some p
      · rw [brelse_held hl] at h
        have hb := ih b
        rw [hl] at hb
        have key : (s1.buf c).refcnt =
              (if c = b then (s.buf b).refcnt - 1 else (s.buf c).refcnt) ∧
            (s1.buf c).lock = (if c = b then none else (s.buf c).lock) := by
          by_cases h0 : (s.buf b).refcnt - 1 = 0
          · rw [if_pos h0] at h
            simp only [Option.some.injEq] at h
            subst h
            by_cases hcb : c = b
            · subst hcb; simp
            · simp [hcb]
          · rw [if_neg h0] at h
            simp only [Option.some.injEq] at h
            subst h
            by_cases hcb : c = b
            · subst hcb; simp
            · simp [hcb]
        rw [key.1, key.2]
        by_cases hcb : c = b
        · subst hcb
          simp at hb ⊢
          omega
        · simp only [hcb, if_false]
          exact ih c
      · rw [brelse_not_held hl] at h; simp at h
    · rw [if_neg hr] at h
      simp at h
  | bpin b =>
    simp only [step] at h
    by_cases hr : 0 < (s.buf b).refcnt
    · rw [if_pos hr] at h
      simp only [Option.some.injEq] at h
      subst h
      by_cases hcb : c = b
      · subst hcb
        have := ih c
        simp only [bpin, pinsAfter, setBuf_buf_same, upd_same]
        push_cast
        omega
      · simp only [bpin, pinsAfter, setBuf_buf_other _ _ _ _ hcb, upd_other _ _ _ _ hcb]
        exact ih c
    · rw [if_neg hr] at h
      simp at h
  | bunpin b =>
    have hpb := hp b rfl
    simp only [step] at h
    by_cases hr : 0 < (s.buf b).refcnt
    · rw [if_pos hr] at h
      simp only [Option.some.injEq] at h
      subst h
      by_cases hcb : c = b
      · subst hcb
        have := ih c
        simp only [bunpin, pinsAfter, setBuf_buf_same, upd_same]
        have : ((pins c - 1 : Nat) : Int) = (pins c : Int) - 1 := by omega
        rw [this]
        omega
      · simp only [bunpin, pinsAfter, setBuf_buf_other _ _ _ _ hcb, upd_other _ _ _ _ hcb]
        exact ih c
    · rw [if_neg hr] at h
      simp at h
  | modify p b v =>
    show (s1.buf c).refcnt = (pins c : Int) + _ + _
    simp only [step] at h
    by_cases hh : holdingsleep s p b = true
    · rw [if_pos hh] at h
      simp only [Option.some.injEq] at h
      subst h
      by_cases hcb : c = b
      · subst hcb
        simpa [setData] using ih c
      · simp only [setData, setBuf_buf_other _ _ _ _ hcb]
        exact ih c
    · rw [if_neg hh] at h
      simp at h

/-- A completed call leaves the device and block number of a referenced slot
alone. -/
theorem step_keeps_block {nb : Nat} {s s1 : Bcache} {op : Op} (h : step nb s op = some s1)
    {c : Nat} (hc : (s.buf c).refcnt ≠ 0) :
    (s1.buf c).dev = (s.buf c).dev ∧ (s1.buf c).blockno = (s.buf c).blockno := by
  by_cases hop : ∀ p dev blockno, op ≠ Op.bread p dev blockno
  · have := (step_fields h hop).1 c
    exact ⟨this.1, this.2.1⟩
  · push_neg at hop
    obtain ⟨p, dev, blockno, rfl⟩ := hop
    obtain ⟨b, s0, hcase, _, _, hf, _, _⟩ := step_bread h
    rw [(hf c).1, (hf c).2.1]
    by_cases hcb : c = b
    · subst hcb
      rcases hcase.chosen with hk | h0
      · exact ⟨hk.1, hk.2.1⟩
      · exact absurd h0 hc
    · rw [hcase.frame.1 c hcb]
      exact ⟨rfl, rfl⟩

/-- States reached with callers asleep are states reached by atomically
executed calls: going to sleep changes the cache as a `bpin` does, and a
sleeper that wakes leaves the cache as its `bread`, made at that moment and
followed by a `bunpin`, leaves it.  The count of every slot is the number of
its unmatched pins, plus the number of callers asleep on it, plus one when
its lock is held; and the slot of a sleeper carries the block the sleeper
asked for. -/
theorem ReachableS.facts {nb nbuf : Nat} (hnb : 0 < nb) {s : Bcache} {pins : Nat → Nat}
    {ws : List Sleeper} (hs : ReachableS nb nbuf s pins ws) :
    Reachable nb nbuf s ∧
    (∀ c, (s.buf c).refcnt =
      (pins c : Int) + (ws.countP (fun v => decide (v.b = c)) : Int) +
        (if (s.buf c).lock = none then 0 else 1)) ∧
    (∀ w, w ∈ ws → (s.buf w.b).dev = w.dev ∧ (s.buf w.b).blockno = w.blockno) := by
  induction hs with
  | init disk =>
    refine ⟨Reachable.init disk, fun c => ?_, fun w hw => by simp at hw⟩
    rw [(binitOn_spec disk nb nbuf).1]
    simp [Buf.zero]
  | @call s s1 pins ws op _ hp h ih =>
    obtain ⟨hR, hC, hW⟩ := ih
    refine ⟨Reachable.step op hR h, step_count h hp hC, fun w hw => ?_⟩
    have hpos : (s.buf w.b).refcnt ≠ 0 := by
      have h1 := hC w.b
      have h2 : 0 < ws.countP (fun v => decide (v.b = w.b)) :=
        List.countP_pos_iff.2 ⟨w, hw, by simp⟩
      split at h1 <;> omega
    have := step_keeps_block h hpos
    rw [this.1, this.2]
    exact hW w hw
  | @sleep s s1 pins ws p dev blockno b _ h hb ih =>
    obtain ⟨hR, hC, hW⟩ := ih
    obtain ⟨b1, hcase, hl⟩ := bread_blocked h
    have hbb : b1 = b := by
      have := bgetSlot_of_case hcase
      rw [hb] at this
      exact (Option.some.inj this).symm
    subst hbb
    have hl0 : (s.buf b1).lock ≠ none := by rw [← hcase.frame.2.1]; exact hl
    have hpos : 0 < (s.buf b1).refcnt := by
      have := hC b1
      rw [if_neg hl0] at this
      omega
    have hkey := hcase.key
    cases hcase with
    | hit _ hh =>
      refine ⟨Reachable.step (Op.bpin b1) hR (by simp [step, hpos, bpin]), fun c => ?_,
        fun w hw => ?_⟩
      · rw [List.countP_cons]
        by_cases hcb : c = b1
        · subst hcb
          have := hC c
          rw [if_neg hl0] at this
          simp only [setBuf_buf_same, decide_True, if_true]
          rw [if_neg hl0]
          push_cast
          omega
        · have hne : ¬ b1 = c := fun e => hcb e.symm
          simp only [setBuf_buf_other _ _ _ _ hcb, hne, decide_False, Bool.false_eq_true,
            if_false, Nat.add_zero]
          exact hC c
      · rcases List.mem_cons.1 hw with rfl | hw
        · exact hkey
        · by_cases hcb : w.b = b1
          · rw [hcb]
            simp only [setBuf_buf_same]
            rw [← hcb]
            exact hW w hw
          · rw [setBuf_buf_other _ _ _ _ hcb]
            exact hW w hw
    | recycle _ h1 h2 =>
      have h0 := (scanFree_some h2).1
      omega
    | steal i _ h1 h2 h3 =>
      have h0 := (scanFree_some (scanOthers_some h3).2.2).1
      omega
  | @wake s s1 pins ws w _ hw h ih =>
    obtain ⟨hR, hC, hW⟩ := ih
    have hI := hR.inv hnb
    obtain ⟨_, hl, hd, hn, hr, hl1, hv1, _, ho, hhb, hdk⟩ := breadWake_ok h
    have hcnt := countP_erase_mem hw
    have hpos : 0 < (s.buf w.b).refcnt := by
      have h1 := hC w.b
      have h2 := hcnt w.b
      rw [if_pos hl] at h1
      simp only [if_true] at h2
      omega
    have hv := hR.referenced_valid hnb w.b (ne_of_gt hpos)
    have hs1 := hv1 (by omega)
    have hhit : scanHit s.buf w.dev w.blockno (s.hashbucket (w.blockno % nb)) = some w.b := by
      have := hI.first _ w.b (hI.loc w.b (ne_of_gt hpos)) (ne_of_gt hpos)
      rw [(hW w hw).1, (hW w hw).2] at this
      exact this
    have hbr : bread nb s w.p w.dev w.blockno =
        .ok w.b ((s.setBuf w.b { s.buf w.b with refcnt := (s.buf w.b).refcnt + 1 }).setBuf w.b
          { s.buf w.b with refcnt := (s.buf w.b).refcnt + 1, lock := some w.p }) := by
      rw [bread_eq_wake (BgetCase.hit w.b hhit) w.p, breadWake_free (by simpa using hl)]
      simp [hv]
    have hun : bunpin ((s.setBuf w.b { s.buf w.b with refcnt := (s.buf w.b).refcnt + 1 }).setBuf
        w.b { s.buf w.b with refcnt := (s.buf w.b).refcnt + 1, lock := some w.p }) w.b = s1 := by
      rw [hs1]
      simp only [bunpin, setBuf_setBuf, setBuf_buf_same]
      congr 1
      simp
    have hst1 : step nb s (Op.bread w.p w.dev w.blockno) =
        some ((s.setBuf w.b { s.buf w.b with refcnt := (s.buf w.b).refcnt + 1 }).setBuf w.b
          { s.buf w.b with refcnt := (s.buf w.b).refcnt + 1, lock := some w.p }) := by
      show (match bread nb s w.p w.dev w.blockno with
        | .ok _ s1 => some s1
        | _ => none) = _
      rw [hbr]
    have hst2 : step nb ((s.setBuf w.b { s.buf w.b with refcnt := (s.buf w.b).refcnt + 1 }).setBuf
        w.b { s.buf w.b with refcnt := (s.buf w.b).refcnt + 1, lock := some w.p })
        (Op.bunpin w.b) = some s1 := by
      show (if 0 < _ then some (bunpin _ w.b) else none) = _
      rw [if_pos (by simp only [setBuf_buf_same]; omega), hun]
    refine ⟨Reachable.step (Op.bunpin w.b) (Reachable.step (Op.bread w.p w.dev w.blockno) hR
        hst1) hst2, fun c => ?_, fun v hv => ?_⟩
    · have h1 := hC c
      have h2 := hcnt c
      by_cases hcb : c = w.b
      · subst hcb
        rw [hr, hl1]
        rw [if_pos hl] at h1
        simp only [if_true] at h2
        simp
        omega
      · have hne : ¬ w.b = c := fun e => hcb e.symm
        rw [ho c hcb]
        simp only [hne, if_false, Nat.add_zero] at h2
        rw [← h2]
        exact h1
    · have hv0 := List.mem_of_mem_erase hv
      by_cases hcb : v.b = w.b
      · rw [hcb, hd, hn, ← hcb]
        exact hW v hv0
      · rw [ho _ hcb]
        exact hW v hv0

/-- A `bread` that sleeps: it sleeps on the slot of `bgetSlot`, whose lock is
held, without a disk transfer, and its caller is one more sleeper of a
reachable state. -/
theorem ReachableS.sleeps {nb nbuf : Nat} (hnb : 0 < nb) {s s1 : Bcache} {pins : Nat → Nat}
    {ws : List Sleeper} (hs : ReachableS nb nbuf s pins ws) {p dev blockno : Nat}
    (h : bread nb s p dev blockno = .blocked s1) :
    ∃ b, bgetSlot nb s dev blockno = some b ∧ (s.buf b).lock ≠ none ∧
      (s.buf b).dev = dev ∧ (s.buf b).blockno = blockno ∧
      s1 = s.setBuf b { s.buf b with refcnt := (s.buf b).refcnt + 1 } ∧
      ReachableS nb nbuf s1 pins (⟨p, dev, blockno, b⟩ :: ws) := by
  obtain ⟨_, hC, _⟩ := hs.facts hnb
  obtain ⟨b, hcase, hl⟩ := bread_blocked h
  have hb := bgetSlot_of_case hcase
  have hl0 : (s.buf b).lock ≠ none := by rw [← hcase.frame.2.1]; exact hl
  have hpos : 0 < (s.buf b).refcnt := by
    have := hC b
    rw [if_neg hl0] at this
    omega
  refine ⟨b, hb, hl0, ?_, ?_, ?_, ReachableS.sleep p dev blockno b hs h hb⟩
  · rcases hcase.chosen with hk | h0
    · rw [← hk.1]; exact hcase.key.1
    · omega
  · rcases hcase.chosen with hk | h0
    · rw [← hk.2.1]; exact hcase.key.2
    · omega
  · cases hcase with
    | hit _ hh => rfl
    | recycle _ h1 h2 =>
      have h0 := (scanFree_some h2).1
      omega
    | steal i _ h1 h2 h3 =>
      have h0 := (scanFree_some (scanOthers_some h3).2.2).1
      omega

/-- A sleeper that finds the lock of its slot free: the slot still carries
the block it asked for, is referenced and valid; the sleeper takes the lock
and its `bread` returns the slot with no disk transfer, the count, the
content, the other slots and the lists as they are. -/
theorem ReachableS.wakes {nb nbuf : Nat} (hnb : 0 < nb) {s : Bcache} {pins : Nat → Nat}
    {ws : List Sleeper} (hs : ReachableS nb nbuf s pins ws) {w : Sleeper} (hw : w ∈ ws) :
    (s.buf w.b).dev = w.dev ∧ (s.buf w.b).blockno = w.blockno ∧ (s.buf w.b).valid = 1 ∧
    1 ≤ (s.buf w.b).refcnt ∧
    ((s.buf w.b).lock = none →
      breadWake s w.p w.b = .ok w.b (s.setBuf w.b { s.buf w.b with lock := some w.p })) ∧
    ((s.buf w.b).lock ≠ none → breadWake s w.p w.b = .blocked s) := by
  obtain ⟨hR, hC, hW⟩ := hs.facts hnb
  have hpos : 0 < (s.buf w.b).refcnt := by
    have h1 := hC w.b
    have h2 : 0 < ws.countP (fun v => decide (v.b = w.b)) :=
      List.countP_pos_iff.2 ⟨w, hw, by simp⟩
    split at h1 <;> omega
  have hv := hR.referenced_valid hnb w.b (ne_of_gt hpos)
  refine ⟨(hW w hw).1, (hW w hw).2, hv, hpos, fun hl => ?_, fun hl => breadWake_held hl⟩
  rw [breadWake_free hl, if_neg (by omega)]

/-- C1: postcondition of `bread`.  A `bread(dev, blockno)` that does not abort
either returns at once or sleeps on the held content lock of its slot and
returns when it is woken with the lock free.
* From a state reached by atomically executed calls, when the call returns
  slot `b` at once, the slot carries `dev` and `blockno`, has `valid = 1` and
  `refcnt >= 1`, and its content lock is held by the caller; the call added
  one disk read of `(dev, blockno)` to the trace exactly when the slot
  returned by `bget` had `valid = 0`, and nothing otherwise.
* A state reached with callers asleep is a state reached by atomically
  executed calls, so the above holds there too.  There, a call that sleeps
  sleeps on the slot chosen by `bget`, whose lock is held, and its caller is
  one more sleeper of a reachable state.
* In any state reached with callers asleep, a sleeper whose slot has a free
  lock returns; and when a sleeper returns, it returns the slot it slept on,
  the slot carries the `dev` and `blockno` it asked for, has `valid = 1` and
  `refcnt >= 1`, and its content lock is held by the sleeper; the disk read
  of `(dev, blockno)` was added to the trace exactly when the slot returned
  by `bget`, that is, the slot with the lock taken, had `valid = 0`, and
  nothing otherwise. -/
theorem bread_post (nb nbuf : Nat) (hnb : 0 < nb) :
    (∀ (s : Bcache), Reachable nb nbuf s → ∀ (p dev blockno b : Nat) (s2 : Bcache),
      bread nb s p dev blockno = .ok b s2 →
      (s2.buf b).dev = dev ∧ (s2.buf b).blockno = blockno ∧ (s2.buf b).valid = 1 ∧
      1 ≤ (s2.buf b).refcnt ∧ (s2.buf b).lock = some p ∧
      ∃ s1, bget nb s p dev blockno = .ok b s1 ∧
        (s2.log = s.log ++ [DiskEvent.read dev blockno] ↔ (s1.buf b).valid = 0) ∧
        (s2.log = s.log ↔ (s1.buf b).valid ≠ 0)) ∧
    (∀ (s : Bcache) (pins : Nat → Nat) (ws : List Sleeper), ReachableS nb nbuf s pins ws →
      Reachable nb nbuf s ∧
      (∀ (p dev blockno : Nat) (s1 : Bcache), bread nb s p dev blockno = .blocked s1 →
        ∃ b, bgetSlot nb s dev blockno = some b ∧ (s.buf b).lock ≠ none ∧
          s1.log = s.log ∧ ReachableS nb nbuf s1 pins (⟨p, dev, blockno, b⟩ :: ws)) ∧
      (∀ (w : Sleeper), w ∈ ws →
        ((s.buf w.b).lock = none → ∃ s2, breadWake s w.p w.b = .ok w.b s2) ∧
        ∀ (r : Nat) (s2 : Bcache), breadWake s w.p w.b = .ok r s2 →
          r = w.b ∧
          (s2.buf w.b).dev = w.dev ∧ (s2.buf w.b).blockno = w.blockno ∧
          (s2.buf w.b).valid = 1 ∧ 1 ≤ (s2.buf w.b).refcnt ∧ (s2.buf w.b).lock = some w.p ∧
          ∃ s1, acquiresleep s w.p w.b = .ok w.b s1 ∧
            (s2.log = s.log ++ [DiskEvent.read w.dev w.blockno] ↔ (s1.buf w.b).valid = 0) ∧
            (s2.log = s.log ↔ (s1.buf w.b).valid ≠ 0))) := by
  refine ⟨fun s hs p dev blockno b s2 h => bread_returns_post nb nbuf hnb s hs p dev blockno b s2 h,
    fun s pins ws hs => ⟨(hs.facts hnb).1, fun p dev blockno s1 h => ?_, fun w hw => ?_⟩⟩
  · obtain ⟨b, hb, hl, _, _, hs1, hr⟩ := hs.sleeps hnb h
    exact ⟨b, hb, hl, by rw [hs1]; rfl, hr⟩
  · obtain ⟨hd, hn, hv, hr, hfree, _⟩ := hs.wakes hnb hw
    refine ⟨fun hl => ⟨_, hfree hl⟩, fun r s2 h => ?_⟩
    have hl := (breadWake_ok h).2.1
    rw [hfree hl] at h
    simp only [Outcome.ok.injEq] at h
    obtain ⟨rfl, rfl⟩ := h
    refine ⟨rfl, by simpa using hd, by simpa using hn, by simpa using hv, by simpa using hr,
      by simp, s.setBuf w.b { s.buf w.b with lock := some w.p }, by simp [acquiresleep, hl],
      ?_, ?_⟩
    · simp [hv]
    · simp [hv]

/-- Witness of C1: `bread(0, 0)` by process 1 on the fresh cache returns slot
26 at once; `bread(0, 0)` by process 2 then sleeps on slot 26; after the
`brelse` of slot 26 by process 1, process 2 wakes and its `bread` returns
slot 26, valid, referenced and locked by process 2. -/
theorem bread_post_witness :
    (((bread NBUCKETS (binit NBUCKETS 30) 1 0 0).state.buf 26).dev = 0 ∧
      ((bread NBUCKETS (binit NBUCKETS 30) 1 0 0).state.buf 26).blockno = 0 ∧
      ((bread NBUCKETS (binit NBUCKETS 30) 1 0 0).state.buf 26).valid = 1 ∧
      1 ≤ ((bread NBUCKETS (binit NBUCKETS 30) 1 0 0).state.buf 26).refcnt ∧
      ((bread NBUCKETS (binit NBUCKETS 30) 1 0 0).state.buf 26).lock = some 1) ∧
    (((breadWake (brelse NBUCKETS (bread NBUCKETS
        (bread NBUCKETS (binit NBUCKETS 30) 1 0 0).state 2 0 0).state 1 26).state
        2 26).state.buf 26).dev = 0 ∧
      ((breadWake (brelse NBUCKETS (bread NBUCKETS
        (bread NBUCKETS (binit NBUCKETS 30) 1 0 0).state 2 0 0).state 1 26).state
        2 26).state.buf 26).blockno = 0 ∧
      ((breadWake (brelse NBUCKETS (bread NBUCKETS
        (bread NBUCKETS (binit NBUCKETS 30) 1 0 0).state 2 0 0).state 1 26).state
        2 26).state.buf 26).valid = 1 ∧
      1 ≤ ((breadWake (brelse NBUCKETS (bread NBUCKETS
        (bread NBUCKETS (binit NBUCKETS 30) 1 0 0).state 2 0 0).state 1 26).state
        2 26).state.buf 26).refcnt ∧
      ((breadWake (brelse NBUCKETS (bread NBUCKETS
        (bread NBUCKETS (binit NBUCKETS 30) 1 0 0).state 2 0 0).state 1 26).state
        2 26).state.buf 26).lock = some 2) :=
  have h1 := (bread_post NBUCKETS 30 (by decide)).1 _ (Reachable.init (fun _ _ => 0)) 1 0 0 26
    (bread NBUCKETS (binit NBUCKETS 30) 1 0 0).state rfl
  have h2 := (((bread_post NBUCKETS 30 (by decide)).2
    (brelse NBUCKETS (bread NBUCKETS
      (bread NBUCKETS (binit NBUCKETS 30) 1 0 0).state 2 0 0).state 1 26).state _ _
    (@ReachableS.call NBUCKETS 30
      (bread NBUCKETS (bread NBUCKETS (binit NBUCKETS 30) 1 0 0).state 2 0 0).state _ _ _
      (Op.brelse 1 26)
      (@ReachableS.sleep NBUCKETS 30 (bread NBUCKETS (binit NBUCKETS 30) 1 0 0).state _ _ _
        2 0 0 26
        (@ReachableS.call NBUCKETS 30 (binit NBUCKETS 30) _ _ _ (Op.bread 1 0 0)
          (ReachableS.init (fun _ _ => 0)) (fun _ he => Op.noConfusion he) rfl)
        rfl rfl)
      (fun _ he => Op.noConfusion he) rfl)).2.2 ⟨2, 0, 0, 26⟩ (List.mem_cons_self _ _)).2 26
    (breadWake (brelse NBUCKETS (bread NBUCKETS
      (bread NBUCKETS (binit NBUCKETS 30) 1 0 0).state 2 0 0).state 1 26).state 2 26).state rfl
  ⟨⟨h1.1, h1.2.1, h1.2.2.1, h1.2.2.2.1, h1.2.2.2.2.1⟩,
    ⟨h2.2.1, h2.2.2.1, h2.2.2.2.1, h2.2.2.2.2.1, h2.2.2.2.2.2.1⟩⟩

/-- C9: a cache hit avoids the disk.
* After a `bread(dev, blockno)` that returned slot `b` from a reachable
  state, and any run of completed calls during which `b` is not restamped
  for another block, a further `bread(dev, blockno)` by process `q` finds
  `b`: if the content lock of `b` is free it returns `b` with no disk
  transfer, the count of `b` one higher, the lock taken, and the content of
  `b`, every other slot and every bucket list as they were; if the lock is
  held the caller sleeps on the lock of `b`, the count of `b` already one
  higher, with no disk transfer either.
* A state reached with callers asleep is a state reached by atomically
  executed calls, so the above holds there too.  There, a `bread(dev,
  blockno)` that sleeps while a valid slot `b` carries the block sleeps on
  `b`, and its caller is one more sleeper of a reachable state.
* In any state reached with callers asleep, a sleeper whose slot has a free
  lock wakes and its `bread` returns the slot it slept on, with no disk
  transfer: the trace and the disk are as they were, the slot has its lock
  taken and is otherwise as it was (content and count, which was incremented
  once when the caller went to sleep), and every other slot and every bucket
  list is as it was. -/
theorem bread_hit_again (nb nbuf : Nat) (hnb : 0 < nb) :
    (∀ (s : Bcache), Reachable nb nbuf s → ∀ (p dev blockno b : Nat) (s1 : Bcache),
      bread nb s p dev blockno = .ok b s1 → ∀ (s2 : Bcache), Kept nb b dev blockno s1 s2 →
      ∀ (q : Nat),
      ((s2.buf b).lock = none →
        ∃ s3, bread nb s2 q dev blockno = .ok b s3 ∧ s3.log = s2.log ∧ s3.disk = s2.disk ∧
          s3.buf b = { s2.buf b with refcnt := (s2.buf b).refcnt + 1, lock := some q } ∧
          (∀ c, c ≠ b → s3.buf c = s2.buf c) ∧ s3.hashbucket = s2.hashbucket) ∧
      ((s2.buf b).lock ≠ none →
        ∃ s3, bread nb s2 q dev blockno = .blocked s3 ∧ s3.log = s2.log ∧
          s3.disk = s2.disk ∧
          s3.buf b = { s2.buf b with refcnt := (s2.buf b).refcnt + 1 } ∧
          (∀ c, c ≠ b → s3.buf c = s2.buf c) ∧ s3.hashbucket = s2.hashbucket ∧
          bgetSlot nb s2 dev blockno = some b)) ∧
    (∀ (s : Bcache) (pins : Nat → Nat) (ws : List Sleeper), ReachableS nb nbuf s pins ws →
      Reachable nb nbuf s ∧
      (∀ (q dev blockno b : Nat) (s3 : Bcache),
        (s.buf b).dev = dev → (s.buf b).blockno = blockno → (s.buf b).valid ≠ 0 →
        bread nb s q dev blockno = .blocked s3 →
        bgetSlot nb s dev blockno = some b ∧
          s3 = s.setBuf b { s.buf b with refcnt := (s.buf b).refcnt + 1 } ∧
          ReachableS nb nbuf s3 pins (⟨q, dev, blockno, b⟩ :: ws)) ∧
      (∀ (w : Sleeper), w ∈ ws → (s.buf w.b).lock = none →
        ∃ s1, breadWake s w.p w.b = .ok w.b s1 ∧ s1.log = s.log ∧ s1.disk = s.disk ∧
          s1.buf w.b = { s.buf w.b with lock := some w.p } ∧
          (∀ c, c ≠ w.b → s1.buf c = s.buf c) ∧ s1.hashbucket = s.hashbucket)) := by
  refine ⟨fun s hs p dev blockno b s1 h1 s2 hk q =>
      bread_again nb nbuf hnb s hs p dev blockno b s1 h1 s2 hk q,
    fun s pins ws hs => ⟨(hs.facts hnb).1, fun q dev blockno b s3 hd hn hv h => ?_,
      fun w hw hl => ?_⟩⟩
  · obtain ⟨b1, hb1, _, _, _, hs3, hr⟩ := hs.sleeps hnb h
    have hC := (hs.facts hnb).1.validCached hnb b hv
    rw [hd, hn] at hC
    have hb : bgetSlot nb s dev blockno = some b := by simp [bgetSlot, hC.2.2.2]
    rw [hb1] at hb
    have hbb : b1 = b := Option.some.inj hb
    subst hbb
    exact ⟨hb1, hs3, hr⟩
  · obtain ⟨_, _, _, _, hfree, _⟩ := hs.wakes hnb hw
    exact ⟨_, hfree hl, rfl, rfl, by simp, fun c hc => by simp [hc], rfl⟩

/-- Witness of C9: `bread(0, 0)` by process 1 on the fresh cache returns slot
26; after its release a second `bread(0, 0)` returns slot 26 again and the
trace of disk transfers does not grow.  If instead process 2 calls
`bread(0, 0)` before the release, it sleeps on slot 26, and once process 1
has released the slot it wakes and returns slot 26, the trace of disk
transfers as it was. -/
theorem bread_hit_again_witness :
    (∃ s3, bread NBUCKETS
        (brelse NBUCKETS (bread NBUCKETS (binit NBUCKETS 30) 1 0 0).state 1 26).state 2 0 0
        = .ok 26 s3 ∧
      s3.log = (brelse NBUCKETS (bread NBUCKETS (binit NBUCKETS 30) 1 0 0).state 1 26).state.log) ∧
    (∃ s1, breadWake (brelse NBUCKETS (bread NBUCKETS
          (bread NBUCKETS (binit NBUCKETS 30) 1 0 0).state 2 0 0).state 1 26).state 2 26
        = .ok 26 s1 ∧
      s1.log = (brelse NBUCKETS (bread NBUCKETS
          (bread NBUCKETS (binit NBUCKETS 30) 1 0 0).state 2 0 0).state 1 26).state.log) :=
  have ⟨s3, h, hlog, _⟩ := ((bread_hit_again NBUCKETS 30 (by decide)).1 _
    (Reachable.init (fun _ _ => 0)) 1 0 0 26
    (bread NBUCKETS (binit NBUCKETS 30) 1 0 0).state rfl
    (brelse NBUCKETS (bread NBUCKETS (binit NBUCKETS 30) 1 0 0).state 1 26).state
    (Kept.step (Op.brelse 1 26) (Kept.refl _) rfl (by decide) (by decide)) 2).1 (by decide)
  have ⟨s1, h2, hlog2, _⟩ := ((bread_hit_again NBUCKETS 30 (by decide)).2
    (brelse NBUCKETS (bread NBUCKETS
      (bread NBUCKETS (binit NBUCKETS 30) 1 0 0).state 2 0 0).state 1 26).state _ _
    (@ReachableS.call NBUCKETS 30
      (bread NBUCKETS (bread NBUCKETS (binit NBUCKETS 30) 1 0 0).state 2 0 0).state _ _ _
      (Op.brelse 1 26)
      (@ReachableS.sleep NBUCKETS 30 (bread NBUCKETS (binit NBUCKETS 30) 1 0 0).state _ _ _
        2 0 0 26
        (@ReachableS.call NBUCKETS 30 (binit NBUCKETS 30) _ _ _ (Op.bread 1 0 0)
          (ReachableS.init (fun _ _ => 0)) (fun _ he => Op.noConfusion he) rfl)
        rfl rfl)
      (fun _ he => Op.noConfusion he) rfl)).2.2 ⟨2, 0, 0, 26⟩ (List.mem_cons_self _ _)
    (by decide)
  ⟨⟨s3, h, hlog⟩, ⟨s1, h2, hlog2⟩⟩

end BufCache
